import Mathlib

/-!
# A verification development for the JavaScript minifier `js/js.go`

The development embeds the scope tracker (`renamer`), the statement fuser
(`stmtToExpr`, `mergeStmtList`) and the printer (`minifyExpr`,
`minifyBooleanExpr`, ...) of `js/js.go` as Lean functions and proves
properties about them.

Conventions of the embedding:

* a Go `[]byte` is a `List Nat` of byte values, arithmetic on a byte is taken
  modulo 256;
* a Go `map[string]T` is an association list, enumerated in list order and
  read with `lookup` (first match); `mapSet` overwrites an existing key;
* a Go slice used as a stack keeps its order: the top is the last element;
* a run-time panic (index out of range, nil dereference) is the result `none`;
* loops whose termination is not structural take a `fuel` argument and give
  `none` when it is exhausted.
-/

namespace JS

/-! ## Bytes and maps -/

/-- A byte string (`[]byte` or `string`). -/
abbrev Name := List Nat

/-- The bytes of an ASCII string literal. -/
def bytes (s : String) : Name := s.toList.map Char.toNat

/-- A Go map with string keys, as an association list. -/
abbrev GoMap (β : Type) := List (Name × β)

/-- Map read `m[k]` with the `ok` flag: the first entry with key `k`. -/
def lookup {β : Type} (m : GoMap β) (k : Name) : Option β :=
  match m with
  | [] => none
  | (k', v) :: rest => if k' = k then some v else lookup rest k

/-- Map write `m[k] = v`: overwrite the entry of `k`, or add one. -/
def mapSet {β : Type} (m : GoMap β) (k : Name) (v : β) : GoMap β :=
  match m with
  | [] => [(k, v)]
  | (k', v') :: rest => if k' = k then (k, v) :: rest else (k', v') :: mapSet rest k v

/-- Bytewise lexicographic order of Go strings (`a < b`). -/
def nameLt : Name → Name → Bool
  | [], [] => false
  | [], _ :: _ => true
  | _ :: _, [] => false
  | a :: as, b :: bs => if a < b then true else if b < a then false else nameLt as bs

/-- Insertion of a string into a sorted list of strings. -/
def insertSorted (x : Name) : List Name → List Name
  | [] => [x]
  | y :: ys => if nameLt y x then y :: insertSorted x ys else x :: y :: ys

/-- The result of `sort.Strings`: the strings in ascending order. -/
def sortStrings : List Name → List Name
  | [] => []
  | x :: xs => insertSorted x (sortStrings xs)

/-! ## The renamer (`js.go`, lines 1248-1402) -/

/-- Modelled from the spec: the record `js.Var` of the parser package, which is
not part of the source (spec section 3: a declared name maps to
`isDeclared` and `useCount`). -/
structure Var where
  Declared : Bool
  Uses : Nat
  deriving DecidableEq, Repr

/-- Modelled from the spec: the record `js.Scope` of the parser package, which
is not part of the source: the variable table of one lexical scope. -/
structure Scope where
  Vars : GoMap Var
  deriving DecidableEq, Repr

/-- The state `renamer`. -/
structure renamer where
  reserved : List Name
  vars : List (GoMap Var)
  renames : List (GoMap Name)
  lastRename : List Name
  deterministic : Bool
  deriving DecidableEq, Repr

/-- The constructor `newRenamer`; the tables `js.Keywords` and `js.Globals`
of the parser package are parameters. -/
def newRenamer (keywords globals undeclared : List Name) (deterministic : Bool) : renamer :=
  { reserved := keywords ++ globals ++ undeclared
    vars := []
    renames := [[]]
    lastRename := [bytes "`"]
    deterministic := deterministic }

/-- The method `inGlobalScope`. -/
def renamer.inGlobalScope (r : renamer) : Bool :=
  r.vars.length == 0

/-- The method `isReserved`. -/
def renamer.isReserved (r : renamer) (name : Name) : Bool :=
  if name ∈ r.reserved then true
  else if !r.inGlobalScope then
    match r.vars.getLast? with
    | some top =>
      match lookup top name with
      | some v => decide (0 < v.Uses)
      | none => false
    | none => false
  else false

/-- The inner loop `for j := i + 1; j < len(name); j++ { name[j] = 'a' }`. -/
def fillA (name : Name) (i : Nat) : Name :=
  name.take (i + 1) ++ List.replicate (name.length - (i + 1)) 97

/-- The carry loop of `next`: `k` is the number of positions still to visit,
the position visited is `k - 1`, from `len(name) - 2` down to `0`. There is no
`break`: every position that is not `Z` is incremented. -/
def carryLoop : Nat → Name → Bool → Name × Bool
  | 0, name, isLast => (name, isLast)
  | i + 1, name, isLast =>
    if name.getD i 0 ≠ 90 then
      let c := name.getD i 0
      let name1 := name.set i (if c = 122 then 65 else (c + 1) % 256)
      carryLoop i (fillA name1 i) false
    else carryLoop i name isLast

/-- The method `next`: the successor of a candidate name. The bytes are
`z` = 122, `A` = 65, `Z` = 90, `_` = 95, `$` = 36, `a` = 97. Indexing the last
byte of an empty name panics. -/
def next (name : Name) : Option Name :=
  match name.getLast? with
  | none => none
  | some last =>
    let n := name.length
    if last = 122 then some (name.set (n - 1) 65)
    else if last = 90 then some (name.set (n - 1) 95)
    else if last = 95 then some (name.set (n - 1) 36)
    else if last = 36 then
      let (name1, isLast) := carryLoop (n - 1) name true
      if isLast then some (List.replicate n 97 ++ [97]) else some name1
    else some (name.set (n - 1) ((last + 1) % 256))

/-- The loop `for r.isReserved(rename) { rename = r.next(rename) }`. -/
def skipReserved : Nat → renamer → Name → Option Name
  | fuel, r, rename =>
    if r.isReserved rename then
      match fuel with
      | 0 => none
      | fuel + 1 =>
        match next rename with
        | some rename1 => skipReserved fuel r rename1
        | none => none
    else some rename

/-- The first loop of `enterScope`: a name that the scope uses without
declaring it inherits the entry of the parent table. -/
def inheritRenames (parentRenames : GoMap Name) : GoMap Var → GoMap Name → GoMap Name
  | [], renames => renames
  | (name, v) :: rest, renames =>
    if 0 < v.Uses ∧ v.Declared = false then
      match lookup parentRenames name with
      | some rename => inheritRenames parentRenames rest (mapSet renames name rename)
      | none => inheritRenames parentRenames rest renames
    else inheritRenames parentRenames rest renames

/-- The body shared by both assignment loops of `enterScope`, over the names
to bind in the order of iteration: advance the candidate once, skip the
reserved candidates, store a copy. It returns the table and the candidate. -/
def assignNames (fuel : Nat) (r : renamer) : List Name → GoMap Name → Name → Option (GoMap Name × Name)
  | [], renames, rename => some (renames, rename)
  | name :: rest, renames, rename =>
    match next rename with
    | none => none
    | some rename1 =>
      match skipReserved fuel r rename1 with
      | none => none
      | some rename2 => assignNames fuel r rest (mapSet renames name rename2) rename2

/-- The names of a variable table that are declared and used, in the order of
iteration. -/
def boundNames (vars : GoMap Var) : List Name :=
  (vars.filter (fun p => p.2.Declared && decide (0 < p.2.Uses))).map Prod.fst

/-- The method `enterScope`. The argument `isBlock` is not used by this
renamer. -/
def renamer.enterScope (fuel : Nat) (r : renamer) (scope : Scope) (_isBlock : Bool) : Option renamer :=
  let n := r.renames.length
  let inherited : Option (GoMap Name) :=
    if !r.inGlobalScope then
      match r.renames.get? (n - 1) with
      | some parentRenames => some (inheritRenames parentRenames scope.Vars [])
      | none => none
    else some []
  match inherited with
  | none => none
  | some renames0 =>
    let bound := if r.deterministic then sortStrings (boundNames scope.Vars) else boundNames scope.Vars
    match assignNames fuel r bound renames0 (bytes "`") with
    | none => none
    | some (renames, rename) =>
      some { r with
        vars := r.vars ++ [scope.Vars]
        renames := r.renames ++ [renames]
        lastRename := r.lastRename ++ [rename] }

/-- The method `exitScope`. Each stack is cut to `len(r.vars) - 1` elements;
cutting at `-1` panics. A cut beyond the length of a stack is not reachable
and is left undefined here. -/
def renamer.exitScope (r : renamer) : Option renamer :=
  let n := r.vars.length
  if n = 0 then none
  else if r.renames.length < n - 1 ∨ r.lastRename.length < n - 1 then none
  else some { r with
    vars := r.vars.take (n - 1)
    renames := r.renames.take (n - 1)
    lastRename := r.lastRename.take (n - 1) }

/-- The loop of `rename`: `k` is the number of tables still to visit, the
table visited is `renames[k - 1]`. -/
def renameLoop (renames : List (GoMap Name)) (name : Name) : Nat → Name
  | 0 => name
  | i + 1 =>
    match renames.get? i with
    | some tbl =>
      match lookup tbl name with
      | some rename => rename
      | none => renameLoop renames name i
    | none => renameLoop renames name i

/-- The method `rename`. -/
def renamer.rename (r : renamer) (name : Name) : Name :=
  if r.inGlobalScope then name
  else renameLoop r.renames name r.renames.length

/-- The method `exists`: its body is commented out, it answers `false`. -/
def renamer.«exists» (_r : renamer) (_name : Name) : Bool := false

/-! ## The syntax tree of the parser package

The types of `github.com/tdewolff/parse/v2/js` are not part of the source.
They are declared here with the fields that `js.go` reads and writes. A token
reference `x.Data(m.src)` is the byte string it denotes; an interface or
pointer field that `js.go` tests against `nil` is an `Option`. -/

/-- Modelled from the spec: the token kinds `js.TokenType` of the parser
package, which is not part of the source: the literal kinds, the binary and
unary operators of the operator table of spec section 3 and the keywords that
appear as a field of a tree node. `js.go` tells them apart by name only. -/
inductive TokenType where
  | ErrorToken | IdentifierToken | StringToken | RegExpToken | TemplateToken
  | DecimalToken | BinaryToken | OctalToken | HexadecimalToken
  | TrueToken | FalseToken | NullToken | ThisToken | SuperToken
  | CommaToken | EqToken | AddEqToken | SubEqToken | MulEqToken | DivEqToken | ModEqToken
  | ExpEqToken | LtLtEqToken | GtGtEqToken | GtGtGtEqToken | BitAndEqToken | BitOrEqToken
  | BitXorEqToken | NullishToken | OrToken | AndToken | BitOrToken | BitXorToken | BitAndToken
  | EqEqToken | NotEqToken | EqEqEqToken | NotEqEqToken
  | LtToken | GtToken | LtEqToken | GtEqToken | InstanceofToken | InToken
  | LtLtToken | GtGtToken | GtGtGtToken | AddToken | SubToken | MulToken | DivToken | ModToken
  | ExpToken
  | NotToken | BitNotToken | PosToken | NegToken | PreIncrToken | PreDecrToken
  | PostIncrToken | PostDecrToken | DeleteToken | VoidToken | TypeofToken | AwaitToken
  | VarToken | LetToken | ConstToken | BreakToken | ContinueToken | CaseToken | DefaultToken
  deriving DecidableEq, Repr

/-- Modelled from the spec: the precedence levels `js.OpPrec` of the parser
package, which is not part of the source, ordered as numbers. -/
abbrev OpPrec := Nat

/-- Modelled from the spec: the record `js.Alias` of the parser package, which
is not part of the source: an entry of an import or export list. -/
structure Alias where
  Name : Option (List Nat)
  Binding : List Nat
  deriving DecidableEq, Repr

set_option maxHeartbeats 4000000 in
mutual

/-- Modelled from the spec: the interface `js.IExpr` of the parser package,
which is not part of the source, with the variants of spec section 3 and the
fields that `js.go` uses. -/
inductive Expr where
  | LiteralExpr (tokenType : TokenType) (data : Name)
  | BinaryExpr (op : TokenType) (x y : Expr)
  | UnaryExpr (op : TokenType) (x : Expr)
  | DotExpr (x : Expr) (y : Name)
  | GroupExpr (x : Expr)
  | ArrayExpr (items : List Element)
  | ObjectExpr (items : List Property)
  | TemplateExpr (tag : Option Expr) (items : List TemplatePart) (tail : Name)
  | NewExpr (x : Expr) (args : Option Arguments)
  | NewTargetExpr
  | ImportMetaExpr
  | YieldExpr (generator : Bool) (x : Option Expr)
  | CallExpr (x : Expr) (args : Arguments)
  | IndexExpr (x : Expr) (index : Expr)
  | CondExpr (cond x y : Expr)
  | OptChainExpr (x y : Expr)
  | VarDecl (decl : VarDecl)
  | FuncDecl (decl : FuncDecl)
  | ArrowFunc (decl : ArrowFunc)
  | MethodDecl (decl : MethodDecl)
  | ClassDecl (decl : ClassDecl)

/-- Modelled from the spec: the interface `js.IStmt` of the parser package,
which is not part of the source, with the variants of spec section 3 and the
fields that `js.go` uses. -/
inductive Stmt where
  | ExprStmt (value : Expr)
  | VarDecl (decl : VarDecl)
  | IfStmt (cond : Expr) (body : Option Stmt) (els : Option Stmt)
  | BlockStmt (block : BlockStmt)
  | ReturnStmt (value : Option Expr)
  | LabelledStmt (ref : Name) (value : Stmt)
  | BranchStmt (ty : TokenType) (ref : Option Name)
  | WithStmt (cond : Expr) (body : Stmt)
  | DoWhileStmt (cond : Expr) (body : Stmt)
  | WhileStmt (cond : Expr) (body : Stmt)
  | ForStmt (init cond post : Option Expr) (body : Stmt)
  | ForInStmt (init value : Expr) (body : Stmt)
  | ForOfStmt (await : Bool) (init value : Expr) (body : Stmt)
  | SwitchStmt (init : Expr) (clauses : List CaseClause)
  | ThrowStmt (value : Expr)
  | TryStmt (body : BlockStmt) (binding : Option Binding) (catchBlock finallyBlock : BlockStmt)
  | FuncDecl (decl : FuncDecl)
  | ClassDecl (decl : ClassDecl)
  | DebuggerStmt
  | EmptyStmt
  | ImportStmt (default : Option Name) (aliases : List Alias) (module : Name)
  | ExportStmt (aliases : List Alias) (module : Option Name) (default : Bool) (decl : Option Expr)

/-- Modelled from the spec: the record `js.BlockStmt` of the parser package: a statement list and its scope. -/
inductive BlockStmt where
  | mk (stmts : List Stmt) (scope : Scope)

/-- Modelled from the spec: the record `js.VarDecl` of the parser package: the kind (`var`, `let`, `const`) and the
declarators. -/
inductive VarDecl where
  | mk (tokenType : TokenType) (declarators : List BindingElement)

/-- Modelled from the spec: the record `js.CaseClause` of the parser package of a switch statement. -/
inductive CaseClause where
  | mk (tokenType : TokenType) (cond : Option Expr) (stmts : List Stmt)

/-- Modelled from the spec: the record `js.BindingElement` of the parser package: a binding and its default value. -/
inductive BindingElement where
  | mk (binding : Option Binding) (default : Option Expr)

/-- Modelled from the spec: the interface `js.IBinding` of the parser package. -/
inductive Binding where
  | BindingName (data : Name)
  | BindingArray (items : List BindingElement) (rest : Option Binding)
  | BindingObject (items : List BindingObjectItem) (rest : Option Name)

/-- Modelled from the spec: the record `js.BindingObjectItem` of the parser package. -/
inductive BindingObjectItem where
  | mk (key : Option PropertyName) (value : BindingElement)

/-- Modelled from the spec: the record `js.PropertyName` of the parser package: a literal or a computed name. -/
inductive PropertyName where
  | mk (literalType : TokenType) (literalData : Name) (computed : Option Expr)

/-- Modelled from the spec: the record `js.Property` of the parser package of an object literal. -/
inductive Property where
  | mk (key : Option PropertyName) (value : Expr) (init : Option Expr) (spread : Bool)

/-- Modelled from the spec: the record `js.Element` of the parser package of an array literal. -/
inductive Element where
  | mk (value : Option Expr) (spread : Bool)

/-- Modelled from the spec: a part of a template literal of the parser package:
the text and the expression after it. -/
inductive TemplatePart where
  | mk (value : Name) (expr : Expr)

/-- Modelled from the spec: the record `js.Arguments` of the parser package of a call. -/
inductive Arguments where
  | mk (args : List Expr) (rest : Option Expr)

/-- Modelled from the spec: the record `js.Params` of the parser package of a function. -/
inductive Params where
  | mk (params : List BindingElement) (rest : Option Binding)

/-- Modelled from the spec: the record `js.FuncDecl` of the parser package. -/
inductive FuncDecl where
  | mk (async generator : Bool) (name : Option Name) (params : Params) (body : BlockStmt)
      (scope : Scope)

/-- Modelled from the spec: the record `js.MethodDecl` of the parser package. -/
inductive MethodDecl where
  | mk (static async generator get set : Bool) (name : PropertyName) (params : Params)
      (body : BlockStmt) (scope : Scope)

/-- Modelled from the spec: the record `js.ArrowFunc` of the parser package. -/
inductive ArrowFunc where
  | mk (async : Bool) (params : Params) (body : BlockStmt) (scope : Scope)

/-- Modelled from the spec: the record `js.ClassDecl` of the parser package. -/
inductive ClassDecl where
  | mk (name : Option Name) (extend : Option Expr) (methods : List MethodDecl)

end

/-! ## The state of the printer -/

/-- The state `jsMinifier`: `w` holds the bytes written so far to the output,
`prev` the last token written. The fields `o` and `src` are not needed: the
deterministic flag is in the renamer and every token carries its bytes. -/
structure jsMinifier where
  w : Name
  prev : Name
  needsSemicolon : Bool
  needsSpace : Bool
  renamer : renamer
  deriving DecidableEq, Repr

/-! ## The collaborators of `js.go`

The helper functions and tables that `js.go` calls but that live in other
files or packages are parameters of the embedding, collected in `Ext`. -/

/-- The functions and tables that `js.go` uses and that are not part of the
source: the precedence constants and the byte classifiers of the parser
package, the text of a token, the precedence tables, the literal encoders and
the helper predicates of the package. -/
structure Ext where
  OpExpr : OpPrec
  OpAssign : OpPrec
  OpCoalesce : OpPrec
  OpOr : OpPrec
  OpEquals : OpPrec
  OpUnary : OpPrec
  OpMul : OpPrec
  OpLHS : OpPrec
  OpMember : OpPrec
  binaryLeftPrecMap : TokenType → OpPrec
  binaryRightPrecMap : TokenType → OpPrec
  binaryOpPrecMap : TokenType → OpPrec
  unaryPrecMap : TokenType → OpPrec
  exprPrec : Expr → OpPrec
  isEmptyStmt : Option Stmt → Bool
  isBooleanExpr : Expr → Bool
  hasReturnThrowStmt : Option Stmt → Bool
  isIdentEndAlias : Alias → Bool
  isIdentStartBindingElement : BindingElement → Bool
  isTruthy : jsMinifier → Expr → Bool × Bool
  isEqualExpr : jsMinifier → Expr → Expr → Bool
  isTrue : jsMinifier → Expr → Bool
  isFalse : jsMinifier → Expr → Bool
  tokenBytes : TokenType → Name
  IsIdentifierStart : Name → Bool
  IsIdentifierEnd : Name → Bool
  IsIdentifierName : Name → Bool
  IsNumericLiteral : Name → Bool
  Number : Name → Name
  binaryNumber : Name → Name
  octalNumber : Name → Name
  minifyString : Name → Name

/-! ## The statement fuser (`js.go`, lines 386-549) -/

/-- The function `groupExpr`. -/
def groupExpr (x : Ext) (i : Expr) (prec : OpPrec) : Expr :=
  if x.exprPrec i < prec then Expr.GroupExpr i else i

/-- The function `condExpr`. -/
def condExpr (x : Ext) (a b c : Expr) : Expr :=
  Expr.CondExpr (groupExpr x a x.OpCoalesce) (groupExpr x b x.OpAssign) (groupExpr x c x.OpAssign)

/-- The first half of the loop body of `mergeStmtList`: the statement `left`
is `list[i]`, `right` is `list[i+1]`. The result is the new `list[i+1]` when
the pair is merged (the branches that end in `j--`), and `none` otherwise. -/
def mergePair (left right : Stmt) : Option Stmt :=
  match left with
  | Stmt.ExprStmt leftValue =>
    match right with
    | Stmt.ExprStmt rightValue =>
      some (Stmt.ExprStmt (Expr.BinaryExpr TokenType.CommaToken leftValue rightValue))
    | Stmt.ReturnStmt (some value) =>
      some (Stmt.ReturnStmt (some (Expr.BinaryExpr TokenType.CommaToken leftValue value)))
    | Stmt.ThrowStmt value =>
      some (Stmt.ThrowStmt (Expr.BinaryExpr TokenType.CommaToken leftValue value))
    | Stmt.ForStmt none cond post body => some (Stmt.ForStmt (some leftValue) cond post body)
    | Stmt.ForStmt (some (Expr.VarDecl _)) _ _ _ => none
    | Stmt.ForStmt (some init) cond post body =>
      some (Stmt.ForStmt (some (Expr.BinaryExpr TokenType.CommaToken leftValue init)) cond post body)
    | Stmt.WhileStmt cond body => some (Stmt.ForStmt (some leftValue) (some cond) none body)
    | Stmt.SwitchStmt init clauses =>
      some (Stmt.SwitchStmt (Expr.BinaryExpr TokenType.CommaToken leftValue init) clauses)
    | Stmt.WithStmt cond body =>
      some (Stmt.WithStmt (Expr.BinaryExpr TokenType.CommaToken leftValue cond) body)
    | Stmt.IfStmt cond body els =>
      some (Stmt.IfStmt (Expr.BinaryExpr TokenType.CommaToken leftValue cond) body els)
    | _ => none
  | Stmt.VarDecl (VarDecl.mk leftType leftList) =>
    match right with
    | Stmt.VarDecl (VarDecl.mk rightType rightList) =>
      if leftType = rightType then some (Stmt.VarDecl (VarDecl.mk rightType (leftList ++ rightList)))
      else none
    | Stmt.ForStmt init cond post body =>
      if leftType = TokenType.VarToken then
        match init with
        | some (Expr.VarDecl (VarDecl.mk initType initList)) =>
          if initType = TokenType.VarToken then
            some (Stmt.ForStmt (some (Expr.VarDecl (VarDecl.mk initType (leftList ++ initList))))
              cond post body)
          else none
        | _ => none
      else none
    | Stmt.WhileStmt cond body =>
      if leftType = TokenType.VarToken then
        some (Stmt.ForStmt (some (Expr.VarDecl (VarDecl.mk leftType leftList))) (some cond) none body)
      else none
    | _ => none
  | _ => none

/-- The second half of the loop body of `mergeStmtList`: `prev` is `list[j-1]`
and `cur` is `list[j]`. The result is the return or throw statement that
replaces both when the if statement has exactly one non-empty branch that
returns or throws, and `none` otherwise. -/
def mergeIfReturn (x : Ext) (prev cur : Stmt) : Option Stmt :=
  match prev with
  | Stmt.IfStmt cond body els =>
    if x.isEmptyStmt body ≠ x.isEmptyStmt els then
      match cur with
      | Stmt.ReturnStmt (some value) =>
        match body with
        | some (Stmt.ReturnStmt (some leftValue)) =>
          some (Stmt.ReturnStmt (some (condExpr x cond leftValue value)))
        | _ =>
          match els with
          | some (Stmt.ReturnStmt (some leftValue)) =>
            some (Stmt.ReturnStmt (some (condExpr x cond value leftValue)))
          | _ => none
      | Stmt.ThrowStmt value =>
        match body with
        | some (Stmt.ThrowStmt leftValue) => some (Stmt.ThrowStmt (condExpr x cond leftValue value))
        | _ =>
          match els with
          | some (Stmt.ThrowStmt leftValue) => some (Stmt.ThrowStmt (condExpr x cond value leftValue))
          | _ => none
      | _ => none
    else none
  | _ => none

/-- The second half of the loop body of `mergeStmtList`, the block
`if 0 < j { ... }`, for the read index `i`; `cur` is `list[j]`. A statement is
a pointer in Go: the update of the return or throw statement is visible in
the slots `j - 1`, `j` and `i + 1`, which hold that pointer. -/
def fuseIfReturn (x : Ext) (i : Nat) (list : List Stmt) (j : Int) (cur : Stmt) :
    Option (List Stmt × Int) :=
  if 0 < j then
    match list.get? (j - 1).toNat with
    | some prev =>
      match mergeIfReturn x prev cur with
      | some merged =>
        some (((list.set (j - 1).toNat merged).set j.toNat merged).set (i + 1) merged, j - 1)
      | none => some (list, j)
    | none => none
  else some (list, j)

/-- One iteration of the loop of `mergeStmtList` for the read index `i`, on
the array `list` and the write index `j`; `conv` is `m.stmtToExpr`. An index
outside the array panics. -/
def mergeStep (x : Ext) (conv : Stmt → Option Stmt) (i : Nat) (st : List Stmt × Int) :
    Option (List Stmt × Int) :=
  let (list, j) := st
  match list.get? i, list.get? (i + 1) with
  | some left, some right0 =>
    match conv right0 with
    | none => none
    | some right1 =>
      let j1 := j + 1
      let (right2, j2) :=
        match mergePair left right1 with
        | some merged => (merged, j1 - 1)
        | none => (right1, j1)
      let list1 := list.set (i + 1) right2
      if j2 < 0 ∨ (list1.length : Int) ≤ j2 then none
      else fuseIfReturn x i (list1.set j2.toNat right2) j2 right2
  | _, _ => none

/-- The state of `mergeStmtList` after `k` iterations of its loop, started
with `j = 0` on the array whose first statement is already converted. -/
def mergeLoop (x : Ext) (conv : Stmt → Option Stmt) : Nat → List Stmt → Option (List Stmt × Int)
  | 0, list => some (list, 0)
  | k + 1, list =>
    match mergeLoop x conv k list with
    | some st => mergeStep x conv k st
    | none => none

/-- The body of `mergeStmtList`, with `m.stmtToExpr` as the argument `conv`. -/
def mergeStmtListWith (x : Ext) (conv : Stmt → Option Stmt) (list : List Stmt) :
    Option (List Stmt) :=
  if list.length < 2 then some list
  else
    match list with
    | [] => none
    | first :: rest =>
      match conv first with
      | none => none
      | some first1 =>
        match mergeLoop x conv (list.length - 1) (first1 :: rest) with
        | some (out, j) =>
          if j + 1 < 0 ∨ (out.length : Int) < j + 1 then none else some (out.take (j + 1).toNat)
        | none => none

/-- Is the statement a class declaration (`stmt.(*js.ClassDecl)`). -/
def isClassDecl : Stmt → Bool
  | Stmt.ClassDecl _ => true
  | _ => false

/-- The test `!isVarDecl || varDecl.TokenType == js.VarToken`. -/
def notVarDeclOrVar : Stmt → Bool
  | Stmt.VarDecl (VarDecl.mk tokenType _) => decide (tokenType = TokenType.VarToken)
  | _ => true

/-- The call `m.stmtToExpr(stmt.Body)` on a branch that may be `nil`; `conv`
is `m.stmtToExpr`, which returns a `nil` statement unchanged. -/
def convBranch (conv : Stmt → Option Stmt) : Option Stmt → Option (Option Stmt)
  | none => some none
  | some s => (conv s).map some

/-- The first step of `stmtToExpr` on an if statement: a test `!X` becomes
`X` and the branches are swapped. -/
def normalizeIf (cond : Expr) (body els : Option Stmt) : Expr × Option Stmt × Option Stmt :=
  match cond with
  | Expr.UnaryExpr TokenType.NotToken inner => (inner, els, body)
  | _ => (cond, body, els)

/-- The rest of `stmtToExpr` on an if statement, after the normalisation of
the test; `conv` is `m.stmtToExpr`. -/
def ifToExpr (x : Ext) (conv : Stmt → Option Stmt) (cond : Expr) (body els : Option Stmt) :
    Option Stmt :=
  let hasIf := !x.isEmptyStmt body
  let hasElse := !x.isEmptyStmt els
  if !hasIf && !hasElse then some (Stmt.ExprStmt cond)
  else if hasIf && !hasElse then
    match convBranch conv body with
    | none => none
    | some (some (Stmt.ExprStmt value)) =>
      some (Stmt.ExprStmt (Expr.BinaryExpr TokenType.AndToken
        (groupExpr x cond (x.binaryLeftPrecMap TokenType.AndToken))
        (groupExpr x value (x.binaryRightPrecMap TokenType.AndToken))))
    | some body1 => some (Stmt.IfStmt cond body1 els)
  else if !hasIf && hasElse then
    match convBranch conv els with
    | none => none
    | some (some (Stmt.ExprStmt value)) =>
      some (Stmt.ExprStmt (Expr.BinaryExpr TokenType.OrToken
        (groupExpr x cond (x.binaryLeftPrecMap TokenType.OrToken))
        (groupExpr x value (x.binaryRightPrecMap TokenType.OrToken))))
    | some els1 => some (Stmt.IfStmt cond body els1)
  else
    match convBranch conv body, convBranch conv els with
    | some body1, some els1 =>
      match body1, els1 with
      | some (Stmt.ExprStmt valueX), some (Stmt.ExprStmt valueY) =>
        some (Stmt.ExprStmt (condExpr x cond valueX valueY))
      | some (Stmt.ThrowStmt valueX), some (Stmt.ThrowStmt valueY) =>
        some (Stmt.ThrowStmt (condExpr x cond valueX valueY))
      | _, _ => some (Stmt.IfStmt cond body1 els1)
    | _, _ => none

/-- The branch of `stmtToExpr` for a block; `conv` is `m.stmtToExpr`. -/
def blockToExpr (x : Ext) (conv : Stmt → Option Stmt) (list : List Stmt) (scope : Scope) :
    Option Stmt :=
  match mergeStmtListWith x conv list with
  | none => none
  | some [single] =>
    if !isClassDecl single && notVarDeclOrVar single then conv single
    else some (Stmt.BlockStmt (BlockStmt.mk [single] scope))
  | some merged => some (Stmt.BlockStmt (BlockStmt.mk merged scope))

/-- The method `stmtToExpr`. The statement is updated in place in Go; here the
updated statement is the result. A call needs fuel only for an if statement
or a block. -/
def stmtToExpr (x : Ext) : Nat → Stmt → Option Stmt
  | fuel, Stmt.IfStmt cond0 body0 els0 =>
    match fuel with
    | 0 => none
    | fuel + 1 =>
      let (cond, body, els) := normalizeIf cond0 body0 els0
      ifToExpr x (stmtToExpr x fuel) cond body els
  | fuel, Stmt.BlockStmt (BlockStmt.mk list scope) =>
    match fuel with
    | 0 => none
    | fuel + 1 => blockToExpr x (stmtToExpr x fuel) list scope
  | _, i => some i

/-- The method `mergeStmtList`. -/
def mergeStmtList (x : Ext) (fuel : Nat) (list : List Stmt) : Option (List Stmt) :=
  mergeStmtListWith x (stmtToExpr x fuel) list

mutual

/-- The number of statement nodes that the fuser can visit: it descends into
the branches of an if statement and into the statements of a block. -/
def stmtSize : Stmt → Nat
  | Stmt.IfStmt _ body els => 1 + optStmtSize body + optStmtSize els
  | Stmt.BlockStmt (BlockStmt.mk list _) => 1 + listSize list
  | _ => 1

/-- The size of a branch that may be absent. -/
def optStmtSize : Option Stmt → Nat
  | none => 0
  | some s => stmtSize s

/-- The size of a statement list: the sum of the sizes. -/
def listSize : List Stmt → Nat
  | [] => 0
  | s :: rest => stmtSize s + listSize rest

end

/-! ## The printer (`js.go`, lines 97-384 and 551-1192) -/

/-- The method `write`. -/
def jsMinifier.write (x : Ext) (m : jsMinifier) (b : Name) : jsMinifier :=
  let w1 := if m.needsSpace && x.IsIdentifierStart b then m.w ++ bytes " " else m.w
  { m with w := w1 ++ b, prev := b, needsSpace := false }

/-- The method `writeSpaceAfterIdent`; the byte `/` is 47. -/
def jsMinifier.writeSpaceAfterIdent (x : Ext) (m : jsMinifier) : jsMinifier :=
  if x.IsIdentifierEnd m.prev || (decide (1 < m.prev.length) && decide (m.prev.head? = some 47)) then
    { m with w := m.w ++ bytes " " }
  else m

/-- The method `writeSpaceBeforeIdent`. -/
def jsMinifier.writeSpaceBeforeIdent (m : jsMinifier) : jsMinifier :=
  { m with needsSpace := true }

/-- The method `requireSemicolon`. -/
def jsMinifier.requireSemicolon (m : jsMinifier) : jsMinifier :=
  { m with needsSemicolon := true }

/-- The method `writeSemicolon`. -/
def jsMinifier.writeSemicolon (m : jsMinifier) : jsMinifier :=
  if m.needsSemicolon then
    { m with w := m.w ++ bytes ";", needsSemicolon := false, needsSpace := false }
  else m

/-- The assignment `m.needsSemicolon = false`. -/
def jsMinifier.clearSemicolon (m : jsMinifier) : jsMinifier :=
  { m with needsSemicolon := false }

/-- The call `m.renamer.enterScope(scope, isBlock)`. -/
def jsMinifier.enterScope (fuel : Nat) (m : jsMinifier) (scope : Scope) (isBlock : Bool) :
    Option jsMinifier :=
  match m.renamer.enterScope fuel scope isBlock with
  | some r => some { m with renamer := r }
  | none => none

/-- The call `m.renamer.exitScope()`. -/
def jsMinifier.exitScope (m : jsMinifier) : Option jsMinifier :=
  match m.renamer.exitScope with
  | some r => some { m with renamer := r }
  | none => none

/-- A loop `for _, item := range list` whose body is `f`. -/
def forEach {α : Type} (f : α → jsMinifier → Option jsMinifier) :
    List α → jsMinifier → Option jsMinifier
  | [], m => some m
  | item :: rest, m =>
    match f item m with
    | some m1 => forEach f rest m1
    | none => none

/-- A loop `for i, item := range list` whose body is `f`, from index `i`. -/
def forEachIdx {α : Type} (f : Nat → α → jsMinifier → Option jsMinifier) :
    Nat → List α → jsMinifier → Option jsMinifier
  | _, [], m => some m
  | i, item :: rest, m =>
    match f i item m with
    | some m1 => forEachIdx f (i + 1) rest m1
    | none => none

/-- A loop `for _, item := range list` whose body is `f` followed by a `break`
when `stop item` holds. -/
def forEachBreak {α : Type} (f : α → jsMinifier → Option jsMinifier) (stop : α → Bool) :
    List α → jsMinifier → Option jsMinifier
  | [], m => some m
  | item :: rest, m =>
    match f item m with
    | some m1 => if stop item then some m1 else forEachBreak f stop rest m1
    | none => none

/-- The method `minifyAlias`; the byte string `starBytes` is `*`. -/
def minifyAlias (x : Ext) (a : Alias) (m : jsMinifier) : jsMinifier :=
  let m1 :=
    match a.Name with
    | some name =>
      let m2 := m.write x name
      let m3 := if name ≠ bytes "*" then m2.write x (bytes " ") else m2
      m3.write x (bytes "as ")
    | none => m
  m1.write x a.Binding

/-- The loop at the head of the `ExprStmt` case of `minifyStmt`: the leftmost
operand of a chain of comma expressions. -/
def leftmostOperand : Expr → Expr
  | Expr.BinaryExpr TokenType.CommaToken left _ => leftmostOperand left
  | e => e

/-- The test of the `ExprStmt` case of `minifyStmt` for the prefix `!`: the
statement starts with a grouped function or class, or with a call of one. -/
def needsNotPrefix : Expr → Bool
  | Expr.GroupExpr (Expr.FuncDecl _) => true
  | Expr.GroupExpr (Expr.ClassDecl _) => true
  | Expr.GroupExpr (Expr.CallExpr (Expr.FuncDecl _) _) => true
  | Expr.CallExpr (Expr.GroupExpr (Expr.FuncDecl _)) _ => true
  | _ => false

/-- The slice `data[1 : len(data)-1]` of a string literal; it panics when
`data` has fewer than two bytes. -/
def unquote (data : Name) : Option Name :=
  if data.length < 2 then none else some ((data.drop 1).take (data.length - 2))

/-- The statement is a return statement or a branch statement: the test for
the `break` in the loop of `minifyBlockStmt`. -/
def isReturnOrBranch : Stmt → Bool
  | Stmt.ReturnStmt _ => true
  | Stmt.BranchStmt _ _ => true
  | _ => false

/-- The operator assignment of `minifyBooleanExpr` for an equality operator.
The third test repeats the first, so it never holds. -/
def invertEquality (op : TokenType) : TokenType :=
  if op = TokenType.EqEqToken then TokenType.NotEqToken
  else if op = TokenType.NotEqToken then TokenType.EqEqToken
  else if op = TokenType.EqEqToken then TokenType.NotEqEqToken
  else if op = TokenType.NotEqEqToken then TokenType.EqEqEqToken
  else op

/-- The test of the `DotExpr` case: the number has no `.`, `e` or `E`. -/
def isIntText (num : Name) : Bool :=
  num.all (fun c => !(c = 46 || c = 101 || c = 69))

/-- The call `m.write([]byte(s))` for a string literal `s`. -/
def jsMinifier.ws (x : Ext) (m : jsMinifier) (s : String) : jsMinifier :=
  m.write x (bytes s)

/-- The values of a list of expression statements, or `none` when another
statement occurs: the loop of `minifyArrowFunc` that sets `removeBraces`. -/
def exprStmtValues : List Stmt → Option (List Expr)
  | [] => some []
  | Stmt.ExprStmt value :: rest =>
    match exprStmtValues rest with
    | some values => some (value :: values)
    | none => none
  | _ :: _ => none

/-- The expression that `minifyArrowFunc` prints in place of the body when it
removes the braces: the body is a list of expression statements followed by a
return statement with a value, joined by commas from the left. -/
def arrowBodyExpr (list : List Stmt) : Option Expr :=
  match list.getLast? with
  | some (Stmt.ReturnStmt (some value)) =>
    match exprStmtValues list.dropLast with
    | some values =>
      match values ++ [value] with
      | first :: rest =>
        some (rest.foldl (fun e right => Expr.BinaryExpr TokenType.CommaToken e right) first)
      | [] => none
    | none => none
  | _ => none

/-- The body that `minifyArrowFunc` prints as a block: a final return
statement without a value is removed. -/
def arrowBodyList (list : List Stmt) : List Stmt :=
  match list.getLast? with
  | some (Stmt.ReturnStmt none) => list.dropLast
  | _ => list

/-- The first step of the `CondExpr` case of `minifyExpr`: a double negation
of a boolean test is removed, a single negation swaps the branches. -/
def normalizeCond (x : Ext) (cond a b : Expr) : Expr × Expr × Expr :=
  match cond with
  | Expr.UnaryExpr TokenType.NotToken (Expr.UnaryExpr TokenType.NotToken inner) =>
    if x.isBooleanExpr inner then (inner, a, b) else (cond, a, b)
  | Expr.UnaryExpr TokenType.NotToken inner => (inner, b, a)
  | _ => (cond, a, b)

/-- The operand is a unary expression with one of the two operators. -/
def isUnaryOf (op1 op2 : TokenType) : Expr → Bool
  | Expr.UnaryExpr op _ => decide (op = op1 ∨ op = op2)
  | _ => false

/-- The operand is `!` applied to a prefix decrement. -/
def isNotOfPreDecr : Expr → Bool
  | Expr.UnaryExpr TokenType.NotToken (Expr.UnaryExpr TokenType.PreDecrToken _) => true
  | _ => false

/-- The loop `for i, item := range stmt.List` of an import or export
statement, from index `i`: a comma before every item but the first. -/
def minifyAliases (x : Ext) : Nat → List Alias → jsMinifier → jsMinifier
  | _, [], m => m
  | i, a :: rest, m => minifyAliases x (i + 1) rest (minifyAlias x a (if i ≠ 0 then m.ws x "," else m))

mutual

/-- The method `minifyStmt`. In the `IfStmt` case Go passes to
`hasReturnThrowStmt` the body after it has been printed, which updates it in
place; here the helper receives the body as it is before it is printed. -/
def minifyStmt (x : Ext) : Nat → Stmt → jsMinifier → Option jsMinifier
  | 0, _, _ => none
  | fuel + 1, i, m =>
    match stmtToExpr x fuel i with
    | none => none
    | some (Stmt.ExprStmt value) => do
      let m := if needsNotPrefix (leftmostOperand value) then m.ws x "!" else m
      let m ← minifyExpr x fuel value x.OpExpr m
      pure m.requireSemicolon
    | some (Stmt.VarDecl decl) => do
      let m ← minifyVarDecl x fuel decl m
      pure m.requireSemicolon
    | some (Stmt.IfStmt cond body els) => do
      let hasIf := !x.isEmptyStmt body
      let hasElse := !x.isEmptyStmt els
      let m := m.ws x "if("
      let m ← minifyExpr x fuel cond x.OpExpr m
      let m := m.ws x ")"
      let body1 :=
        if hasIf then
          match body with
          | some (Stmt.BlockStmt (BlockStmt.mk [single] _)) => some single
          | _ => body
        else body
      let m ←
        if !hasIf && hasElse then some m.requireSemicolon
        else if hasIf then
          match body1 with
          | some (Stmt.IfStmt c2 b2 e2) =>
            if x.isEmptyStmt e2 then do
              let m ← minifyStmt x fuel (Stmt.IfStmt c2 b2 e2) (m.ws x "\x7b")
              pure (m.ws x "\x7d").clearSemicolon
            else minifyStmt x fuel (Stmt.IfStmt c2 b2 e2) m
          | some b => minifyStmt x fuel b m
          | none => some m
        else some m
      if hasElse then
        let m := m.writeSemicolon
        if !x.hasReturnThrowStmt body1 then
          match els with
          | some e => minifyStmt x fuel e (m.ws x "else").writeSpaceBeforeIdent
          | none => some (m.ws x "else").writeSpaceBeforeIdent
        else
          match els with
          | some (Stmt.BlockStmt (BlockStmt.mk list _)) =>
            forEach (fun item m => minifyStmt x fuel item m.writeSemicolon) list m
          | some e => minifyStmt x fuel e m
          | none => some m
      else some m
    | some (Stmt.BlockStmt block) => minifyBlockStmt x fuel block true m
    | some (Stmt.ReturnStmt value) => do
      let m := (m.ws x "return").writeSpaceBeforeIdent
      let m ← match value with
        | some v => minifyExpr x fuel v x.OpExpr m
        | none => some m
      pure m.requireSemicolon
    | some (Stmt.LabelledStmt ref value) =>
      minifyStmt x fuel value ((m.write x ref).ws x ":")
    | some (Stmt.BranchStmt ty ref) =>
      let m := m.write x (x.tokenBytes ty)
      let m := match ref with
        | some name => (m.ws x " ").write x name
        | none => m
      some m.requireSemicolon
    | some (Stmt.WithStmt cond body) => do
      let m ← minifyExpr x fuel cond x.OpExpr (m.ws x "with(")
      minifyStmt x fuel body (m.ws x ")")
    | some (Stmt.DoWhileStmt cond body) => do
      let m ← minifyStmt x fuel body (m.ws x "do").writeSpaceBeforeIdent
      let m ← minifyExpr x fuel cond x.OpExpr (m.writeSemicolon.ws x "while(")
      pure (m.ws x ")").requireSemicolon
    | some (Stmt.WhileStmt cond body) => do
      let m ← minifyExpr x fuel cond x.OpExpr (m.ws x "while(")
      minifyStmt x fuel body (m.ws x ")")
    | some (Stmt.ForStmt init cond post body) => do
      let m := m.ws x "for("
      let m ← match init with
        | some e => minifyExpr x fuel e x.OpExpr m
        | none => some m
      let m := m.ws x ";"
      let m ← match cond with
        | some e => minifyExpr x fuel e x.OpExpr m
        | none => some m
      let m := m.ws x ";"
      let m ← match post with
        | some e => minifyExpr x fuel e x.OpExpr m
        | none => some m
      minifyStmt x fuel body (m.ws x ")")
    | some (Stmt.ForInStmt init value body) => do
      let m ← minifyExpr x fuel init x.OpLHS (m.ws x "for(")
      let m := ((m.writeSpaceAfterIdent x).ws x "in").writeSpaceBeforeIdent
      let m ← minifyExpr x fuel value x.OpExpr m
      minifyStmt x fuel body (m.ws x ")")
    | some (Stmt.ForOfStmt await init value body) => do
      let m := if await then m.ws x "for await(" else m.ws x "for("
      let m ← minifyExpr x fuel init x.OpLHS m
      let m := ((m.writeSpaceAfterIdent x).ws x "of").writeSpaceBeforeIdent
      let m ← minifyExpr x fuel value x.OpAssign m
      minifyStmt x fuel body (m.ws x ")")
    | some (Stmt.SwitchStmt init clauses) => do
      let m ← minifyExpr x fuel init x.OpExpr (m.ws x "switch(")
      let m := (m.ws x ")\x7b").clearSemicolon
      let m ← forEach (fun clause m =>
        match clause with
        | CaseClause.mk tokenType cond stmts => do
          let m := m.writeSemicolon.write x (x.tokenBytes tokenType)
          let m ← match cond with
            | some c => minifyExpr x fuel c x.OpExpr (m.ws x " ")
            | none => some m
          forEach (fun item m => minifyStmt x fuel item m.writeSemicolon) stmts (m.ws x ":"))
        clauses m
      pure (m.ws x "\x7d")
    | some (Stmt.ThrowStmt value) => do
      let m ← minifyExpr x fuel value x.OpExpr (m.ws x "throw").writeSpaceBeforeIdent
      pure m.requireSemicolon
    | some (Stmt.TryStmt body binding catchBlock finallyBlock) => do
      let m ← minifyBlockStmt x fuel body true (m.ws x "try")
      let catchList := match catchBlock with | BlockStmt.mk list _ => list
      let catchScope := match catchBlock with | BlockStmt.mk _ scope => scope
      let finallyList := match finallyBlock with | BlockStmt.mk list _ => list
      let m ←
        if catchList.length ≠ 0 ∨ binding.isSome then do
          let m ← (m.ws x "catch").enterScope fuel catchScope true
          let m ← match binding with
            | some b => do
              let m ← minifyBinding x fuel b (m.ws x "(")
              pure (m.ws x ")")
            | none => some m
          let m ← minifyBlockStmt x fuel catchBlock false m
          m.exitScope
        else some m
      if finallyList.length ≠ 0 then minifyBlockStmt x fuel finallyBlock true (m.ws x "finally")
      else some m
    | some (Stmt.FuncDecl decl) => minifyFuncDecl x fuel decl false m
    | some (Stmt.ClassDecl decl) => minifyClassDecl x fuel decl m
    | some Stmt.DebuggerStmt => some m
    | some Stmt.EmptyStmt => some m
    | some (Stmt.ImportStmt default aliases module) =>
      let m := m.ws x "import"
      let m := match default with
        | some d =>
          let m := (m.ws x " ").write x d
          if aliases.length ≠ 0 then m.ws x "," else m
        | none => m
      let m := match aliases with
        | [single] => minifyAlias x single m.writeSpaceBeforeIdent
        | [] => m
        | first :: rest => (minifyAliases x 0 (first :: rest) (m.ws x "\x7b")).ws x "\x7d"
      let m :=
        if default.isSome ∨ aliases.length ≠ 0 then
          (if aliases.length < 2 then m.ws x " " else m).ws x "from"
        else m
      some (m.write x module).requireSemicolon
    | some (Stmt.ExportStmt aliases module default decl) =>
      let m := m.ws x "export"
      match decl with
      | some d => do
        let m := if default then m.ws x " default" else m
        let m ← minifyExpr x fuel d x.OpAssign m.writeSpaceBeforeIdent
        match d with
        | Expr.FuncDecl _ => pure m
        | Expr.ClassDecl _ => pure m
        | _ => pure m.requireSemicolon
      | none =>
        let m := match aliases with
          | [single] => minifyAlias x single m.writeSpaceBeforeIdent
          | [] => m
          | first :: rest => (minifyAliases x 0 (first :: rest) (m.ws x "\x7b")).ws x "\x7d"
        let m := match module with
          | some name =>
            let single := match aliases with
              | [a] => x.isIdentEndAlias a
              | _ => true
            ((if aliases.length < 2 ∧ single = true then m.ws x " " else m).ws x "from").write x name
          | none => m
        some m.requireSemicolon

/-- The method `minifyBlockStmt`. -/
def minifyBlockStmt (x : Ext) : Nat → BlockStmt → Bool → jsMinifier → Option jsMinifier
  | 0, _, _, _ => none
  | fuel + 1, BlockStmt.mk list0 scope, enterScope, m => do
    let list ← mergeStmtList x fuel list0
    let m := (m.ws x "\x7b").clearSemicolon
    let m ← if enterScope then m.enterScope fuel scope true else some m
    let m ← forEachBreak (fun item m => minifyStmt x fuel item m.writeSemicolon) isReturnOrBranch list m
    let m ← if enterScope then m.exitScope else some m
    pure (m.ws x "\x7d").clearSemicolon

/-- The method `minifyParams`. -/
def minifyParams (x : Ext) : Nat → Params → jsMinifier → Option jsMinifier
  | 0, _, _ => none
  | fuel + 1, Params.mk list rest, m => do
    let m ← forEachIdx
      (fun i item m => minifyBindingElement x fuel item (if i ≠ 0 then m.ws x "," else m))
      0 list (m.ws x "(")
    let m ← match rest with
      | some r => minifyBinding x fuel r ((if list.length ≠ 0 then m.ws x "," else m).ws x "...")
      | none => some m
    pure (m.ws x ")")

/-- The method `minifyArguments`. -/
def minifyArguments (x : Ext) : Nat → Arguments → jsMinifier → Option jsMinifier
  | 0, _, _ => none
  | fuel + 1, Arguments.mk list rest, m => do
    let m ← forEachIdx
      (fun i item m => minifyExpr x fuel item x.OpExpr (if i ≠ 0 then m.ws x "," else m))
      0 list (m.ws x "(")
    let m ← match rest with
      | some r => minifyExpr x fuel r x.OpExpr ((if list.length ≠ 0 then m.ws x "," else m).ws x "...")
      | none => some m
    pure (m.ws x ")")

/-- The method `minifyVarDecl`. -/
def minifyVarDecl (x : Ext) : Nat → VarDecl → jsMinifier → Option jsMinifier
  | 0, _, _ => none
  | fuel + 1, VarDecl.mk tokenType list, m =>
    forEachIdx
      (fun i item m => minifyBindingElement x fuel item (if i ≠ 0 then m.ws x "," else m))
      0 list (m.write x (x.tokenBytes tokenType)).writeSpaceBeforeIdent

/-- The method `minifyFuncDecl`. -/
def minifyFuncDecl (x : Ext) : Nat → FuncDecl → Bool → jsMinifier → Option jsMinifier
  | 0, _, _, _ => none
  | fuel + 1, FuncDecl.mk async generator name params body scope, inExpr, m => do
    let m := if async then m.ws x "async " else m
    let m := m.ws x "function"
    let m := if generator then m.ws x "*" else m
    let m ← if inExpr then m.enterScope fuel scope false else some m
    let m := match name with
      | some n => (if !generator then m.ws x " " else m).write x (m.renamer.rename n)
      | none => m
    let m ← if !inExpr then m.enterScope fuel scope false else some m
    let m ← minifyParams x fuel params m
    let m ← minifyBlockStmt x fuel body false m
    m.exitScope

/-- The method `minifyMethodDecl`. -/
def minifyMethodDecl (x : Ext) : Nat → MethodDecl → jsMinifier → Option jsMinifier
  | 0, _, _ => none
  | fuel + 1, MethodDecl.mk static async generator get set name params body scope, m => do
    let m := if static then (m.ws x "static").writeSpaceBeforeIdent else m
    let m :=
      if async then
        let m := m.ws x "async"
        if generator then m.ws x "*" else m.writeSpaceBeforeIdent
      else if generator then m.ws x "*"
      else if get then (m.ws x "get").writeSpaceBeforeIdent
      else if set then (m.ws x "set").writeSpaceBeforeIdent
      else m
    let m ← minifyPropertyName x fuel name m
    let m ← m.enterScope fuel scope false
    let m ← minifyParams x fuel params m
    let m ← minifyBlockStmt x fuel body false m
    m.exitScope

/-- The method `minifyArrowFunc`. -/
def minifyArrowFunc (x : Ext) : Nat → ArrowFunc → jsMinifier → Option jsMinifier
  | 0, _, _ => none
  | fuel + 1, ArrowFunc.mk async params (BlockStmt.mk list bodyScope) scope, m => do
    let m ← m.enterScope fuel scope false
    let m := if async then m.ws x "async" else m
    let m ← match params with
      | Params.mk [BindingElement.mk binding none] none =>
        minifyBindingElement x fuel (BindingElement.mk binding none)
          (if async && x.isIdentStartBindingElement (BindingElement.mk binding none) then m.ws x " "
            else m)
      | _ => minifyParams x fuel params m
    let m := m.ws x "=>"
    let m ← match arrowBodyExpr list with
      | some expr => minifyExpr x fuel expr x.OpAssign m
      | none => minifyBlockStmt x fuel (BlockStmt.mk (arrowBodyList list) bodyScope) false m
    m.exitScope

/-- The method `minifyClassDecl`. -/
def minifyClassDecl (x : Ext) : Nat → ClassDecl → jsMinifier → Option jsMinifier
  | 0, _, _ => none
  | fuel + 1, ClassDecl.mk name extend methods, m => do
    let m := m.ws x "class"
    let m := match name with
      | some n => (m.ws x " ").write x (m.renamer.rename n)
      | none => m
    let m ← match extend with
      | some e => minifyExpr x fuel e x.OpLHS (m.ws x " extends").writeSpaceBeforeIdent
      | none => some m
    let m ← forEach (fun item m => minifyMethodDecl x fuel item m) methods (m.ws x "\x7b")
    pure (m.ws x "\x7d")

/-- The method `minifyPropertyName`. -/
def minifyPropertyName (x : Ext) : Nat → PropertyName → jsMinifier → Option jsMinifier
  | 0, _, _ => none
  | fuel + 1, PropertyName.mk literalType data computed, m =>
    match computed with
    | some c => do
      let m ← minifyExpr x fuel c x.OpAssign (m.ws x "[")
      pure (m.ws x "]")
    | none =>
      if literalType = TokenType.StringToken then
        match unquote data with
        | none => none
        | some inner =>
          if x.IsIdentifierName inner then some (m.write x inner)
          else if x.IsNumericLiteral inner then some (m.write x inner)
          else some (m.write x data)
      else some (m.write x data)

/-- The method `minifyProperty`. -/
def minifyProperty (x : Ext) : Nat → Property → jsMinifier → Option jsMinifier
  | 0, _, _ => none
  | fuel + 1, Property.mk key value init spread, m => do
    let m ← match key with
      | some k => do
        let m ← minifyPropertyName x fuel k m
        pure (m.ws x ":")
      | none =>
        if spread then some (m.ws x "...")
        else
          match value with
          | Expr.LiteralExpr TokenType.IdentifierToken data =>
            if !m.renamer.inGlobalScope then some ((m.write x data).ws x ":") else some m
          | _ => some m
    let m ← minifyExpr x fuel value x.OpAssign m
    match init with
    | some e => minifyExpr x fuel e x.OpAssign (m.ws x "=")
    | none => some m

/-- The method `minifyBindingElement`. -/
def minifyBindingElement (x : Ext) : Nat → BindingElement → jsMinifier → Option jsMinifier
  | 0, _, _ => none
  | fuel + 1, BindingElement.mk binding default, m =>
    match binding with
    | some b => do
      let m ← minifyBinding x fuel b m
      match default with
      | some d => minifyExpr x fuel d x.OpAssign (m.ws x "=")
      | none => some m
    | none => some m

/-- The method `minifyBinding`. -/
def minifyBinding (x : Ext) : Nat → Binding → jsMinifier → Option jsMinifier
  | 0, _, _ => none
  | _ + 1, Binding.BindingName data, m => some (m.write x (m.renamer.rename data))
  | fuel + 1, Binding.BindingArray list rest, m => do
    let m ← forEachIdx
      (fun i item m => minifyBindingElement x fuel item (if i ≠ 0 then m.ws x "," else m))
      0 list (m.ws x "[")
    let m ← match rest with
      | some r => minifyBinding x fuel r ((if 0 < list.length then m.ws x "," else m).ws x "...")
      | none =>
        match list.getLast? with
        | some (BindingElement.mk none _) => some (m.ws x ",")
        | _ => some m
    pure (m.ws x "]")
  | fuel + 1, Binding.BindingObject list rest, m => do
    let m ← forEachIdx
      (fun i item m =>
        match item with
        | BindingObjectItem.mk key value => do
          let m := if i ≠ 0 then m.ws x "," else m
          let m ← match key with
            | some k => do
              let m ← minifyPropertyName x fuel k m
              pure (m.ws x ":")
            | none =>
              match value with
              | BindingElement.mk (some (Binding.BindingName data)) _ =>
                if data ≠ m.renamer.rename data then some ((m.write x data).ws x ":") else some m
              | _ => some m
          minifyBindingElement x fuel value m)
      0 list (m.ws x "\x7b")
    let m := match rest with
      | some r => ((if 0 < list.length then m.ws x "," else m).ws x "...").write x r
      | none => m
    pure (m.ws x "\x7d")

/-- The method `minifyExpr`. -/
def minifyExpr (x : Ext) : Nat → Expr → OpPrec → jsMinifier → Option jsMinifier
  | 0, _, _, _ => none
  | _ + 1, Expr.LiteralExpr tokenType data, prec, m =>
    if tokenType = TokenType.DecimalToken then some (m.write x (x.Number data))
    else if tokenType = TokenType.BinaryToken then some (m.write x (x.binaryNumber data))
    else if tokenType = TokenType.OctalToken then some (m.write x (x.octalNumber data))
    else if tokenType = TokenType.TrueToken then
      if x.OpUnary < prec then some (m.ws x "(!0)") else some (m.ws x "!0")
    else if tokenType = TokenType.FalseToken then
      if x.OpUnary < prec then some (m.ws x "(!1)") else some (m.ws x "!1")
    else if tokenType = TokenType.IdentifierToken ∧ data = bytes "undefined" ∧
        m.renamer.«exists» data = false then
      if x.OpUnary < prec then some (m.ws x "(void 0)") else some (m.ws x "void 0")
    else if tokenType = TokenType.IdentifierToken ∧ data = bytes "Infinity" ∧
        m.renamer.«exists» data = false then
      if x.OpMul < prec then some (m.ws x "(1/0)") else some (m.ws x "1/0")
    else if tokenType = TokenType.IdentifierToken then some (m.write x (m.renamer.rename data))
    else if tokenType = TokenType.StringToken then some (m.write x (x.minifyString data))
    else some (m.write x data)
  | fuel + 1, Expr.BinaryExpr op left0 right, prec, m => do
    let (left, precLeft) :=
      if prec ≤ x.OpExpr then
        match left0 with
        | Expr.GroupExpr (Expr.BinaryExpr TokenType.CommaToken a b) =>
          (Expr.BinaryExpr TokenType.CommaToken a b, x.OpExpr)
        | _ => (left0, x.binaryLeftPrecMap op)
      else (left0, x.binaryLeftPrecMap op)
    let m ← minifyExpr x fuel left precLeft m
    let m :=
      if op = TokenType.InstanceofToken ∨ op = TokenType.InToken then
        ((m.writeSpaceAfterIdent x).write x (x.tokenBytes op)).writeSpaceBeforeIdent
      else
        let m :=
          if op = TokenType.GtToken ∧
              isUnaryOf TokenType.PostDecrToken TokenType.PostDecrToken left = true then
            m.ws x " "
          else m
        let m := m.write x (x.tokenBytes op)
        if op = TokenType.AddToken then
          if isUnaryOf TokenType.PosToken TokenType.PreIncrToken right then m.ws x " " else m
        else if op = TokenType.NegToken then
          if isUnaryOf TokenType.NegToken TokenType.PreDecrToken left then m.ws x " " else m
        else if op = TokenType.LtToken then
          if isNotOfPreDecr right then m.ws x " " else m
        else m
    minifyExpr x fuel right (x.binaryRightPrecMap op) m
  | fuel + 1, Expr.UnaryExpr op operand, _, m =>
    if op = TokenType.PostIncrToken ∨ op = TokenType.PostDecrToken then do
      let m ← minifyExpr x fuel operand (x.unaryPrecMap op) m
      pure (m.write x (x.tokenBytes op))
    else
      let m := m.write x (x.tokenBytes op)
      if op = TokenType.DeleteToken ∨ op = TokenType.VoidToken ∨ op = TokenType.TypeofToken ∨
          op = TokenType.AwaitToken then
        minifyExpr x fuel operand (x.unaryPrecMap op) m.writeSpaceBeforeIdent
      else if op = TokenType.PosToken then
        minifyExpr x fuel operand (x.unaryPrecMap op)
          (if isUnaryOf TokenType.PosToken TokenType.PreIncrToken operand then m.ws x " " else m)
      else if op = TokenType.NegToken then
        minifyExpr x fuel operand (x.unaryPrecMap op)
          (if isUnaryOf TokenType.NegToken TokenType.PreDecrToken operand then m.ws x " " else m)
      else if op = TokenType.NotToken then
        match operand with
        | Expr.LiteralExpr litType data =>
          if litType = TokenType.StringToken ∨ litType = TokenType.RegExpToken then
            some (m.ws x "1")
          else if litType = TokenType.DecimalToken then
            if x.Number data = bytes "0" then some (m.ws x "0") else some (m.ws x "1")
          else minifyExpr x fuel operand (x.unaryPrecMap op) m
        | _ => minifyExpr x fuel operand (x.unaryPrecMap op) m
      else minifyExpr x fuel operand (x.unaryPrecMap op) m
  | fuel + 1, Expr.DotExpr object property, _, m =>
    match object with
    | Expr.GroupExpr (Expr.LiteralExpr TokenType.DecimalToken data) =>
      let num := x.Number data
      let m := if isIntText num then (m.write x num).ws x "." else m.write x num
      some ((m.ws x ".").write x property)
    | _ => do
      let m ← minifyExpr x fuel object x.OpMember m
      pure ((m.ws x ".").write x property)
  | fuel + 1, Expr.GroupExpr inner, prec, m =>
    if prec ≤ x.exprPrec inner then minifyExpr x fuel inner prec m
    else do
      let m ← minifyExpr x fuel inner x.OpExpr (m.ws x "(")
      pure (m.ws x ")")
  | fuel + 1, Expr.ArrayExpr list, _, m => do
    let m ← forEachIdx
      (fun i item m =>
        match item with
        | Element.mk value spread =>
          let m := if i ≠ 0 then m.ws x "," else m
          let m := if spread then m.ws x "..." else m
          match value with
          | some v => minifyExpr x fuel v x.OpAssign m
          | none => some m)
      0 list (m.ws x "[")
    let m := match list.getLast? with
      | some (Element.mk none _) => m.ws x ","
      | _ => m
    pure (m.ws x "]")
  | fuel + 1, Expr.ObjectExpr list, _, m => do
    let m ← forEachIdx
      (fun i item m => minifyProperty x fuel item (if i ≠ 0 then m.ws x "," else m))
      0 list (m.ws x "\x7b")
    pure (m.ws x "\x7d")
  | fuel + 1, Expr.TemplateExpr tag list tail, _, m => do
    let m ← match tag with
      | some t => minifyExpr x fuel t x.OpLHS m
      | none => some m
    let m ← forEach
      (fun item m =>
        match item with
        | TemplatePart.mk value expr => minifyExpr x fuel expr x.OpExpr (m.write x value))
      list m
    pure (m.write x tail)
  | fuel + 1, Expr.NewExpr callee args, prec, m =>
    match args with
    | none =>
      if x.OpMember ≤ prec then do
        let m ← minifyExpr x fuel callee x.OpMember (m.ws x "(new").writeSpaceBeforeIdent
        pure (m.ws x ")")
      else minifyExpr x fuel callee x.OpMember (m.ws x "new").writeSpaceBeforeIdent
    | some a => do
      let m ← minifyExpr x fuel callee x.OpMember (m.ws x "new").writeSpaceBeforeIdent
      minifyArguments x fuel a m
  | _ + 1, Expr.NewTargetExpr, _, m => some (m.ws x "new.target").writeSpaceBeforeIdent
  | _ + 1, Expr.ImportMetaExpr, _, m => some (m.ws x "import.meta").writeSpaceBeforeIdent
  | fuel + 1, Expr.YieldExpr generator operand, _, m =>
    let m := (m.ws x "yield").writeSpaceBeforeIdent
    match operand with
    | none => some m
    | some e =>
      if generator then minifyExpr x fuel e x.OpAssign (m.ws x "*")
      else
        match e with
        | Expr.LiteralExpr tokenType data =>
          if tokenType ≠ TokenType.IdentifierToken ∨ data ≠ bytes "undefined" ∨
              m.renamer.«exists» data = true then
            minifyExpr x fuel e x.OpAssign m
          else some m
        | _ => minifyExpr x fuel e x.OpAssign m
  | fuel + 1, Expr.CallExpr callee args, _, m => do
    let m ← minifyExpr x fuel callee x.OpMember m
    minifyArguments x fuel args m
  | fuel + 1, Expr.IndexExpr object index, _, m => do
    let m ← minifyExpr x fuel object x.OpMember m
    let plain : Option jsMinifier := do
      let m1 ← minifyExpr x fuel index x.OpExpr (m.ws x "[")
      pure (m1.ws x "]")
    match index with
    | Expr.LiteralExpr TokenType.StringToken data =>
      match unquote data with
      | none => none
      | some inner =>
        if x.IsIdentifierName inner then some ((m.ws x ".").write x inner)
        else if x.IsNumericLiteral inner then some (((m.ws x "[").write x inner).ws x "]")
        else plain
    | _ => plain
  | fuel + 1, Expr.CondExpr cond0 a0 b0, prec, m =>
    let (cond, a, b) := normalizeCond x cond0 a0 b0
    let leftOr := x.binaryLeftPrecMap TokenType.OrToken
    let rightOr := x.binaryRightPrecMap TokenType.OrToken
    let leftAnd := x.binaryLeftPrecMap TokenType.AndToken
    let rightAnd := x.binaryRightPrecMap TokenType.AndToken
    let leftComma := x.binaryLeftPrecMap TokenType.CommaToken
    let rightComma := x.binaryRightPrecMap TokenType.CommaToken
    if (x.isTruthy m cond).1 = true ∧ (x.isTruthy m cond).2 = true then
      minifyExpr x fuel a prec m
    else if (x.isTruthy m cond).1 = false ∧ (x.isTruthy m cond).2 = true then
      minifyExpr x fuel b prec m
    else if x.isEqualExpr m cond a = true ∧ prec ≤ x.OpOr ∧
        (x.exprPrec a < x.OpAssign ∨ leftOr ≤ x.exprPrec a) ∧
        (x.exprPrec b < x.OpAssign ∨ rightOr ≤ x.exprPrec b) then do
      let m ← minifyExpr x fuel a leftOr m
      minifyExpr x fuel b rightOr (m.ws x "||")
    else if x.isEqualExpr m a b then
      if prec ≤ x.OpExpr then do
        let m ← minifyExpr x fuel cond leftComma m
        minifyExpr x fuel a rightComma (m.ws x ",")
      else do
        let m ← minifyExpr x fuel cond leftComma (m.ws x "(")
        let m ← minifyExpr x fuel a rightComma (m.ws x ",")
        pure (m.ws x ")")
    else
      let trueX := x.isTrue m a
      let falseX := x.isFalse m a
      let trueY := x.isTrue m b
      let falseY := x.isFalse m b
      if (trueX && falseY) || (falseX && trueY) then minifyBooleanExpr x fuel cond falseX prec m
      else if trueX || trueY then do
        let m ← minifyBooleanExpr x fuel cond trueY leftOr m
        if trueY then minifyExpr x fuel a rightOr (m.ws x "||")
        else minifyExpr x fuel b rightOr (m.ws x "||")
      else if falseX || falseY then do
        let m ← minifyBooleanExpr x fuel cond falseX leftAnd m
        if falseX then minifyExpr x fuel b rightAnd (m.ws x "&&")
        else minifyExpr x fuel a rightAnd (m.ws x "&&")
      else do
        let m ← minifyExpr x fuel cond x.OpCoalesce m
        let m ← minifyExpr x fuel a x.OpAssign (m.ws x "?")
        minifyExpr x fuel b x.OpAssign (m.ws x ":")
  | fuel + 1, Expr.OptChainExpr object property, _, m => do
    let m ← minifyExpr x fuel object x.OpLHS m
    minifyExpr x fuel property x.OpMember (m.ws x "?.")
  | fuel + 1, Expr.VarDecl decl, _, m => minifyVarDecl x fuel decl m
  | fuel + 1, Expr.FuncDecl decl, _, m => minifyFuncDecl x fuel decl true m
  | fuel + 1, Expr.ArrowFunc decl, _, m => minifyArrowFunc x fuel decl m
  | fuel + 1, Expr.MethodDecl decl, _, m => minifyMethodDecl x fuel decl m
  | fuel + 1, Expr.ClassDecl decl, _, m => minifyClassDecl x fuel decl m

/-- The method `minifyBooleanExpr`. The operator of the binary expression is
updated in place in Go; here the expression is rebuilt with the operator given
by `invertEquality`. -/
def minifyBooleanExpr (x : Ext) : Nat → Expr → Bool → OpPrec → jsMinifier → Option jsMinifier
  | 0, _, _, _, _ => none
  | fuel + 1, expr, invert, prec, m =>
    if invert then
      match expr with
      | Expr.UnaryExpr op operand =>
        if op = TokenType.NotToken ∧ x.isBooleanExpr operand = true then
          minifyExpr x fuel (Expr.GroupExpr expr) prec m
        else minifyExpr x fuel (Expr.GroupExpr expr) x.OpUnary (m.ws x "!")
      | Expr.BinaryExpr op left right =>
        if x.binaryOpPrecMap op = x.OpEquals then
          minifyExpr x fuel (Expr.BinaryExpr (invertEquality op) left right) prec m
        else minifyExpr x fuel (Expr.GroupExpr expr) x.OpUnary (m.ws x "!")
      | _ => minifyExpr x fuel (Expr.GroupExpr expr) x.OpUnary (m.ws x "!")
    else if x.isBooleanExpr expr then minifyExpr x fuel (Expr.GroupExpr expr) prec m
    else minifyExpr x fuel (Expr.GroupExpr expr) x.OpUnary (m.ws x "!!")

end


/-! ## The effect sequence of a statement list -/

/-- An observable step of a statement list: the evaluation of an expression,
the declaration of one declarator of a given kind, or a statement of another
form taken as a whole. -/
inductive Effect where
  | eval (e : Expr)
  | declare (kind : TokenType) (declarator : BindingElement)
  | stmt (s : Stmt)

/-- The operands of a comma expression, from left to right. -/
def flattenComma : Expr → List Expr
  | Expr.BinaryExpr TokenType.CommaToken a b => flattenComma a ++ flattenComma b
  | e => [e]

/-- The effects of a statement: an expression statement evaluates the operands
of its comma expression in order, a declaration declares its declarators in
order. -/
def stmtEffects : Stmt → List Effect
  | Stmt.ExprStmt value => (flattenComma value).map Effect.eval
  | Stmt.VarDecl (VarDecl.mk kind declarators) => declarators.map (Effect.declare kind)
  | s => [Effect.stmt s]

/-- The effects of a statement list, from left to right. -/
def listEffects : List Stmt → List Effect
  | [] => []
  | s :: rest => stmtEffects s ++ listEffects rest

/-- Is the statement an expression statement or a variable declaration. -/
def isExprOrVarDecl : Stmt → Bool
  | Stmt.ExprStmt _ => true
  | Stmt.VarDecl _ => true
  | _ => false

/-- The invariant of the loop of `mergeStmtList` on a list `list0` of
expression statements and declarations, after `k` iterations with array `l`
and write index `m`: the slots after `k` are untouched, the slot `k` holds the
statement written last, and the effects of the slots `0..m` followed by those
of the slots after `k` are the effects of `list0`. -/
def FuseInv (list0 : List Stmt) (k : Nat) (l : List Stmt) (m : Nat) : Prop :=
  l.length = list0.length ∧ m ≤ k ∧ l.drop (k + 1) = list0.drop (k + 1) ∧
  l.get? m = l.get? k ∧ (∀ s ∈ l.take (m + 1), isExprOrVarDecl s = true) ∧
  listEffects (l.take (m + 1)) ++ listEffects (l.drop (k + 1)) = listEffects list0

/-! ## Concrete scopes used by the examples -/

/-- A variable that is declared in its scope and used `n` times. -/
def declared (n : Nat) : Var := { Declared := true, Uses := n }

/-- A variable that the scope uses `n` times without declaring it. -/
def free (n : Nat) : Var := { Declared := false, Uses := n }

/-- The function scope of `f` in
`function f(x){ return function(y){ return x + y } }`. -/
def scopeOuter : Scope := { Vars := [(bytes "x", declared 1)] }

/-- The scope of the inner function of the same program: it declares `y` and
uses the `x` of the enclosing function. -/
def scopeInner : Scope := { Vars := [(bytes "y", declared 1), (bytes "x", free 1)] }

/-- A scope without variables, as of `function g(){}`. -/
def scopeEmpty : Scope := { Vars := [] }

/-- A small keyword table for the examples. -/
def someKeywords : List Name := [bytes "var", bytes "if", bytes "in", bytes "do"]

/-- A small table of global identifiers for the examples. -/
def someGlobals : List Name := [bytes "undefined", bytes "Infinity", bytes "NaN"]

/-! ## A sample of the collaborators, for the examples -/

/-- A sample precedence of a binary operator: the levels are numbered from
`OpExpr` = 0 (comma) to `OpPrimary` = 20. -/
def sampleBinaryOpPrec : TokenType → OpPrec
  | TokenType.CommaToken => 0
  | TokenType.EqToken | TokenType.AddEqToken | TokenType.SubEqToken | TokenType.MulEqToken
  | TokenType.DivEqToken | TokenType.ModEqToken | TokenType.ExpEqToken | TokenType.LtLtEqToken
  | TokenType.GtGtEqToken | TokenType.GtGtGtEqToken | TokenType.BitAndEqToken
  | TokenType.BitOrEqToken | TokenType.BitXorEqToken => 1
  | TokenType.NullishToken => 2
  | TokenType.OrToken => 3
  | TokenType.AndToken => 4
  | TokenType.BitOrToken => 5
  | TokenType.BitXorToken => 6
  | TokenType.BitAndToken => 7
  | TokenType.EqEqToken | TokenType.NotEqToken | TokenType.EqEqEqToken
  | TokenType.NotEqEqToken => 8
  | TokenType.LtToken | TokenType.GtToken | TokenType.LtEqToken | TokenType.GtEqToken
  | TokenType.InstanceofToken | TokenType.InToken => 9
  | TokenType.LtLtToken | TokenType.GtGtToken | TokenType.GtGtGtToken => 10
  | TokenType.AddToken | TokenType.SubToken => 11
  | TokenType.MulToken | TokenType.DivToken | TokenType.ModToken => 12
  | TokenType.ExpToken => 13
  | _ => 0

/-- A sample minimum precedence of the left operand of a binary operator. -/
def sampleBinaryLeftPrec (op : TokenType) : OpPrec :=
  if sampleBinaryOpPrec op = 1 then 16
  else if op = TokenType.ExpToken then 15
  else sampleBinaryOpPrec op

/-- A sample minimum precedence of the right operand of a binary operator. -/
def sampleBinaryRightPrec (op : TokenType) : OpPrec :=
  if op = TokenType.CommaToken then 1
  else if sampleBinaryOpPrec op = 1 then 1
  else if op = TokenType.ExpToken then 13
  else if op = TokenType.NullishToken then 5
  else sampleBinaryOpPrec op + 1

/-- A sample precedence of a unary operator. -/
def sampleUnaryPrec : TokenType → OpPrec
  | TokenType.PostIncrToken | TokenType.PostDecrToken => 15
  | _ => 14

/-- A sample of `exprPrec`: the precedence of the outermost operator. -/
def sampleExprPrec : Expr → OpPrec
  | Expr.BinaryExpr op _ _ => sampleBinaryOpPrec op
  | Expr.UnaryExpr op _ => sampleUnaryPrec op
  | Expr.CondExpr _ _ _ => 1
  | Expr.YieldExpr _ _ => 1
  | Expr.ArrowFunc _ => 1
  | Expr.NewExpr _ none => 18
  | Expr.NewExpr _ (some _) => 19
  | Expr.CallExpr _ _ => 17
  | Expr.OptChainExpr _ _ => 17
  | Expr.DotExpr _ _ => 19
  | Expr.IndexExpr _ _ => 19
  | Expr.VarDecl _ => 0
  | _ => 20

/-- A sample of `isEmptyStmt`: no statement, the empty statement and the
empty block are empty. -/
def sampleIsEmptyStmt : Option Stmt → Bool
  | none => true
  | some Stmt.EmptyStmt => true
  | some (Stmt.BlockStmt (BlockStmt.mk [] _)) => true
  | _ => false

/-- A sample of `isBooleanExpr`: a negation, an equality and a comparison
are boolean, and a group is when its content is. -/
def sampleIsBooleanExpr : Expr → Bool
  | Expr.UnaryExpr TokenType.NotToken _ => true
  | Expr.BinaryExpr op _ _ => decide (sampleBinaryOpPrec op = 8 ∨ sampleBinaryOpPrec op = 9)
  | Expr.GroupExpr inner => sampleIsBooleanExpr inner
  | _ => false

/-- A sample of `hasReturnThrowStmt`: a return or throw statement. -/
def sampleHasReturnThrowStmt : Option Stmt → Bool
  | some (Stmt.ReturnStmt _) => true
  | some (Stmt.ThrowStmt _) => true
  | _ => false

/-- A sample of `isTruthy`: the literals `true` and `false` are known. -/
def sampleIsTruthy (_m : jsMinifier) : Expr → Bool × Bool
  | Expr.LiteralExpr TokenType.TrueToken _ => (true, true)
  | Expr.LiteralExpr TokenType.FalseToken _ => (false, true)
  | _ => (false, false)

/-- A sample of `isEqualExpr`: two references to the same identifier. -/
def sampleIsEqualExpr (_m : jsMinifier) : Expr → Expr → Bool
  | Expr.LiteralExpr TokenType.IdentifierToken a, Expr.LiteralExpr TokenType.IdentifierToken b =>
    decide (a = b)
  | _, _ => false

/-- A sample of `isTrue`: the literal `true`. -/
def sampleIsTrue (_m : jsMinifier) : Expr → Bool
  | Expr.LiteralExpr TokenType.TrueToken _ => true
  | _ => false

/-- A sample of `isFalse`: the literal `false`. -/
def sampleIsFalse (_m : jsMinifier) : Expr → Bool
  | Expr.LiteralExpr TokenType.FalseToken _ => true
  | _ => false

/-- A sample of the text of a token. -/
def sampleTokenBytes : TokenType → Name
  | TokenType.CommaToken => bytes ","
  | TokenType.EqToken => bytes "="
  | TokenType.AddEqToken => bytes "+="
  | TokenType.SubEqToken => bytes "-="
  | TokenType.MulEqToken => bytes "*="
  | TokenType.DivEqToken => bytes "/="
  | TokenType.ModEqToken => bytes "%="
  | TokenType.ExpEqToken => bytes "**="
  | TokenType.LtLtEqToken => bytes "<<="
  | TokenType.GtGtEqToken => bytes ">>="
  | TokenType.GtGtGtEqToken => bytes ">>>="
  | TokenType.BitAndEqToken => bytes "&="
  | TokenType.BitOrEqToken => bytes "|="
  | TokenType.BitXorEqToken => bytes "^="
  | TokenType.NullishToken => bytes "??"
  | TokenType.OrToken => bytes "||"
  | TokenType.AndToken => bytes "&&"
  | TokenType.BitOrToken => bytes "|"
  | TokenType.BitXorToken => bytes "^"
  | TokenType.BitAndToken => bytes "&"
  | TokenType.EqEqToken => bytes "=="
  | TokenType.NotEqToken => bytes "!="
  | TokenType.EqEqEqToken => bytes "==="
  | TokenType.NotEqEqToken => bytes "!=="
  | TokenType.LtToken => bytes "<"
  | TokenType.GtToken => bytes ">"
  | TokenType.LtEqToken => bytes "<="
  | TokenType.GtEqToken => bytes ">="
  | TokenType.InstanceofToken => bytes "instanceof"
  | TokenType.InToken => bytes "in"
  | TokenType.LtLtToken => bytes "<<"
  | TokenType.GtGtToken => bytes ">>"
  | TokenType.GtGtGtToken => bytes ">>>"
  | TokenType.AddToken => bytes "+"
  | TokenType.SubToken => bytes "-"
  | TokenType.MulToken => bytes "*"
  | TokenType.DivToken => bytes "/"
  | TokenType.ModToken => bytes "%"
  | TokenType.ExpToken => bytes "**"
  | TokenType.NotToken => bytes "!"
  | TokenType.BitNotToken => bytes "~"
  | TokenType.PosToken => bytes "+"
  | TokenType.NegToken => bytes "-"
  | TokenType.PreIncrToken => bytes "++"
  | TokenType.PreDecrToken => bytes "--"
  | TokenType.PostIncrToken => bytes "++"
  | TokenType.PostDecrToken => bytes "--"
  | TokenType.DeleteToken => bytes "delete"
  | TokenType.VoidToken => bytes "void"
  | TokenType.TypeofToken => bytes "typeof"
  | TokenType.AwaitToken => bytes "await"
  | TokenType.VarToken => bytes "var"
  | TokenType.LetToken => bytes "let"
  | TokenType.ConstToken => bytes "const"
  | TokenType.BreakToken => bytes "break"
  | TokenType.ContinueToken => bytes "continue"
  | TokenType.CaseToken => bytes "case"
  | TokenType.DefaultToken => bytes "default"
  | TokenType.TrueToken => bytes "true"
  | TokenType.FalseToken => bytes "false"
  | TokenType.NullToken => bytes "null"
  | TokenType.ThisToken => bytes "this"
  | TokenType.SuperToken => bytes "super"
  | _ => []

/-- A sample classifier: the byte is a letter, `_` or `$`. -/
def isIdentStartByte (c : Nat) : Bool :=
  decide ((97 ≤ c ∧ c ≤ 122) ∨ (65 ≤ c ∧ c ≤ 90) ∨ c = 95 ∨ c = 36)

/-- A sample classifier: the byte is a letter, a digit, `_` or `$`. -/
def isIdentPartByte (c : Nat) : Bool :=
  isIdentStartByte c || decide (48 ≤ c ∧ c ≤ 57)

/-- Modelled from the spec: a sample of `js.IsIdentifierStart` of the parser
package, which is not part of the source, as `write` uses it to keep a word
boundary: the first byte is a letter, a digit, `_` or `$`. The spec keeps the
space of `return 1` (printer state: a keyword such as `return` requires a word
boundary before its operand), which `write` does only when the classifier
accepts the token `1`. -/
def sampleIsIdentifierStart : Name → Bool
  | [] => false
  | c :: _ => isIdentPartByte c

/-- A sample of `js.IsIdentifierEnd`: the last byte is part of an identifier. -/
def sampleIsIdentifierEnd (b : Name) : Bool :=
  match b.getLast? with
  | some c => isIdentPartByte c
  | none => false

/-- A sample of `js.IsIdentifierName`: a letter, `_` or `$` followed by
letters, digits, `_` and `$`. -/
def sampleIsIdentifierName (b : Name) : Bool :=
  match b with
  | [] => false
  | c :: _ => isIdentStartByte c && b.all isIdentPartByte

/-- A sample of `js.IsNumericLiteral`: a non-empty string of digits. -/
def sampleIsNumericLiteral (b : Name) : Bool :=
  !b.isEmpty && b.all (fun c => decide (48 ≤ c ∧ c ≤ 57))

/-- A sample of the collaborators, used to run the embedding on examples. The
literal encoders leave a literal as it is. -/
def sampleExt : Ext :=
  { OpExpr := 0, OpAssign := 1, OpCoalesce := 2, OpOr := 3, OpEquals := 8, OpUnary := 14,
    OpMul := 12, OpLHS := 16, OpMember := 19
    binaryLeftPrecMap := sampleBinaryLeftPrec
    binaryRightPrecMap := sampleBinaryRightPrec
    binaryOpPrecMap := sampleBinaryOpPrec
    unaryPrecMap := sampleUnaryPrec
    exprPrec := sampleExprPrec
    isEmptyStmt := sampleIsEmptyStmt
    isBooleanExpr := sampleIsBooleanExpr
    hasReturnThrowStmt := sampleHasReturnThrowStmt
    isIdentEndAlias := fun a => sampleIsIdentifierEnd a.Binding
    isIdentStartBindingElement := fun _ => true
    isTruthy := sampleIsTruthy
    isEqualExpr := sampleIsEqualExpr
    isTrue := sampleIsTrue
    isFalse := sampleIsFalse
    tokenBytes := sampleTokenBytes
    IsIdentifierStart := sampleIsIdentifierStart
    IsIdentifierEnd := sampleIsIdentifierEnd
    IsIdentifierName := sampleIsIdentifierName
    IsNumericLiteral := sampleIsNumericLiteral
    Number := fun data => data
    binaryNumber := fun data => data
    octalNumber := fun data => data
    minifyString := fun data => data }

/-- The state `jsMinifier` that `Minify` builds: nothing written, a new
renamer. -/
def newMinifier (keywords globals undeclared : List Name) (deterministic : Bool) : jsMinifier :=
  { w := [], prev := [], needsSemicolon := false, needsSpace := false
    renamer := newRenamer keywords globals undeclared deterministic }

/-- The printer state of the examples. -/
def sampleMinifier : jsMinifier := newMinifier someKeywords someGlobals [] true

/-- The bytes written by a run of the printer. -/
def written (r : Option jsMinifier) : Option Name := r.map (fun m => m.w)

/-- The literal `true`. -/
def litTrue : Expr := Expr.LiteralExpr TokenType.TrueToken (bytes "true")

/-- The literal `false`. -/
def litFalse : Expr := Expr.LiteralExpr TokenType.FalseToken (bytes "false")

/-- The identifier reference `name`. -/
def ident (name : String) : Expr := Expr.LiteralExpr TokenType.IdentifierToken (bytes name)

/-- The decimal literal `text`. -/
def num (text : String) : Expr := Expr.LiteralExpr TokenType.DecimalToken (bytes text)

/-- The call `f()` of the identifier `f`. -/
def call0 (f : String) : Expr := Expr.CallExpr (ident f) (Arguments.mk [] none)

/-- The declarator `name = value`. -/
def declarator (name : String) (value : Expr) : BindingElement :=
  BindingElement.mk (some (Binding.BindingName (bytes name))) (some value)

/-- The states reached from `r0` by calls of `enterScope` and `exitScope`. -/
inductive Reachable (r0 : renamer) : renamer → Prop
  | init : Reachable r0 r0
  | enter {r r1 : renamer} (fuel : Nat) (scope : Scope) (isBlock : Bool) :
      Reachable r0 r → r.enterScope fuel scope isBlock = some r1 → Reachable r0 r1
  | exit {r r1 : renamer} : Reachable r0 r → r.exitScope = some r1 → Reachable r0 r1

/-- Every value of the table satisfies `P`. -/
def ValuesSat (P : Name → Prop) (tbl : GoMap Name) : Prop :=
  ∀ p ∈ tbl, P p.2

/-- The invariant of the renamer: the reserved set is the one built by
`newRenamer` and no table holds a reserved value. -/
def NoReservedValue (reserved : List Name) (r : renamer) : Prop :=
  r.reserved = reserved ∧ ∀ tbl ∈ r.renames, ValuesSat (fun v => v ∉ reserved) tbl

/-- A state with three scopes on the stack in which `x` is renamed by the
tables of index 1 and 2 and `z` by none. -/
def nestedState : renamer :=
  { reserved := []
    vars := [[(bytes "x", declared 1)], [(bytes "x", declared 2)], []]
    renames := [[(bytes "x", bytes "a")], [(bytes "x", bytes "b")], [(bytes "y", bytes "c")]]
    lastRename := [bytes "a", bytes "b", bytes "c"]
    deterministic := false }

end JS


namespace JS

/-! ## Objects of the statements about the renamer -/

/-- The names of a variable table that are used without being declared, in the
order of iteration: the test `0 < v.Uses && !v.Declared` of the first loop of
`enterScope`. -/
def freeNames (vars : GoMap Var) : List Name :=
  (vars.filter (fun p => decide (0 < p.2.Uses) && !p.2.Declared)).map Prod.fst

/-- The invariant of the two stacks: `renames` is as long as `vars` or one
longer; while it is one longer its first table, created by `newRenamer`, is
empty; and every key of the table of index `i` is declared with a positive use
count by a scope of index at most `i` that is still on the stack. -/
def KeysDeclared (r : renamer) : Prop :=
  (r.renames.length = r.vars.length ∨ r.renames.length = r.vars.length + 1) ∧
  (r.renames.length = r.vars.length + 1 → r.renames.head? = some []) ∧
  ∀ i tbl, r.renames.get? i = some tbl → ∀ p ∈ tbl,
    ∃ j vs, j ≤ i ∧ r.vars.get? j = some vs ∧ p.1 ∈ boundNames vs

end JS

namespace JS

/-! ## The candidate names of `next` -/

/-- The rank of a byte in the alphabet of `next`: the seed byte is 0, `a` to
`z` are 1 to 26, `A` to `Z` are 27 to 52, `_` is 53 and `$` is 54. -/
def idx (c : Nat) : Nat :=
  if 97 ≤ c ∧ c ≤ 122 then c - 96
  else if 65 ≤ c ∧ c ≤ 90 then c - 38
  else if c = 95 then 53
  else if c = 36 then 54
  else 0

/-- The byte is a letter `a` to `z` or `A` to `Z`. -/
def isLetter (c : Nat) : Bool :=
  decide ((97 ≤ c ∧ c ≤ 122) ∨ (65 ≤ c ∧ c ≤ 90))

/-- The byte is one that `next` leaves in the last position: a letter, `_` or
`$`. -/
def isTail (c : Nat) : Bool :=
  isLetter c || decide (c = 95 ∨ c = 36)

/-- The value of a name read as a number in base 55 with the digits `idx`. -/
def val (name : Name) : Nat :=
  name.foldl (fun acc c => acc * 55 + idx c) 0

/-- The names that `next` produces from the seed: the seed itself, or letters
followed by a last byte that is a letter, `_` or `$`. -/
def isCandidate (name : Name) : Bool :=
  decide (name = [96]) ||
    (name.dropLast.all isLetter &&
      match name.getLast? with
      | some c => isTail c
      | none => false)

/-- The generation sequence: `k` applications of `next`. -/
def iterNext : Nat → Name → Option Name
  | 0, name => some name
  | k + 1, name =>
    match next name with
    | some name1 => iterNext k name1
    | none => none

/-- The names that `isReserved` can answer `true` for: the reserved set and the
keys of the variable table on top of the stack. -/
def reservedNames (r : renamer) : List Name :=
  r.reserved ++
    match r.vars.getLast? with
    | some top => top.map Prod.fst
    | none => []

end JS

namespace JS

/-- The number of names of `names` whose value is at least `v`: the measure of
the loop `for r.isReserved(rename)`. -/
def pending (names : List Name) (v : Nat) : Nat :=
  (names.filter (fun x => decide (v ≤ val x))).length

end JS

namespace JS

/-- The state of the renamer in the scope of `f` in
`function f(x){ return function(y){ return x + y } }`, entered from the state
of `newRenamer` with the sample tables. -/
def stateOuter : renamer :=
  { reserved := someKeywords ++ someGlobals ++ []
    vars := [scopeOuter.Vars]
    renames := [[], [(bytes "x", bytes "a")]]
    lastRename := [bytes "`", bytes "a"]
    deterministic := true }

end JS

namespace JS

/-- The scope of `f` in `function f(longName){ return longName + 1; }`. -/
def scopeLongName : Scope := { Vars := [(bytes "longName", declared 2)] }

/-- The statement `function f(longName){ return longName + 1; }`. -/
def funcLongName : Stmt :=
  Stmt.FuncDecl (FuncDecl.mk false false (some (bytes "f"))
    (Params.mk [BindingElement.mk (some (Binding.BindingName (bytes "longName"))) none] none)
    (BlockStmt.mk [Stmt.ReturnStmt (some (Expr.BinaryExpr TokenType.AddToken (ident "longName")
      (num "1")))] scopeLongName)
    scopeLongName)

end JS

namespace JS

/-! ## The entry point and the programs of the examples -/

/-- The method `Minify`, after the parser (which is not part of the source) has
produced the statement list `list` and the set `undeclared`: a new minifier
state, `mergeStmtList`, then every statement preceded by `writeSemicolon`. The
result is the bytes written; the statistics printed at the end are left out. -/
def Minify (x : Ext) (fuel : Nat) (keywords globals undeclared : List Name)
    (deterministic : Bool) (list : List Stmt) : Option Name :=
  match mergeStmtList x fuel list with
  | none => none
  | some merged =>
    written (forEach (fun item m => minifyStmt x fuel item m.writeSemicolon) merged
      (newMinifier keywords globals undeclared deterministic))

/-- The declarator `name` without an initial value. -/
def plainDeclarator (name : Name) : BindingElement :=
  BindingElement.mk (some (Binding.BindingName name)) none

/-- The statement `function f(undefined){ return undefined }`. -/
def funcUndefined : Stmt :=
  Stmt.FuncDecl (FuncDecl.mk false false (some (bytes "f"))
    (Params.mk [plainDeclarator (bytes "undefined")] none)
    (BlockStmt.mk [Stmt.ReturnStmt (some (ident "undefined"))]
      { Vars := [(bytes "undefined", declared 2)] })
    { Vars := [(bytes "undefined", declared 2)] })

/-- The statement `function f(Infinity){ return Infinity }`. -/
def funcInfinity : Stmt :=
  Stmt.FuncDecl (FuncDecl.mk false false (some (bytes "f"))
    (Params.mk [plainDeclarator (bytes "Infinity")] none)
    (BlockStmt.mk [Stmt.ReturnStmt (some (ident "Infinity"))]
      { Vars := [(bytes "Infinity", declared 2)] })
    { Vars := [(bytes "Infinity", declared 2)] })

/-- The statement `function f(){ var unused; return 1; }`; its scope records
`unused` as declared with use count 0. -/
def funcUnused : Stmt :=
  Stmt.FuncDecl (FuncDecl.mk false false (some (bytes "f")) (Params.mk [] none)
    (BlockStmt.mk
      [Stmt.VarDecl (VarDecl.mk TokenType.VarToken [plainDeclarator (bytes "unused")]),
        Stmt.ReturnStmt (some (num "1"))]
      { Vars := [(bytes "unused", declared 0)] })
    { Vars := [(bytes "unused", declared 0)] })

/-- The program `foo(); while (true) x++;`. -/
def progWhile : List Stmt :=
  [Stmt.ExprStmt (call0 "foo"),
    Stmt.WhileStmt litTrue
      (Stmt.ExprStmt (Expr.UnaryExpr TokenType.PostIncrToken (ident "x")))]

/-- The statement `function g(){}`. -/
def funcEmpty : Stmt :=
  Stmt.FuncDecl (FuncDecl.mk false false (some (bytes "g")) (Params.mk [] none)
    (BlockStmt.mk [] scopeEmpty) scopeEmpty)

/-- The statement `function f(){ return x; function g(){} }`, with `x` a
global. -/
def funcAfterReturn : Stmt :=
  Stmt.FuncDecl (FuncDecl.mk false false (some (bytes "f")) (Params.mk [] none)
    (BlockStmt.mk [Stmt.ReturnStmt (some (ident "x")), funcEmpty]
      { Vars := [(bytes "x", free 1), (bytes "g", declared 0)] })
    { Vars := [(bytes "x", free 1), (bytes "g", declared 0)] })

/-- The expression `() => { a(); return b }`, with `a` and `b` globals. -/
def arrowSequence : Expr :=
  Expr.ArrowFunc (ArrowFunc.mk false (Params.mk [] none)
    (BlockStmt.mk [Stmt.ExprStmt (call0 "a"), Stmt.ReturnStmt (some (ident "b"))]
      { Vars := [(bytes "a", free 1), (bytes "b", free 1)] })
    { Vars := [(bytes "a", free 1), (bytes "b", free 1)] })

/-- The statement `function f({...rest}){ return rest }`. -/
def funcObjectRest : Stmt :=
  Stmt.FuncDecl (FuncDecl.mk false false (some (bytes "f"))
    (Params.mk [BindingElement.mk (some (Binding.BindingObject [] (some (bytes "rest")))) none]
      none)
    (BlockStmt.mk [Stmt.ReturnStmt (some (ident "rest"))]
      { Vars := [(bytes "rest", declared 2)] })
    { Vars := [(bytes "rest", declared 2)] })

/-- The statement `function f([...rest]){ return rest }`. -/
def funcArrayRest : Stmt :=
  Stmt.FuncDecl (FuncDecl.mk false false (some (bytes "f"))
    (Params.mk [BindingElement.mk
      (some (Binding.BindingArray [] (some (Binding.BindingName (bytes "rest"))))) none] none)
    (BlockStmt.mk [Stmt.ReturnStmt (some (ident "rest"))]
      { Vars := [(bytes "rest", declared 2)] })
    { Vars := [(bytes "rest", declared 2)] })

/-- The bytes that a declaration writes for declarators that are plain names,
from index `i`: a comma before every declarator but the first, then the name
that `rename` gives. -/
def writeNames (x : Ext) : Nat → List Name → jsMinifier → jsMinifier
  | _, [], m => m
  | i, name :: rest, m =>
    let m1 := if i ≠ 0 then m.ws x "," else m
    writeNames x (i + 1) rest (m1.write x (m1.renamer.rename name))

end JS

namespace JS

/-! ## Short names -/

/-- The name is not empty and each of its bytes is a letter, `_` or `$`: the
shape of an identifier without digits. -/
def isShortName (v : Name) : Bool :=
  !v.isEmpty && v.all isTail

/-- Every value of every table on the stack is a short name. -/
def ShortValues (r : renamer) : Prop :=
  ∀ tbl ∈ r.renames, ValuesSat (fun v => isShortName v = true) tbl

end JS

namespace JS

/-! ## A program with a sibling scope -/

/-- The scope of `f` in
`function f(x){ function g(){} return function(){ return x } }`. -/
def scopeSiblingOuter : Scope :=
  { Vars := [(bytes "x", declared 2), (bytes "g", declared 0)] }

/-- The scope of the function expression of the same program: it uses the `x`
of `f` without declaring it. -/
def scopeSiblingInner : Scope := { Vars := [(bytes "x", free 1)] }

/-- The function expression `function(){ return x }` of the same program. -/
def exprSiblingInner : Expr :=
  Expr.FuncDecl (FuncDecl.mk false false none (Params.mk [] none)
    (BlockStmt.mk [Stmt.ReturnStmt (some (ident "x"))] scopeSiblingInner) scopeSiblingInner)

/-- The statement
`function f(x){ function g(){} return function(){ return x } }`. -/
def funcSibling : Stmt :=
  Stmt.FuncDecl (FuncDecl.mk false false (some (bytes "f"))
    (Params.mk [plainDeclarator (bytes "x")] none)
    (BlockStmt.mk [funcEmpty, Stmt.ReturnStmt (some exprSiblingInner)] scopeSiblingOuter)
    scopeSiblingOuter)

/-- The state of the renamer in the scope of `f` of that program after the
declaration of `g` has been printed: the table of `f` is no longer on the
stack. -/
def stateAfterSibling : renamer :=
  { reserved := someKeywords ++ someGlobals ++ []
    vars := [scopeSiblingOuter.Vars]
    renames := [[]]
    lastRename := [bytes "`"]
    deterministic := true }

end JS
namespace JS

/-! ## Lemmas on maps -/

theorem lookup_mem {β : Type} (m : GoMap β) (k : Name) (v : β) (h : lookup m k = some v) :
    (k, v) ∈ m := by
  induction m with
  | nil => simp [lookup] at h
  | cons p rest ih =>
    obtain ⟨k1, v1⟩ := p
    unfold lookup at h
    by_cases hk : k1 = k
    · simp only [hk, if_true, Option.some.injEq] at h
      subst hk; subst h
      exact List.mem_cons_self _ _
    · simp only [hk, if_false] at h
      exact List.mem_cons_of_mem _ (ih h)

theorem mem_mapSet {β : Type} (m : GoMap β) (k : Name) (v : β) (p : Name × β)
    (h : p ∈ mapSet m k v) : p ∈ m ∨ p = (k, v) := by
  induction m with
  | nil =>
    simp only [mapSet, List.mem_singleton] at h
    exact Or.inr h
  | cons q rest ih =>
    obtain ⟨k1, v1⟩ := q
    unfold mapSet at h
    by_cases hk : k1 = k
    · simp only [hk, if_true, List.mem_cons] at h
      rcases h with h | h
      · exact Or.inr h
      · exact Or.inl (List.mem_cons_of_mem _ h)
    · simp only [hk, if_false, List.mem_cons] at h
      rcases h with h | h
      · exact Or.inl (h ▸ List.mem_cons_self _ _)
      · rcases ih h with h1 | h1
        · exact Or.inl (List.mem_cons_of_mem _ h1)
        · exact Or.inr h1

end JS

namespace JS

/-! ## The renamer: generated names are not reserved -/

theorem valuesSat_mapSet (P : Name → Prop) (tbl : GoMap Name) (k v : Name)
    (h : ValuesSat P tbl) (hv : P v) : ValuesSat P (mapSet tbl k v) := by
  intro p hp
  rcases mem_mapSet tbl k v p hp with h1 | h1
  · exact h p h1
  · subst h1; exact hv

theorem valuesSat_inheritRenames (P : Name → Prop) (parent : GoMap Name)
    (hparent : ValuesSat P parent) (vars : GoMap Var) :
    ∀ tbl, ValuesSat P tbl → ValuesSat P (inheritRenames parent vars tbl) := by
  induction vars with
  | nil => intro tbl h; simpa [inheritRenames] using h
  | cons p rest ih =>
    obtain ⟨name, v⟩ := p
    intro tbl h
    unfold inheritRenames
    split
    · split
      · rename_i rename hl
        exact ih _ (valuesSat_mapSet P tbl name rename h (hparent _ (lookup_mem _ _ _ hl)))
      · exact ih _ h
    · exact ih _ h

theorem skipReserved_not_reserved (fuel : Nat) (r : renamer) :
    ∀ rename out, skipReserved fuel r rename = some out → r.isReserved out = false := by
  induction fuel with
  | zero =>
    intro rename out h
    unfold skipReserved at h
    by_cases hr : r.isReserved rename = true
    · simp [hr] at h
    · simp only [hr, Bool.false_eq_true, if_false, Option.some.injEq] at h
      subst h; simpa using hr
  | succ n ih =>
    intro rename out h
    unfold skipReserved at h
    by_cases hr : r.isReserved rename = true
    · simp only [hr, if_true] at h
      cases hn : next rename with
      | none => simp [hn] at h
      | some rename1 =>
        simp only [hn] at h
        exact ih rename1 out h
    · simp only [hr, Bool.false_eq_true, if_false, Option.some.injEq] at h
      subst h; simpa using hr

theorem not_mem_reserved_of_isReserved (r : renamer) (name : Name)
    (h : r.isReserved name = false) : name ∉ r.reserved := by
  intro hm
  simp [renamer.isReserved, hm] at h

theorem valuesSat_assignNames (fuel : Nat) (r : renamer) (names : List Name) :
    ∀ tbl rename out last, ValuesSat (fun v => v ∉ r.reserved) tbl →
      assignNames fuel r names tbl rename = some (out, last) →
      ValuesSat (fun v => v ∉ r.reserved) out := by
  induction names with
  | nil =>
    intro tbl rename out last h he
    simp only [assignNames, Option.some.injEq, Prod.mk.injEq] at he
    rw [← he.1]; exact h
  | cons name rest ih =>
    intro tbl rename out last h he
    unfold assignNames at he
    cases hn : next rename with
    | none => simp [hn] at he
    | some rename1 =>
      simp only [hn] at he
      cases hs : skipReserved fuel r rename1 with
      | none => simp [hs] at he
      | some rename2 =>
        simp only [hs] at he
        refine ih _ _ out last ?_ he
        exact valuesSat_mapSet _ tbl name rename2 h
          (not_mem_reserved_of_isReserved r rename2 (skipReserved_not_reserved fuel r _ _ hs))

theorem noReservedValue_enterScope (reserved : List Name) (fuel : Nat) (r r1 : renamer)
    (scope : Scope) (isBlock : Bool) (hinv : NoReservedValue reserved r)
    (h : r.enterScope fuel scope isBlock = some r1) : NoReservedValue reserved r1 := by
  obtain ⟨hres, htbl⟩ := hinv
  unfold renamer.enterScope at h
  simp only at h
  split at h
  · exact absurd h (by simp)
  · rename_i renames0 hinh
    have h0 : ValuesSat (fun v => v ∉ r.reserved) renames0 := by
      split at hinh
      · split at hinh
        · rename_i parent hget
          simp only [Option.some.injEq] at hinh
          rw [← hinh]
          refine valuesSat_inheritRenames _ parent ?_ scope.Vars [] ?_
          · rw [hres]; exact htbl parent (List.get?_mem hget)
          · intro p hp; cases hp
        · exact absurd hinh (by simp)
      · simp only [Option.some.injEq] at hinh
        rw [← hinh]; intro p hp; cases hp
    split at h
    · exact absurd h (by simp)
    · rename_i renames rename has
      simp only [Option.some.injEq] at h
      subst h
      refine ⟨hres, ?_⟩
      intro tbl hmem
      simp only [List.mem_append, List.mem_singleton] at hmem
      rcases hmem with hmem | hmem
      · exact htbl tbl hmem
      · subst hmem
        have := valuesSat_assignNames fuel r _ renames0 _ tbl rename h0 has
        rw [hres] at this; exact this

theorem noReservedValue_exitScope (reserved : List Name) (r r1 : renamer)
    (hinv : NoReservedValue reserved r) (h : r.exitScope = some r1) :
    NoReservedValue reserved r1 := by
  obtain ⟨hres, htbl⟩ := hinv
  unfold renamer.exitScope at h
  simp only at h
  split at h
  · exact absurd h (by simp)
  · split at h
    · exact absurd h (by simp)
    · simp only [Option.some.injEq] at h
      subst h
      exact ⟨hres, fun tbl hmem => htbl tbl (List.mem_of_mem_take hmem)⟩

theorem noReservedValue_reachable (keywords globals undeclared : List Name) (det : Bool)
    (r : renamer) (h : Reachable (newRenamer keywords globals undeclared det) r) :
    NoReservedValue (keywords ++ globals ++ undeclared) r := by
  induction h with
  | init =>
    refine ⟨rfl, ?_⟩
    intro tbl hmem
    simp only [newRenamer, List.mem_singleton] at hmem
    subst hmem
    intro p hp; cases hp
  | enter fuel scope isBlock _ he ih => exact noReservedValue_enterScope _ fuel _ _ scope isBlock ih he
  | exit _ he ih => exact noReservedValue_exitScope _ _ _ ih he

end JS

namespace JS

/-- C2: in every renamer state reached from `newRenamer` by `enterScope` and
`exitScope`, the reserved set is exactly the union of the keywords, the global
identifiers and the undeclared names, and no value stored in any rename table,
assigned or inherited, is a member of it. -/
theorem generated_names_not_reserved (keywords globals undeclared : List Name) (det : Bool)
    (r : renamer) (h : Reachable (newRenamer keywords globals undeclared det) r) :
    (∀ name, name ∈ r.reserved ↔ (name ∈ keywords ∨ name ∈ globals ∨ name ∈ undeclared)) ∧
    ∀ tbl ∈ r.renames, ∀ k v, (k, v) ∈ tbl → v ∉ r.reserved := by
  obtain ⟨hres, htbl⟩ := noReservedValue_reachable keywords globals undeclared det r h
  refine ⟨?_, ?_⟩
  · intro name
    rw [hres]
    simp only [List.mem_append, or_assoc]
  · intro tbl hmem k v hkv
    rw [hres]
    exact htbl tbl hmem (k, v) hkv

/-- Witness of C2: with `a` undeclared in the program, the scope of `f` is
entered, its parameter receives `b`, and the theorem applies to that state. -/
theorem generated_names_not_reserved_witness :
    ∃ r, Reachable (newRenamer someKeywords someGlobals [bytes "a"] true) r ∧
      r.renames = [[], [(bytes "x", bytes "b")]] ∧
      ((∀ name, name ∈ r.reserved ↔
          (name ∈ someKeywords ∨ name ∈ someGlobals ∨ name ∈ [bytes "a"])) ∧
        ∀ tbl ∈ r.renames, ∀ k v, (k, v) ∈ tbl → v ∉ r.reserved) := by
  have hr : Reachable (newRenamer someKeywords someGlobals [bytes "a"] true)
      { reserved := someKeywords ++ someGlobals ++ [bytes "a"]
        vars := [scopeOuter.Vars]
        renames := [[], [(bytes "x", bytes "b")]]
        lastRename := [bytes "`", bytes "b"]
        deterministic := true } :=
    Reachable.enter 1 scopeOuter false Reachable.init (by decide)
  exact ⟨_, hr, rfl, generated_names_not_reserved _ _ _ _ _ hr⟩

end JS

namespace JS

/-- C1: the code at the failing input. For
`function f(x){ return function(y){ return x + y } }` the scope of `f` binds
`x` to `a`; the inner scope inherits that entry and, starting its own
candidates again from the seed, binds its parameter `y` to `a` as well: two
distinct live bindings of one scope chain resolve to the same short name. -/
theorem enterScope_inherited_and_declared_collide :
    ∃ r1 r2,
      (newRenamer someKeywords someGlobals [] true).enterScope 0 scopeOuter false = some r1 ∧
      r1.enterScope 0 scopeInner false = some r2 ∧
      r2.renames = [[], [(bytes "x", bytes "a")],
        [(bytes "x", bytes "a"), (bytes "y", bytes "a")]] ∧
      r2.rename (bytes "x") = bytes "a" ∧ r2.rename (bytes "y") = bytes "a" ∧
      r2.lastRename = [bytes "`", bytes "a", bytes "a"] := by
  refine ⟨_, _, rfl, rfl, ?_, ?_, ?_, ?_⟩ <;> decide

/-- C3: the code at the failing input. `exitScope` cuts the stack of rename
tables to `len(r.vars) - 1` entries, one less than before the matching
`enterScope` while that stack is one longer than `vars`. After entering the
scope of `f`, entering and leaving an inner scope drops the table of `f`, and
`x` is no longer renamed; from the initial state the table of the global scope
is dropped. -/
theorem exitScope_drops_parent_table :
    ∃ r1 r2 r3 r4,
      (newRenamer someKeywords someGlobals [] true).enterScope 0 scopeOuter false = some r1 ∧
      r1.enterScope 0 scopeEmpty true = some r2 ∧ r2.exitScope = some r3 ∧
      r1.renames = [[], [(bytes "x", bytes "a")]] ∧ r3.renames = [[]] ∧
      r1.lastRename = [bytes "`", bytes "a"] ∧ r3.lastRename = [bytes "`"] ∧
      r3.vars = r1.vars ∧
      r1.rename (bytes "x") = bytes "a" ∧ r3.rename (bytes "x") = bytes "x" ∧
      r1.exitScope = some r4 ∧ r4.renames = [] ∧
      (newRenamer someKeywords someGlobals [] true).renames = [[]] := by
  refine ⟨_, _, _, _, rfl, rfl, rfl, ?_, ?_, ?_, ?_, ?_, ?_, ?_, rfl, ?_, ?_⟩ <;> decide

/-- C9: the code at the failing input. The carry loop has no `break`, so it
increments every earlier position that is not `Z`, not only the nearest one:
the successor of `aa$` is `baa`, and `aba` is never generated. -/
theorem next_carry_increments_all_positions :
    next (bytes "aa$") = some (bytes "baa") ∧ next (bytes "aa$") ≠ some (bytes "aba") ∧
    next (bytes "aZa$") = some (bytes "baaa") ∧ next (bytes "a$") = some (bytes "ba") := by
  decide

end JS

namespace JS

/-! ## The renamer: order of lookup -/

theorem renameLoop_found (renames : List (GoMap Name)) (name : Name) (i : Nat)
    (tbl : GoMap Name) (v : Name) (hget : renames.get? i = some tbl)
    (hv : lookup tbl name = some v) :
    ∀ k, i < k →
      (∀ j tbl1, i < j → j < k → renames.get? j = some tbl1 → lookup tbl1 name = none) →
      renameLoop renames name k = v := by
  intro k
  induction k with
  | zero => intro h; omega
  | succ k ih =>
    intro hik hnone
    unfold renameLoop
    by_cases hk : i = k
    · subst hk
      simp only [hget, hv]
    · have hlt : i < k := by omega
      have hrec : renameLoop renames name k = v :=
        ih hlt (fun j tbl1 h1 h2 h3 => hnone j tbl1 h1 (by omega) h3)
      cases hg : renames.get? k with
      | none => simpa [hg] using hrec
      | some tbl1 =>
        have := hnone k tbl1 hlt (by omega) hg
        simpa [hg, this] using hrec

theorem renameLoop_not_found (renames : List (GoMap Name)) (name : Name)
    (hnone : ∀ tbl ∈ renames, lookup tbl name = none) :
    ∀ k, renameLoop renames name k = name := by
  intro k
  induction k with
  | zero => rfl
  | succ k ih =>
    unfold renameLoop
    cases hg : renames.get? k with
    | none => simpa [hg] using ih
    | some tbl1 =>
      have := hnone tbl1 (List.get?_mem hg)
      simpa [hg, this] using ih

/-- C10: in a nested scope `rename` returns the entry of the innermost active
rename table that contains the name (the table of greatest index, the search
going from the top of the stack outward), and the name itself when no active
table contains it. -/
theorem rename_lookup_order (r : renamer) (name : Name) (hnested : r.inGlobalScope = false) :
    (∀ i tbl v, r.renames.get? i = some tbl → lookup tbl name = some v →
        (∀ j tbl1, i < j → r.renames.get? j = some tbl1 → lookup tbl1 name = none) →
        r.rename name = v) ∧
    ((∀ tbl ∈ r.renames, lookup tbl name = none) → r.rename name = name) := by
  refine ⟨?_, ?_⟩
  · intro i tbl v hget hv hnone
    have hi : i < r.renames.length := by
      by_contra hcon
      rw [List.get?_eq_none.mpr (by omega)] at hget
      exact absurd hget (by simp)
    simp only [renamer.rename, hnested, Bool.false_eq_true, if_false]
    exact renameLoop_found r.renames name i tbl v hget hv _ hi
      (fun j tbl1 h1 _ h3 => hnone j tbl1 h1 h3)
  · intro hnone
    simp only [renamer.rename, hnested, Bool.false_eq_true, if_false]
    exact renameLoop_not_found r.renames name hnone _

/-- Witness of C10: in `nestedState` the name `x` resolves through the table of
index 1, the innermost one that holds it, and `z` is returned unchanged. -/
theorem rename_lookup_order_witness :
    nestedState.inGlobalScope = false ∧
    nestedState.rename (bytes "x") = bytes "b" ∧ nestedState.rename (bytes "z") = bytes "z" :=
  ⟨by decide,
   (rename_lookup_order nestedState (bytes "x") (by decide)).1 1 [(bytes "x", bytes "b")]
      (bytes "b") (by decide) (by decide) (by
        intro j tbl1 hj hget
        have hj2 : j = 2 := by
          by_contra hne
          have : nestedState.renames.get? j = none :=
            List.get?_eq_none.mpr (by simp [nestedState]; omega)
          rw [this] at hget; exact absurd hget (by simp)
        subst hj2
        simp only [nestedState, List.get?, Option.some.injEq] at hget
        subst hget; decide),
   (rename_lookup_order nestedState (bytes "z") (by decide)).2 (by decide)⟩

end JS

namespace JS

/-! ## The statement fuser: an if statement followed by return or throw -/

theorem stmtToExpr_stable (x : Ext) (fuel : Nat) (s : Stmt)
    (hif : ∀ c b e, s ≠ Stmt.IfStmt c b e) (hblock : ∀ b, s ≠ Stmt.BlockStmt b) :
    stmtToExpr x fuel s = some s := by
  cases s <;> first | exact absurd rfl (hif _ _ _) | exact absurd rfl (hblock _) | simp only [stmtToExpr]

theorem normalizeIf_of_not_neg (C : Expr) (body els : Option Stmt)
    (hC : ∀ D, C ≠ Expr.UnaryExpr TokenType.NotToken D) :
    normalizeIf C body els = (C, body, els) := by
  unfold normalizeIf
  split
  · rename_i inner; exact absurd rfl (hC inner)
  · rfl

theorem ifToExpr_then_only (x : Ext) (conv : Stmt → Option Stmt) (C : Expr) (s : Stmt)
    (hnil : x.isEmptyStmt none = true) (hs : x.isEmptyStmt (some s) = false)
    (hconv : conv s = some s) (hexpr : ∀ v, s ≠ Stmt.ExprStmt v) :
    ifToExpr x conv C (some s) none = some (Stmt.IfStmt C (some s) none) := by
  simp only [ifToExpr, convBranch, hnil, hs, hconv, Bool.not_false, Bool.not_true, Bool.and_false,
    Bool.false_eq_true, if_false, Bool.and_self, if_true, Option.map_some', Bool.false_and]
  split
  · rename_i h; exact absurd h (by simp)
  · rename_i v h
    simp only [Option.some.injEq] at h
    exact absurd h (hexpr v)
  · rename_i body1 _ h
    simp only [Option.some.injEq] at h
    rw [← h]

theorem ifToExpr_else_only (x : Ext) (conv : Stmt → Option Stmt) (C : Expr) (s : Stmt)
    (hnil : x.isEmptyStmt none = true) (hs : x.isEmptyStmt (some s) = false)
    (hconv : conv s = some s) (hexpr : ∀ v, s ≠ Stmt.ExprStmt v) :
    ifToExpr x conv C none (some s) = some (Stmt.IfStmt C none (some s)) := by
  simp only [ifToExpr, convBranch, hnil, hs, hconv, Bool.not_false, Bool.not_true, Bool.and_false,
    Bool.false_eq_true, if_false, Bool.and_self, if_true, Option.map_some', Bool.false_and,
    Bool.and_true]
  split
  · rename_i h; exact absurd h (by simp)
  · rename_i v h
    simp only [Option.some.injEq] at h
    exact absurd h (hexpr v)
  · rename_i body1 _ h
    simp only [Option.some.injEq] at h
    rw [← h]

theorem stmtToExpr_if_then (x : Ext) (fuel : Nat) (C : Expr) (s : Stmt)
    (hnil : x.isEmptyStmt none = true) (hs : x.isEmptyStmt (some s) = false)
    (hC : ∀ D, C ≠ Expr.UnaryExpr TokenType.NotToken D)
    (hconv : stmtToExpr x fuel s = some s) (hexpr : ∀ v, s ≠ Stmt.ExprStmt v) :
    stmtToExpr x (fuel + 1) (Stmt.IfStmt C (some s) none) = some (Stmt.IfStmt C (some s) none) := by
  simp only [stmtToExpr, normalizeIf_of_not_neg C _ _ hC]
  exact ifToExpr_then_only x _ C s hnil hs hconv hexpr

theorem stmtToExpr_if_not_then (x : Ext) (fuel : Nat) (D : Expr) (s : Stmt)
    (hnil : x.isEmptyStmt none = true) (hs : x.isEmptyStmt (some s) = false)
    (hconv : stmtToExpr x fuel s = some s) (hexpr : ∀ v, s ≠ Stmt.ExprStmt v) :
    stmtToExpr x (fuel + 1) (Stmt.IfStmt (Expr.UnaryExpr TokenType.NotToken D) (some s) none)
      = some (Stmt.IfStmt D none (some s)) := by
  simp only [stmtToExpr, normalizeIf]
  exact ifToExpr_else_only x _ D s hnil hs hconv hexpr

theorem mergeStmtList_pair (x : Ext) (conv : Stmt → Option Stmt) (a b a1 b1 : Stmt)
    (ha : conv a = some a1) (hb : conv b = some b1) (hpair : mergePair a1 b1 = none)
    (merged : Stmt) (hmerge : mergeIfReturn x a1 b1 = some merged) :
    mergeStmtListWith x conv [a, b] = some [merged] := by
  simp [mergeStmtListWith, mergeLoop, mergeStep, fuseIfReturn, ha, hb, hpair, hmerge]


theorem mergeStmtList_if_return_condExpr (x : Ext) (fuel : Nat) (C D X Y : Expr)
    (hnil : x.isEmptyStmt none = true)
    (hret : x.isEmptyStmt (some (Stmt.ReturnStmt (some X))) = false)
    (hthrow : x.isEmptyStmt (some (Stmt.ThrowStmt X)) = false)
    (hC : ∀ E, C ≠ Expr.UnaryExpr TokenType.NotToken E) :
    mergeStmtList x (fuel + 1)
        [Stmt.IfStmt C (some (Stmt.ReturnStmt (some X))) none, Stmt.ReturnStmt (some Y)]
      = some [Stmt.ReturnStmt (some (condExpr x C X Y))] ∧
    mergeStmtList x (fuel + 1)
        [Stmt.IfStmt (Expr.UnaryExpr TokenType.NotToken D) (some (Stmt.ReturnStmt (some X))) none,
          Stmt.ReturnStmt (some Y)]
      = some [Stmt.ReturnStmt (some (condExpr x D Y X))] ∧
    mergeStmtList x (fuel + 1) [Stmt.IfStmt C (some (Stmt.ThrowStmt X)) none, Stmt.ThrowStmt Y]
      = some [Stmt.ThrowStmt (condExpr x C X Y)] ∧
    mergeStmtList x (fuel + 1)
        [Stmt.IfStmt (Expr.UnaryExpr TokenType.NotToken D) (some (Stmt.ThrowStmt X)) none,
          Stmt.ThrowStmt Y]
      = some [Stmt.ThrowStmt (condExpr x D Y X)] := by
  have hr : ∀ Z, stmtToExpr x fuel (Stmt.ReturnStmt Z) = some (Stmt.ReturnStmt Z) := fun Z =>
    stmtToExpr_stable x fuel _ (fun _ _ _ h => by cases h) (fun _ h => by cases h)
  have ht : ∀ Z, stmtToExpr x fuel (Stmt.ThrowStmt Z) = some (Stmt.ThrowStmt Z) := fun Z =>
    stmtToExpr_stable x fuel _ (fun _ _ _ h => by cases h) (fun _ h => by cases h)
  have hr1 : ∀ Z, stmtToExpr x (fuel + 1) (Stmt.ReturnStmt Z) = some (Stmt.ReturnStmt Z) := fun Z =>
    stmtToExpr_stable x _ _ (fun _ _ _ h => by cases h) (fun _ h => by cases h)
  have ht1 : ∀ Z, stmtToExpr x (fuel + 1) (Stmt.ThrowStmt Z) = some (Stmt.ThrowStmt Z) := fun Z =>
    stmtToExpr_stable x _ _ (fun _ _ _ h => by cases h) (fun _ h => by cases h)
  refine ⟨?_, ?_, ?_, ?_⟩
  · exact mergeStmtList_pair x _ _ _ _ _
      (stmtToExpr_if_then x fuel C _ hnil hret hC (hr _) (fun _ h => by cases h)) (hr1 _) rfl _
      (by simp [mergeIfReturn, hnil, hret])
  · exact mergeStmtList_pair x _ _ _ _ _
      (stmtToExpr_if_not_then x fuel D _ hnil hret (hr _) (fun _ h => by cases h)) (hr1 _) rfl _
      (by simp [mergeIfReturn, hnil, hret])
  · exact mergeStmtList_pair x _ _ _ _ _
      (stmtToExpr_if_then x fuel C _ hnil hthrow hC (ht _) (fun _ h => by cases h)) (ht1 _) rfl _
      (by simp [mergeIfReturn, hnil, hthrow])
  · exact mergeStmtList_pair x _ _ _ _ _
      (stmtToExpr_if_not_then x fuel D _ hnil hthrow (ht _) (fun _ h => by cases h)) (ht1 _) rfl _
      (by simp [mergeIfReturn, hnil, hthrow])

/-- C6: for all expressions `C`, `X`, `Y`, `mergeStmtList` turns
`if (C) return X; return Y;` into the single statement `return C ? X : Y`,
where the test is wrapped in a group exactly when its precedence is below
`OpCoalesce` and each branch exactly when its precedence is below `OpAssign`;
when the test is a negation `!D` the result is `return D ? Y : X`, grouped in
the same way; and the same holds with `throw` in place of `return`. The absent
helper `isEmptyStmt` is assumed to find no statement empty and the return or
throw statement not empty. -/
theorem mergeStmtList_if_return (x : Ext) (fuel : Nat) (C D X Y : Expr)
    (hnil : x.isEmptyStmt none = true)
    (hret : x.isEmptyStmt (some (Stmt.ReturnStmt (some X))) = false)
    (hthrow : x.isEmptyStmt (some (Stmt.ThrowStmt X)) = false)
    (hC : ∀ E, C ≠ Expr.UnaryExpr TokenType.NotToken E) :
    mergeStmtList x (fuel + 1)
        [Stmt.IfStmt C (some (Stmt.ReturnStmt (some X))) none, Stmt.ReturnStmt (some Y)]
      = some [Stmt.ReturnStmt (some (Expr.CondExpr
          (if x.exprPrec C < x.OpCoalesce then Expr.GroupExpr C else C)
          (if x.exprPrec X < x.OpAssign then Expr.GroupExpr X else X)
          (if x.exprPrec Y < x.OpAssign then Expr.GroupExpr Y else Y)))] ∧
    mergeStmtList x (fuel + 1)
        [Stmt.IfStmt (Expr.UnaryExpr TokenType.NotToken D) (some (Stmt.ReturnStmt (some X))) none,
          Stmt.ReturnStmt (some Y)]
      = some [Stmt.ReturnStmt (some (Expr.CondExpr
          (if x.exprPrec D < x.OpCoalesce then Expr.GroupExpr D else D)
          (if x.exprPrec Y < x.OpAssign then Expr.GroupExpr Y else Y)
          (if x.exprPrec X < x.OpAssign then Expr.GroupExpr X else X)))] ∧
    mergeStmtList x (fuel + 1) [Stmt.IfStmt C (some (Stmt.ThrowStmt X)) none, Stmt.ThrowStmt Y]
      = some [Stmt.ThrowStmt (Expr.CondExpr
          (if x.exprPrec C < x.OpCoalesce then Expr.GroupExpr C else C)
          (if x.exprPrec X < x.OpAssign then Expr.GroupExpr X else X)
          (if x.exprPrec Y < x.OpAssign then Expr.GroupExpr Y else Y))] ∧
    mergeStmtList x (fuel + 1)
        [Stmt.IfStmt (Expr.UnaryExpr TokenType.NotToken D) (some (Stmt.ThrowStmt X)) none,
          Stmt.ThrowStmt Y]
      = some [Stmt.ThrowStmt (Expr.CondExpr
          (if x.exprPrec D < x.OpCoalesce then Expr.GroupExpr D else D)
          (if x.exprPrec Y < x.OpAssign then Expr.GroupExpr Y else Y)
          (if x.exprPrec X < x.OpAssign then Expr.GroupExpr X else X))] := by
  have h := mergeStmtList_if_return_condExpr x fuel C D X Y hnil hret hthrow hC
  simpa only [condExpr, groupExpr] using h

/-- Witness of C6: `if (a = b) return c, d; return e;` becomes
`return (a = b) ? (c, d) : e`, with the test and the first branch grouped, and
`if (!cond) return 1; return 2;` becomes `return cond ? 2 : 1`. -/
theorem mergeStmtList_if_return_witness :
    mergeStmtList sampleExt 1
        [Stmt.IfStmt (Expr.BinaryExpr TokenType.EqToken (ident "a") (ident "b"))
          (some (Stmt.ReturnStmt (some
            (Expr.BinaryExpr TokenType.CommaToken (ident "c") (ident "d"))))) none,
          Stmt.ReturnStmt (some (ident "e"))]
      = some [Stmt.ReturnStmt (some (Expr.CondExpr
          (Expr.GroupExpr (Expr.BinaryExpr TokenType.EqToken (ident "a") (ident "b")))
          (Expr.GroupExpr (Expr.BinaryExpr TokenType.CommaToken (ident "c") (ident "d")))
          (ident "e")))] ∧
    mergeStmtList sampleExt 1
        [Stmt.IfStmt (Expr.UnaryExpr TokenType.NotToken (ident "cond"))
          (some (Stmt.ReturnStmt (some (num "1")))) none, Stmt.ReturnStmt (some (num "2"))]
      = some [Stmt.ReturnStmt (some (Expr.CondExpr (ident "cond") (num "2") (num "1")))] :=
  ⟨(mergeStmtList_if_return sampleExt 0
      (Expr.BinaryExpr TokenType.EqToken (ident "a") (ident "b")) (ident "cond")
      (Expr.BinaryExpr TokenType.CommaToken (ident "c") (ident "d")) (ident "e")
      rfl rfl rfl (fun _ h => by cases h)).1,
   (mergeStmtList_if_return sampleExt 0 (ident "cond") (ident "cond") (num "1") (num "2")
      rfl rfl rfl (fun _ h => by cases h)).2.1⟩

end JS

namespace JS

/-! ## The statement fuser: length, write index and termination -/

theorem listSize_append (a b : List Stmt) : listSize (a ++ b) = listSize a + listSize b := by
  induction a with
  | nil => simp [listSize]
  | cons s rest ih => simp [listSize, ih]; omega

theorem one_le_stmtSize (s : Stmt) : 1 ≤ stmtSize s := by
  cases s with
  | BlockStmt b => cases b; simp only [stmtSize]; omega
  | IfStmt c b e => simp only [stmtSize]; omega
  | _ => simp only [stmtSize]; omega

theorem listSize_take_le (l : List Stmt) (n m : Nat) (h : n ≤ m) :
    listSize (l.take n) ≤ listSize (l.take m) := by
  obtain ⟨d, rfl⟩ := Nat.exists_eq_add_of_le h
  rw [List.take_add, listSize_append]
  omega

theorem take_set_of_le (l : List Stmt) (n m : Nat) (v : Stmt) (h : m ≤ n) :
    (l.set n v).take m = l.take m := by
  rw [List.set_take]
  exact List.set_eq_of_length_le (by simp; omega)

theorem take_succ_set_self (l : List Stmt) (n : Nat) (v : Stmt) (h : n < l.length) :
    (l.set n v).take (n + 1) = l.take n ++ [v] := by
  rw [List.take_succ, take_set_of_le l n n v (le_refl _)]
  simp [List.getElem?_set, h]

theorem mergePair_size (left right merged : Stmt) (h : mergePair left right = some merged) :
    stmtSize merged = stmtSize right := by
  unfold mergePair at h
  repeat' split at h
  all_goals first
    | (simp only [Option.some.injEq] at h; subst h; simp only [stmtSize])
    | simp at h

theorem mergeIfReturn_size (x : Ext) (prev cur merged : Stmt)
    (h : mergeIfReturn x prev cur = some merged) : stmtSize merged = 1 := by
  unfold mergeIfReturn at h
  split at h
  · split at h
    · split at h
      · split at h
        · simp only [Option.some.injEq] at h; subst h; simp [stmtSize]
        · split at h
          · simp only [Option.some.injEq] at h; subst h; simp [stmtSize]
          · simp at h
      · split at h
        · simp only [Option.some.injEq] at h; subst h; simp [stmtSize]
        · split at h
          · simp only [Option.some.injEq] at h; subst h; simp [stmtSize]
          · simp at h
      · simp at h
    · simp at h
  · simp at h


theorem fuseIfReturn_inv (x : Ext) (list0 l2 : List Stmt) (k m2 B : Nat) (right2 : Stmt)
    (hlen : l2.length = list0.length) (hk : k + 1 < list0.length) (hm2 : m2 ≤ k + 1)
    (hdrop : l2.drop (k + 2) = list0.drop (k + 2))
    (hsize : listSize (l2.take (m2 + 1)) + listSize (l2.drop (k + 2)) ≤ B) :
    ∃ (l1 : List Stmt) (m1 : Nat), fuseIfReturn x k l2 (m2 : Int) right2 = some (l1, (m1 : Int)) ∧
      l1.length = list0.length ∧ m1 ≤ m2 ∧ l1.drop (k + 2) = list0.drop (k + 2) ∧
      listSize (l1.take (m1 + 1)) + listSize (l1.drop (k + 2)) ≤ B := by
  cases m2 with
  | zero => exact ⟨l2, 0, by simp [fuseIfReturn], hlen, le_refl _, hdrop, hsize⟩
  | succ n =>
    have hn : n < l2.length := by omega
    have hpos : (0 : Int) < ((n + 1 : Nat) : Int) := by omega
    have hsub : (((n + 1 : Nat) : Int) - 1).toNat = n := by simp
    have hget : l2.get? n = some l2[n] := by simp [List.getElem?_eq_getElem hn]
    have htn : ((n + 1 : Nat) : Int).toNat = n + 1 := by simp
    have hm1 : ((n + 1 : Nat) : Int) - 1 = (n : Int) := by push_cast; omega
    unfold fuseIfReturn
    have hn0 : ((n : Nat) : Int).toNat = n := by simp
    simp only [hpos, if_true, hm1, hn0, hget, htn]
    cases hmerge : mergeIfReturn x l2[n] right2 with
    | none => exact ⟨l2, n + 1, rfl, hlen, le_refl _, hdrop, hsize⟩
    | some merged =>
      refine ⟨((l2.set n merged).set (n + 1) merged).set (k + 1) merged, n, rfl, ?_, by omega,
        ?_, ?_⟩
      · simp [hlen]
      · rw [List.drop_set_of_lt _ _ (by omega), List.drop_set_of_lt _ _ (by omega),
          List.drop_set_of_lt _ _ (by omega), hdrop]
      · rw [List.drop_set_of_lt _ _ (by omega), List.drop_set_of_lt _ _ (by omega),
          List.drop_set_of_lt _ _ (by omega)]
        have h1 : (((l2.set n merged).set (n + 1) merged).set (k + 1) merged).take
            (n + 1) = l2.take n ++ [merged] := by
          rw [take_set_of_le _ _ _ _ (by omega), take_set_of_le _ _ _ _ (by omega),
            take_succ_set_self _ _ _ hn]
        rw [h1, listSize_append]
        have h2 : listSize (l2.take n) + stmtSize l2[n] = listSize (l2.take (n + 1)) := by
          rw [List.take_succ, listSize_append]
          simp [List.getElem?_eq_getElem hn, listSize]
        have h3 := listSize_take_le l2 (n + 1) (n + 1 + 1) (by omega)
        have h4 := one_le_stmtSize l2[n]
        have h5 := mergeIfReturn_size x _ _ _ hmerge
        simp only [listSize, h5]
        omega


theorem mergeStep_tail_inv (x : Ext) (list0 l : List Stmt) (k m m2 B : Nat) (right2 : Stmt)
    (hlen : l.length = list0.length) (hk : k + 1 < list0.length) (hm : m ≤ k)
    (hm2 : m2 ≤ m + 1)
    (hdrop : l.drop (k + 1) = list0.drop (k + 1))
    (hsize : listSize (l.take (m + 1)) + listSize (l.drop (k + 1)) ≤ B)
    (hk1 : k + 1 < l.length) (hsz : stmtSize right2 ≤ stmtSize l[k + 1]) :
    ∃ (l1 : List Stmt) (m1 : Nat),
      fuseIfReturn x k ((l.set (k + 1) right2).set m2 right2) (m2 : Int) right2
        = some (l1, (m1 : Int)) ∧
      l1.length = list0.length ∧ m1 ≤ k + 1 ∧ l1.drop (k + 2) = list0.drop (k + 2) ∧
      listSize (l1.take (m1 + 1)) + listSize (l1.drop (k + 2)) ≤ B := by
  have hd : l.drop (k + 1) = l[k + 1] :: l.drop (k + 2) := List.drop_eq_getElem_cons hk1
  have hd0 : list0.drop (k + 1) = list0[k + 1] :: list0.drop (k + 2) := List.drop_eq_getElem_cons hk
  have hdrop2 : l.drop (k + 2) = list0.drop (k + 2) := by
    rw [hd, hd0] at hdrop
    exact (List.cons.inj hdrop).2
  have hl2drop : ((l.set (k + 1) right2).set m2 right2).drop (k + 2) = l.drop (k + 2) := by
    rw [List.drop_set_of_lt _ _ (by omega), List.drop_set_of_lt _ _ (by omega)]
  have hl2take : ((l.set (k + 1) right2).set m2 right2).take (m2 + 1) = l.take m2 ++ [right2] := by
    rw [take_succ_set_self _ _ _ (by simp; omega), take_set_of_le _ _ _ _ (by omega)]
  obtain ⟨l1, m1, h1, h2, h3, h4, h5⟩ := fuseIfReturn_inv x list0
    ((l.set (k + 1) right2).set m2 right2) k m2 B right2 (by simp [hlen]) hk (by omega)
    (by rw [hl2drop, hdrop2])
    (by
      rw [hl2drop, hl2take, listSize_append]
      have h6 := listSize_take_le l m2 (m + 1) hm2
      rw [hd] at hsize
      simp only [listSize] at hsize ⊢
      omega)
  exact ⟨l1, m1, h1, h2, by omega, h4, h5⟩

theorem mergeStep_inv (x : Ext) (conv : Stmt → Option Stmt) (list0 l : List Stmt) (k m B : Nat)
    (hlen : l.length = list0.length) (hk : k + 1 < list0.length) (hm : m ≤ k)
    (hdrop : l.drop (k + 1) = list0.drop (k + 1))
    (hsize : listSize (l.take (m + 1)) + listSize (l.drop (k + 1)) ≤ B)
    (hconv : ∀ s ∈ list0.drop 1, ∃ s1, conv s = some s1 ∧ stmtSize s1 ≤ stmtSize s) :
    ∃ (l1 : List Stmt) (m1 : Nat), mergeStep x conv k (l, (m : Int)) = some (l1, (m1 : Int)) ∧
      l1.length = list0.length ∧ m1 ≤ k + 1 ∧ l1.drop (k + 2) = list0.drop (k + 2) ∧
      listSize (l1.take (m1 + 1)) + listSize (l1.drop (k + 2)) ≤ B := by
  have hk1 : k + 1 < l.length := by omega
  have hgl : l.get? k = some l[k] := by simp [List.getElem?_eq_getElem (show k < l.length by omega)]
  have hgr : l.get? (k + 1) = some l[k + 1] := by simp [List.getElem?_eq_getElem hk1]
  have hd : l.drop (k + 1) = l[k + 1] :: l.drop (k + 2) := List.drop_eq_getElem_cons hk1
  have hmem : l[k + 1] ∈ list0.drop 1 := by
    apply List.mem_of_mem_drop (n := k)
    rw [List.drop_drop, Nat.add_comm 1 k, ← hdrop, hd]
    exact List.mem_cons_self _ _
  obtain ⟨right1, hc, hs1⟩ := hconv _ hmem
  unfold mergeStep
  simp only [hgl, hgr, hc]
  cases hp : mergePair l[k] right1 with
  | none =>
    have hcheck : ¬ (((m : Int) + 1 < 0) ∨ (((l.set (k + 1) right1).length : Int) ≤ (m : Int) + 1)) := by
      simp only [List.length_set]; omega
    have htn : ((m : Int) + 1).toNat = m + 1 := by omega
    have hcast : (m : Int) + 1 = ((m + 1 : Nat) : Int) := by push_cast; rfl
    simp only [hcheck, if_false, htn]
    rw [hcast]
    exact mergeStep_tail_inv x list0 l k m (m + 1) B right1 hlen hk hm (le_refl _) hdrop hsize hk1 hs1
  | some merged =>
    have hcheck : ¬ (((m : Int) + 1 - 1 < 0) ∨ (((l.set (k + 1) merged).length : Int) ≤ (m : Int) + 1 - 1)) := by
      simp only [List.length_set]; omega
    have htn : ((m : Int) + 1 - 1).toNat = m := by omega
    have hcast : (m : Int) + 1 - 1 = ((m : Nat) : Int) := by omega
    simp only [hcheck, if_false, htn]
    rw [hcast]
    exact mergeStep_tail_inv x list0 l k m m B merged hlen hk hm (by omega) hdrop hsize hk1
      (by rw [mergePair_size _ _ _ hp]; exact hs1)


theorem mergeLoop_inv (x : Ext) (conv : Stmt → Option Stmt) (list0 : List Stmt)
    (hconv : ∀ s ∈ list0.drop 1, ∃ s1, conv s = some s1 ∧ stmtSize s1 ≤ stmtSize s) :
    ∀ k, k + 1 ≤ list0.length →
      ∃ (l : List Stmt) (m : Nat), mergeLoop x conv k list0 = some (l, (m : Int)) ∧
        l.length = list0.length ∧ m ≤ k ∧ l.drop (k + 1) = list0.drop (k + 1) ∧
        listSize (l.take (m + 1)) + listSize (l.drop (k + 1)) ≤ listSize list0 := by
  intro k
  induction k with
  | zero =>
    intro _
    refine ⟨list0, 0, rfl, rfl, le_refl _, rfl, ?_⟩
    rw [← listSize_append, List.take_append_drop]
  | succ k ih =>
    intro hk
    obtain ⟨l, m, h1, h2, h3, h4, h5⟩ := ih (by omega)
    obtain ⟨l1, m1, g1, g2, g3, g4, g5⟩ :=
      mergeStep_inv x conv list0 l k m (listSize list0) h2 (by omega) h3 h4 h5 hconv
    refine ⟨l1, m1, ?_, g2, g3, g4, g5⟩
    simp only [mergeLoop, h1, g1]

theorem mergeStmtListWith_total (x : Ext) (conv : Stmt → Option Stmt) (list : List Stmt)
    (hconv : ∀ s ∈ list, ∃ s1, conv s = some s1 ∧ stmtSize s1 ≤ stmtSize s) :
    ∃ out, mergeStmtListWith x conv list = some out ∧ listSize out ≤ listSize list := by
  unfold mergeStmtListWith
  by_cases hlt : list.length < 2
  · exact ⟨list, by simp [hlt], le_refl _⟩
  · simp only [hlt, if_false]
    cases list with
    | nil => simp at hlt
    | cons first rest =>
      obtain ⟨first1, hf, hfs⟩ := hconv first (List.mem_cons_self _ _)
      simp only [hf]
      have hlen : (first :: rest).length - 1 + 1 ≤ (first1 :: rest).length := by simp
      obtain ⟨l, m, h1, h2, h3, _, h5⟩ := mergeLoop_inv x conv (first1 :: rest)
        (fun s hs => hconv s (List.mem_cons_of_mem _ (by simpa using hs)))
        ((first :: rest).length - 1) hlen
      simp only [h1]
      have hcheck : ¬ (((m : Int) + 1 < 0) ∨ ((l.length : Int) < (m : Int) + 1)) := by
        simp only [List.length_cons] at h2 h3 ⊢
        omega
      have htn : ((m : Int) + 1).toNat = m + 1 := by omega
      simp only [hcheck, if_false, htn]
      refine ⟨_, rfl, ?_⟩
      simp only [listSize] at h5 ⊢
      omega


theorem fuseIfReturn_bounds (x : Ext) (i : Nat) (l l1 : List Stmt) (j j1 : Int) (cur : Stmt)
    (h : fuseIfReturn x i l j cur = some (l1, j1)) (hj : 0 ≤ j) :
    0 ≤ j1 ∧ j1 ≤ j ∧ l1.length = l.length := by
  unfold fuseIfReturn at h
  split at h
  · split at h
    · split at h
      · simp only [Option.some.injEq, Prod.mk.injEq] at h
        obtain ⟨h1, h2⟩ := h
        subst h1; subst h2
        exact ⟨by omega, by omega, by simp⟩
      · simp only [Option.some.injEq, Prod.mk.injEq] at h
        obtain ⟨h1, h2⟩ := h
        subst h1; subst h2
        exact ⟨by omega, by omega, rfl⟩
    · simp at h
  · simp only [Option.some.injEq, Prod.mk.injEq] at h
    obtain ⟨h1, h2⟩ := h
    subst h1; subst h2
    exact ⟨by omega, by omega, rfl⟩

theorem mergeStep_bounds (x : Ext) (conv : Stmt → Option Stmt) (i : Nat) (l l1 : List Stmt)
    (j j1 : Int) (h : mergeStep x conv i (l, j) = some (l1, j1)) (hj : 0 ≤ j) :
    0 ≤ j1 ∧ j1 ≤ j + 1 ∧ l1.length = l.length := by
  unfold mergeStep at h
  simp only at h
  split at h
  · split at h
    · simp at h
    · rename_i left right0 _ _ _ right1 _
      cases hp : mergePair left right1 with
      | none =>
        simp only [hp] at h
        split at h
        · simp at h
        · obtain ⟨h1, h2, h3⟩ := fuseIfReturn_bounds x i _ _ _ _ _ h (by omega)
          simp only [List.length_set] at h3
          exact ⟨h1, h2, h3⟩
      | some merged =>
        simp only [hp] at h
        split at h
        · simp at h
        · obtain ⟨h1, h2, h3⟩ := fuseIfReturn_bounds x i _ _ _ _ _ h (by omega)
          simp only [List.length_set] at h3
          exact ⟨h1, by omega, h3⟩
  · simp at h

theorem mergeLoop_bounds (x : Ext) (conv : Stmt → Option Stmt) (list : List Stmt) :
    ∀ k l j, mergeLoop x conv k list = some (l, j) → 0 ≤ j ∧ j ≤ k ∧ l.length = list.length := by
  intro k
  induction k with
  | zero =>
    intro l j h
    simp only [mergeLoop, Option.some.injEq, Prod.mk.injEq] at h
    obtain ⟨h1, h2⟩ := h
    subst h1; subst h2
    simp
  | succ k ih =>
    intro l j h
    simp only [mergeLoop] at h
    split at h
    · rename_i st hst
      obtain ⟨l0, j0⟩ := st
      obtain ⟨h1, h2, h3⟩ := ih l0 j0 hst
      obtain ⟨g1, g2, g3⟩ := mergeStep_bounds x conv k l0 l j0 j h h1
      refine ⟨g1, ?_, by omega⟩
      push_cast
      omega
    · simp at h

theorem mergeStmtListWith_length (x : Ext) (conv : Stmt → Option Stmt) (list out : List Stmt)
    (h : mergeStmtListWith x conv list = some out) :
    out.length ≤ list.length ∧ (list ≠ [] → out ≠ []) ∧ (list.length < 2 → out = list) := by
  unfold mergeStmtListWith at h
  by_cases hlt : list.length < 2
  · simp only [hlt, if_true, Option.some.injEq] at h
    subst h
    exact ⟨le_refl _, fun hne => hne, fun _ => rfl⟩
  · simp only [hlt, if_false] at h
    cases list with
    | nil => simp at hlt
    | cons first rest =>
      simp only at h
      split at h
      · simp at h
      · rename_i first1 _
        split at h
        · rename_i l j hloop
          obtain ⟨h1, h2, h3⟩ := mergeLoop_bounds x conv _ _ l j hloop
          split at h
          · simp at h
          · simp only [Option.some.injEq] at h
            subst h
            simp only [List.length_cons] at h2 h3 ⊢
            refine ⟨?_, ?_, fun hc => absurd hc hlt⟩
            · rw [List.length_take]; omega
            · intro _ hnil
              have hlen := congrArg List.length hnil
              rw [List.length_take] at hlen
              simp only [List.length_nil] at hlen
              omega
        · simp at h


theorem stmtSize_le_listSize (list : List Stmt) (s : Stmt) (h : s ∈ list) :
    stmtSize s ≤ listSize list := by
  induction list with
  | nil => cases h
  | cons a rest ih =>
    simp only [listSize]
    rcases List.mem_cons.mp h with h1 | h1
    · subst h1; omega
    · have := ih h1; omega

theorem convBranch_total (conv : Stmt → Option Stmt) (b : Option Stmt)
    (h : ∀ s, b = some s → ∃ s1, conv s = some s1 ∧ stmtSize s1 ≤ stmtSize s) :
    ∃ b1, convBranch conv b = some b1 ∧ optStmtSize b1 ≤ optStmtSize b := by
  cases b with
  | none => exact ⟨none, rfl, le_refl _⟩
  | some s =>
    obtain ⟨s1, h1, h2⟩ := h s rfl
    exact ⟨some s1, by simp [convBranch, h1], by simpa [optStmtSize] using h2⟩

theorem ifToExpr_total (x : Ext) (conv : Stmt → Option Stmt) (cond : Expr) (body els : Option Stmt)
    (hb : ∀ s, body = some s → ∃ s1, conv s = some s1 ∧ stmtSize s1 ≤ stmtSize s)
    (he : ∀ s, els = some s → ∃ s1, conv s = some s1 ∧ stmtSize s1 ≤ stmtSize s) :
    ∃ r, ifToExpr x conv cond body els = some r ∧
      stmtSize r ≤ 1 + optStmtSize body + optStmtSize els := by
  obtain ⟨b1, hb1, hbs⟩ := convBranch_total conv body hb
  obtain ⟨e1, he1, hes⟩ := convBranch_total conv els he
  unfold ifToExpr
  simp only [hb1, he1]
  repeat' split
  all_goals first
    | exact ⟨_, rfl, by simp only [stmtSize]; omega⟩
    | (rename_i h; simp only [Option.some.injEq] at h; subst h
       exact ⟨_, rfl, by simp only [stmtSize]; omega⟩)
    | (rename_i h; simp at h)

theorem blockToExpr_total (x : Ext) (conv : Stmt → Option Stmt) (list : List Stmt) (scope : Scope)
    (hconv : ∀ s, stmtSize s ≤ listSize list → ∃ s1, conv s = some s1 ∧ stmtSize s1 ≤ stmtSize s) :
    ∃ r, blockToExpr x conv list scope = some r ∧ stmtSize r ≤ 1 + listSize list := by
  obtain ⟨out, hout, hsz⟩ := mergeStmtListWith_total x conv list
    (fun s hs => hconv s (stmtSize_le_listSize list s hs))
  unfold blockToExpr
  simp only [hout]
  split
  · rename_i h; simp at h
  · rename_i single h
    simp only [Option.some.injEq] at h
    subst h
    simp only [listSize] at hsz
    split
    · obtain ⟨s1, h1, h2⟩ := hconv single (by omega)
      exact ⟨s1, h1, by omega⟩
    · exact ⟨_, rfl, by simp only [stmtSize, listSize]; omega⟩
  · rename_i merged _ h
    simp only [Option.some.injEq] at h
    subst h
    exact ⟨_, rfl, by simp only [stmtSize]; omega⟩

theorem stmtToExpr_total (x : Ext) :
    ∀ n s fuel, stmtSize s ≤ n → n ≤ fuel →
      ∃ s1, stmtToExpr x fuel s = some s1 ∧ stmtSize s1 ≤ stmtSize s := by
  intro n
  induction n with
  | zero =>
    intro s fuel hs _
    have := one_le_stmtSize s
    omega
  | succ n ih =>
    intro s fuel hs hf
    obtain ⟨f, rfl⟩ : ∃ f, fuel = f + 1 := ⟨fuel - 1, by omega⟩
    cases s with
    | IfStmt cond0 body0 els0 =>
      simp only [stmtSize] at hs
      simp only [stmtToExpr]
      have key : ∀ c b e, optStmtSize b + optStmtSize e ≤ n →
          ∃ r, ifToExpr x (stmtToExpr x f) c b e = some r ∧
            stmtSize r ≤ 1 + optStmtSize b + optStmtSize e := by
        intro c b e hbe
        refine ifToExpr_total x _ c b e ?_ ?_
        · intro s hb
          subst hb
          simp only [optStmtSize] at hbe
          exact ih s f (by omega) (by omega)
        · intro s he
          subst he
          simp only [optStmtSize] at hbe
          exact ih s f (by omega) (by omega)
      unfold normalizeIf
      split
      · obtain ⟨r, h1, h2⟩ := key _ els0 body0 (by omega)
        exact ⟨r, h1, by simp only [stmtSize]; omega⟩
      · obtain ⟨r, h1, h2⟩ := key cond0 body0 els0 (by omega)
        exact ⟨r, h1, by simp only [stmtSize]; omega⟩
    | BlockStmt b =>
      obtain ⟨list, scope⟩ := b
      simp only [stmtSize] at hs
      simp only [stmtToExpr]
      obtain ⟨r, h1, h2⟩ := blockToExpr_total x (stmtToExpr x f) list scope
        (fun s hsz => ih s f (by omega) (by omega))
      exact ⟨r, h1, by simp only [stmtSize]; omega⟩
    | _ => exact ⟨_, by simp only [stmtToExpr], le_refl _⟩


/-- C5: for every statement list, `mergeStmtList` returns a list (with fuel at
least the size of the list it does not run out of fuel and does not panic),
the list returned is no longer than the input and is non-empty when the input
is, a list of fewer than two statements is returned unchanged, and after any
number `k` of iterations of the loop the write index `j` is not negative and
not beyond the read index. -/
theorem mergeStmtList_length (x : Ext) (list : List Stmt) :
    (∀ fuel, listSize list ≤ fuel → ∃ out, mergeStmtList x fuel list = some out) ∧
    (∀ fuel out, mergeStmtList x fuel list = some out →
        out.length ≤ list.length ∧ (list ≠ [] → out ≠ [])) ∧
    (∀ fuel, list.length < 2 → mergeStmtList x fuel list = some list) ∧
    (∀ fuel k arr l j, mergeLoop x (stmtToExpr x fuel) k arr = some (l, j) → 0 ≤ j ∧ j ≤ k) := by
  refine ⟨?_, ?_, ?_, ?_⟩
  · intro fuel hf
    obtain ⟨out, h, _⟩ := mergeStmtListWith_total x (stmtToExpr x fuel) list
      (fun s hs => stmtToExpr_total x (listSize list) s fuel (stmtSize_le_listSize list s hs) hf)
    exact ⟨out, h⟩
  · intro fuel out h
    obtain ⟨h1, h2, _⟩ := mergeStmtListWith_length x _ list out h
    exact ⟨h1, h2⟩
  · intro fuel hlt
    simp [mergeStmtList, mergeStmtListWith, hlt]
  · intro fuel k arr l j h
    obtain ⟨h1, h2, _⟩ := mergeLoop_bounds x _ arr k l j h
    exact ⟨h1, h2⟩

end JS

namespace JS

/-! ## The statement fuser: the order of effects -/

theorem listEffects_append (a b : List Stmt) :
    listEffects (a ++ b) = listEffects a ++ listEffects b := by
  induction a with
  | nil => simp [listEffects]
  | cons s rest ih => simp [listEffects, ih]

theorem stmtToExpr_simple (x : Ext) (fuel : Nat) (s : Stmt) (h : isExprOrVarDecl s = true) :
    stmtToExpr x fuel s = some s := by
  cases s <;> first | simp only [stmtToExpr] | simp [isExprOrVarDecl] at h

theorem mergeIfReturn_simple (x : Ext) (prev cur : Stmt) (h : isExprOrVarDecl prev = true) :
    mergeIfReturn x prev cur = none := by
  cases prev <;> first | rfl | simp [isExprOrVarDecl] at h

theorem mergePair_simple (left right : Stmt) (hl : isExprOrVarDecl left = true)
    (hr : isExprOrVarDecl right = true) :
    mergePair left right = none ∨
      ∃ merged, mergePair left right = some merged ∧ isExprOrVarDecl merged = true ∧
        stmtEffects merged = stmtEffects left ++ stmtEffects right := by
  cases left with
  | ExprStmt a =>
    cases right with
    | ExprStmt b =>
      exact Or.inr ⟨_, rfl, rfl, by simp [stmtEffects, flattenComma]⟩
    | VarDecl d => exact Or.inl rfl
    | _ => simp [isExprOrVarDecl] at hr
  | VarDecl d =>
    obtain ⟨kind, decls⟩ := d
    cases right with
    | ExprStmt b => exact Or.inl rfl
    | VarDecl d2 =>
      obtain ⟨kind2, decls2⟩ := d2
      by_cases hk : kind = kind2
      · subst hk
        exact Or.inr ⟨Stmt.VarDecl (VarDecl.mk kind (decls ++ decls2)), by simp [mergePair], rfl,
          by simp [stmtEffects]⟩
      · exact Or.inl (by simp [mergePair, hk])
    | _ => simp [isExprOrVarDecl] at hr
  | _ => simp [isExprOrVarDecl] at hl

theorem fuseIfReturn_simple (x : Ext) (k : Nat) (l2 : List Stmt) (m2 : Nat) (cur : Stmt)
    (hm : m2 ≤ l2.length) (hs : ∀ s ∈ l2.take m2, isExprOrVarDecl s = true) :
    fuseIfReturn x k l2 (m2 : Int) cur = some (l2, (m2 : Int)) := by
  cases m2 with
  | zero => simp [fuseIfReturn]
  | succ n =>
    have hn : n < l2.length := by omega
    have hpos : (0 : Int) < ((n + 1 : Nat) : Int) := by omega
    have hsub : (((n + 1 : Nat) : Int) - 1).toNat = n := by simp
    have hget : l2.get? n = some l2[n] := by simp [List.getElem?_eq_getElem hn]
    have hmem : l2[n] ∈ l2.take (n + 1) := by
      rw [List.mem_take_iff_getElem]
      exact ⟨n, by simp; omega, rfl⟩
    unfold fuseIfReturn
    simp only [hpos, if_true, hsub, hget, mergeIfReturn_simple x _ cur (hs _ hmem)]


theorem fuse_tail_effects (x : Ext) (list0 l : List Stmt) (k m m2 : Nat) (right2 : Stmt)
    (hk : k + 1 < list0.length) (inv : FuseInv list0 k l m) (hm2 : m2 ≤ m + 1)
    (hsimple : isExprOrVarDecl right2 = true)
    (heff : listEffects (l.take m2) ++ stmtEffects right2 ++ listEffects (l.drop (k + 2))
      = listEffects list0) :
    fuseIfReturn x k ((l.set (k + 1) right2).set m2 right2) (m2 : Int) right2
        = some ((l.set (k + 1) right2).set m2 right2, (m2 : Int)) ∧
      FuseInv list0 (k + 1) ((l.set (k + 1) right2).set m2 right2) m2 := by
  obtain ⟨h1, h2, h3, _, h5, _⟩ := inv
  have hk1 : k + 1 < l.length := by omega
  have hd : l.drop (k + 1) = l[k + 1] :: l.drop (k + 2) := List.drop_eq_getElem_cons hk1
  have hd0 : list0.drop (k + 1) = list0[k + 1] :: list0.drop (k + 2) := List.drop_eq_getElem_cons hk
  have hdrop2 : l.drop (k + 2) = list0.drop (k + 2) := by
    rw [hd, hd0] at h3
    exact (List.cons.inj h3).2
  have hl2drop : ((l.set (k + 1) right2).set m2 right2).drop (k + 2) = l.drop (k + 2) := by
    rw [List.drop_set_of_lt _ _ (by omega), List.drop_set_of_lt _ _ (by omega)]
  have hl2take : ((l.set (k + 1) right2).set m2 right2).take (m2 + 1) = l.take m2 ++ [right2] := by
    rw [take_succ_set_self _ _ _ (by simp; omega), take_set_of_le _ _ _ _ (by omega)]
  have hl2take0 : ((l.set (k + 1) right2).set m2 right2).take m2 = l.take m2 := by
    rw [take_set_of_le _ _ _ _ (le_refl _), take_set_of_le _ _ _ _ (by omega)]
  have hsub : ∀ s ∈ l.take m2, isExprOrVarDecl s = true := fun s hs =>
    h5 s (List.take_subset_take_left l hm2 hs)
  refine ⟨?_, ?_, ?_, ?_, ?_, ?_, ?_⟩
  · exact fuseIfReturn_simple x k _ m2 right2 (by simp; omega) (by rw [hl2take0]; exact hsub)
  · simp [h1]
  · omega
  · rw [hl2drop, hdrop2]
  · have e1 : ((l.set (k + 1) right2).set m2 right2).get? m2 = some right2 := by
      rw [List.get?_eq_getElem?, List.getElem?_set_self (by simp; omega)]
    have e2 : ((l.set (k + 1) right2).set m2 right2).get? (k + 1) = some right2 := by
      rw [List.get?_eq_getElem?]
      by_cases hmk : m2 = k + 1
      · rw [hmk, List.getElem?_set_self (by simp; omega)]
      · rw [List.getElem?_set_ne hmk, List.getElem?_set_self hk1]
    rw [e1, e2]
  · intro s hs
    rw [hl2take, List.mem_append, List.mem_singleton] at hs
    rcases hs with hs | hs
    · exact hsub s hs
    · rw [hs]; exact hsimple
  · rw [hl2take, hl2drop, listEffects_append]
    simpa [listEffects] using heff


theorem mergeStep_effects (x : Ext) (conv : Stmt → Option Stmt) (list0 l : List Stmt) (k m : Nat)
    (hconv : ∀ s, isExprOrVarDecl s = true → conv s = some s)
    (hall : ∀ s ∈ list0, isExprOrVarDecl s = true)
    (hk : k + 1 < list0.length) (inv : FuseInv list0 k l m) :
    ∃ (l1 : List Stmt) (m1 : Nat), mergeStep x conv k (l, (m : Int)) = some (l1, (m1 : Int)) ∧
      FuseInv list0 (k + 1) l1 m1 := by
  have inv0 := inv
  obtain ⟨h1, h2, h3, h4, h5, h6⟩ := inv
  have hk1 : k + 1 < l.length := by omega
  have hk0 : k < l.length := by omega
  have hm0 : m < l.length := by omega
  have hgl : l.get? k = some l[k] := by simp [List.getElem?_eq_getElem hk0]
  have hgr : l.get? (k + 1) = some l[k + 1] := by simp [List.getElem?_eq_getElem hk1]
  have hd : l.drop (k + 1) = l[k + 1] :: l.drop (k + 2) := List.drop_eq_getElem_cons hk1
  have hright : isExprOrVarDecl l[k + 1] = true := by
    apply hall
    apply List.mem_of_mem_drop (n := k + 1)
    rw [← h3, hd]
    exact List.mem_cons_self _ _
  have hlm : l[m] = l[k] := by
    have : l.get? m = some l[m] := by simp [List.getElem?_eq_getElem hm0]
    rw [h4, hgl] at this
    exact (Option.some.inj this).symm
  have hleft : isExprOrVarDecl l[k] = true := by
    rw [← hlm]
    apply h5
    rw [List.mem_take_iff_getElem]
    exact ⟨m, by simp; omega, rfl⟩
  have htake : l.take (m + 1) = l.take m ++ [l[k]] := by
    rw [List.take_succ, List.getElem?_eq_getElem hm0, hlm]
    rfl
  unfold mergeStep
  simp only [hgl, hgr, hconv _ hright]
  rcases mergePair_simple l[k] l[k + 1] hleft hright with hp | ⟨merged, hp, hms, hme⟩
  · have hcheck : ¬ (((m : Int) + 1 < 0) ∨
        (((l.set (k + 1) l[k + 1]).length : Int) ≤ (m : Int) + 1)) := by
      simp only [List.length_set]; omega
    have htn : ((m : Int) + 1).toNat = m + 1 := by omega
    have hcast : (m : Int) + 1 = ((m + 1 : Nat) : Int) := by push_cast; rfl
    simp only [hp, hcheck, if_false, htn]
    rw [hcast]
    obtain ⟨g1, g2⟩ := fuse_tail_effects x list0 l k m (m + 1) l[k + 1] hk inv0 (le_refl _) hright
      (by rw [← h6, hd]; simp [listEffects])
    exact ⟨_, _, g1, g2⟩
  · have hcheck : ¬ (((m : Int) + 1 - 1 < 0) ∨
        (((l.set (k + 1) merged).length : Int) ≤ (m : Int) + 1 - 1)) := by
      simp only [List.length_set]; omega
    have htn : ((m : Int) + 1 - 1).toNat = m := by omega
    have hcast : (m : Int) + 1 - 1 = ((m : Nat) : Int) := by omega
    simp only [hp, hcheck, if_false, htn]
    rw [hcast]
    obtain ⟨g1, g2⟩ := fuse_tail_effects x list0 l k m m merged hk inv0 (by omega) hms
      (by rw [← h6, hd, htake, hme]; simp [listEffects, listEffects_append])
    exact ⟨_, _, g1, g2⟩

theorem mergeLoop_effects (x : Ext) (conv : Stmt → Option Stmt) (list0 : List Stmt)
    (hconv : ∀ s, isExprOrVarDecl s = true → conv s = some s)
    (hall : ∀ s ∈ list0, isExprOrVarDecl s = true) :
    ∀ k, k + 1 ≤ list0.length →
      ∃ (l : List Stmt) (m : Nat), mergeLoop x conv k list0 = some (l, (m : Int)) ∧
        FuseInv list0 k l m := by
  intro k
  induction k with
  | zero =>
    intro h0
    refine ⟨list0, 0, rfl, rfl, le_refl _, rfl, rfl, ?_, ?_⟩
    · intro s hs
      exact hall s (List.mem_of_mem_take hs)
    · rw [← listEffects_append, List.take_append_drop]
  | succ k ih =>
    intro hk
    obtain ⟨l, m, h1, inv⟩ := ih (by omega)
    obtain ⟨l1, m1, g1, g2⟩ := mergeStep_effects x conv list0 l k m hconv hall (by omega) inv
    exact ⟨l1, m1, by simp only [mergeLoop, h1, g1], g2⟩

/-- C4: for every statement list that contains only expression statements and
variable declarations, `mergeStmtList` returns a list with the same
left-to-right sequence of effects as its input, a comma expression counting as
the sequence of its operands and a declaration as the sequence of its
declarators with their kind. -/
theorem mergeStmtList_preserves_effects (x : Ext) (fuel : Nat) (list : List Stmt)
    (hall : ∀ s ∈ list, isExprOrVarDecl s = true) :
    ∃ out, mergeStmtList x fuel list = some out ∧ listEffects out = listEffects list := by
  unfold mergeStmtList mergeStmtListWith
  by_cases hlt : list.length < 2
  · exact ⟨list, by simp [hlt], rfl⟩
  · simp only [hlt, if_false]
    cases list with
    | nil => simp at hlt
    | cons first rest =>
      have hconv : ∀ s, isExprOrVarDecl s = true → stmtToExpr x fuel s = some s :=
        fun s hs => stmtToExpr_simple x fuel s hs
      simp only [hconv first (hall first (List.mem_cons_self _ _))]
      obtain ⟨l, m, h1, h2, h3, h4, _, _, h7⟩ := mergeLoop_effects x (stmtToExpr x fuel)
        (first :: rest) hconv hall ((first :: rest).length - 1) (by simp)
      simp only [h1]
      have hcheck : ¬ (((m : Int) + 1 < 0) ∨ ((l.length : Int) < (m : Int) + 1)) := by
        simp only [List.length_cons] at h2 h3 ⊢
        omega
      have htn : ((m : Int) + 1).toNat = m + 1 := by omega
      simp only [hcheck, if_false, htn]
      refine ⟨_, rfl, ?_⟩
      have hnil : l.drop ((first :: rest).length - 1 + 1) = [] := by
        apply List.drop_eq_nil_of_le
        simp only [List.length_cons] at h2 ⊢
        omega
      rw [hnil] at h7
      simpa [listEffects] using h7

/-- Witness of C4: `a(); var x = 1; var y = 2; let z = 2; b(); c();` is fused
to `a(); var x = 1, y = 2; let z = 2; b(), c();` with the same effects. -/
theorem mergeStmtList_preserves_effects_witness :
    mergeStmtList sampleExt 0
        [Stmt.ExprStmt (call0 "a"),
          Stmt.VarDecl (VarDecl.mk TokenType.VarToken [declarator "x" (num "1")]),
          Stmt.VarDecl (VarDecl.mk TokenType.VarToken [declarator "y" (num "2")]),
          Stmt.VarDecl (VarDecl.mk TokenType.LetToken [declarator "z" (num "2")]),
          Stmt.ExprStmt (call0 "b"), Stmt.ExprStmt (call0 "c")]
      = some [Stmt.ExprStmt (call0 "a"),
          Stmt.VarDecl (VarDecl.mk TokenType.VarToken
            [declarator "x" (num "1"), declarator "y" (num "2")]),
          Stmt.VarDecl (VarDecl.mk TokenType.LetToken [declarator "z" (num "2")]),
          Stmt.ExprStmt (Expr.BinaryExpr TokenType.CommaToken (call0 "b") (call0 "c"))] ∧
    ∃ out, mergeStmtList sampleExt 0
        [Stmt.ExprStmt (call0 "a"),
          Stmt.VarDecl (VarDecl.mk TokenType.VarToken [declarator "x" (num "1")]),
          Stmt.VarDecl (VarDecl.mk TokenType.VarToken [declarator "y" (num "2")]),
          Stmt.VarDecl (VarDecl.mk TokenType.LetToken [declarator "z" (num "2")]),
          Stmt.ExprStmt (call0 "b"), Stmt.ExprStmt (call0 "c")] = some out ∧
      listEffects out = listEffects
        [Stmt.ExprStmt (call0 "a"),
          Stmt.VarDecl (VarDecl.mk TokenType.VarToken [declarator "x" (num "1")]),
          Stmt.VarDecl (VarDecl.mk TokenType.VarToken [declarator "y" (num "2")]),
          Stmt.VarDecl (VarDecl.mk TokenType.LetToken [declarator "z" (num "2")]),
          Stmt.ExprStmt (call0 "b"), Stmt.ExprStmt (call0 "c")] :=
  ⟨rfl, mergeStmtList_preserves_effects sampleExt 0 _ (by
    intro s hs
    simp only [List.mem_cons, List.mem_singleton, List.not_mem_nil, or_false] at hs
    rcases hs with h | h | h | h | h | h <;> (subst h; rfl))⟩


end JS
namespace JS

/-! ## The printer: inverted equality and adjacent signs -/

theorem minifyBooleanExpr_invert_binary (x : Ext) (fuel : Nat) (op : TokenType) (X Y : Expr)
    (prec : OpPrec) (m : jsMinifier) (h : x.binaryOpPrecMap op = x.OpEquals) :
    minifyBooleanExpr x (fuel + 1) (Expr.BinaryExpr op X Y) true prec m
      = minifyExpr x fuel (Expr.BinaryExpr (invertEquality op) X Y) prec m := by
  simp [minifyBooleanExpr, h]

/-- C7: the code at the failing input. For `==`, `!=` and `!==` the inverted
emission flips the operator, but for `===` the operator is left as it is (the
test that should recognise `===` compares with `==` a second time): the
expression `a === b ? false : true` is printed as `a===b`, not `a!==b`. -/
theorem inverted_strict_equality_not_flipped :
    invertEquality TokenType.EqEqToken = TokenType.NotEqToken ∧
    invertEquality TokenType.NotEqToken = TokenType.EqEqToken ∧
    invertEquality TokenType.NotEqEqToken = TokenType.EqEqEqToken ∧
    invertEquality TokenType.EqEqEqToken = TokenType.EqEqEqToken ∧
    written (minifyBooleanExpr sampleExt 3
        (Expr.BinaryExpr TokenType.EqEqEqToken (ident "a") (ident "b")) true 0 sampleMinifier)
      = written (minifyExpr sampleExt 2
        (Expr.BinaryExpr TokenType.EqEqEqToken (ident "a") (ident "b")) 0 sampleMinifier) ∧
    written (minifyExpr sampleExt 4
        (Expr.CondExpr (Expr.BinaryExpr TokenType.EqEqEqToken (ident "a") (ident "b"))
          litFalse litTrue) 0 sampleMinifier) = some (bytes "a===b") ∧
    written (minifyExpr sampleExt 4
        (Expr.CondExpr (Expr.BinaryExpr TokenType.EqEqToken (ident "a") (ident "b"))
          litFalse litTrue) 0 sampleMinifier) = some (bytes "a!=b") := by
  refine ⟨by decide, by decide, by decide, by decide, by decide, by decide, by decide⟩

/-- C8: the code at the failing input. After a binary `+` a space is written
before a unary plus or a prefix increment, but after a binary `-` none is
written: the branch for subtraction tests the operator against the token of
the unary negation and looks at the left operand. `a - -b` is printed as
`a--b` and `a - --b` as `a---b`. -/
theorem subtraction_signs_adjacent :
    written (minifyExpr sampleExt 3 (Expr.BinaryExpr TokenType.SubToken (ident "a")
        (Expr.UnaryExpr TokenType.NegToken (ident "b"))) 0 sampleMinifier)
      = some (bytes "a--b") ∧
    written (minifyExpr sampleExt 3 (Expr.BinaryExpr TokenType.SubToken (ident "a")
        (Expr.UnaryExpr TokenType.PreDecrToken (ident "b"))) 0 sampleMinifier)
      = some (bytes "a---b") ∧
    written (minifyExpr sampleExt 3 (Expr.BinaryExpr TokenType.AddToken (ident "a")
        (Expr.UnaryExpr TokenType.PosToken (ident "b"))) 0 sampleMinifier)
      = some (bytes "a+ +b") ∧
    written (minifyExpr sampleExt 3 (Expr.BinaryExpr TokenType.AddToken (ident "a")
        (Expr.UnaryExpr TokenType.PreIncrToken (ident "b"))) 0 sampleMinifier)
      = some (bytes "a+ ++b") := by
  refine ⟨by decide, by decide, by decide, by decide⟩

/-! ## The statement fuser: declarations, one-armed if statements and blocks -/

theorem mergeStmtListWith_two_merged (x : Ext) (conv : Stmt → Option Stmt) (a b merged : Stmt)
    (ha : conv a = some a) (hb : conv b = some b) (hpair : mergePair a b = some merged) :
    mergeStmtListWith x conv [a, b] = some [merged] := by
  simp [mergeStmtListWith, mergeLoop, mergeStep, fuseIfReturn, ha, hb, hpair]

theorem mergeStmtListWith_two_kept (x : Ext) (conv : Stmt → Option Stmt) (a b : Stmt)
    (ha : conv a = some a) (hb : conv b = some b) (hpair : mergePair a b = none)
    (hfuse : mergeIfReturn x a b = none) :
    mergeStmtListWith x conv [a, b] = some [a, b] := by
  simp [mergeStmtListWith, mergeLoop, mergeStep, fuseIfReturn, ha, hb, hpair, hfuse]

/-- C16: two adjacent variable declarations of the same kind are merged by the
loop of `mergeStmtList` into one declaration of that kind whose declarators
are those of the first followed by those of the second, and two declarations
of different kinds are not merged; so on the list of the two declarations
`mergeStmtList` returns the single merged declaration, or both declarations in
order. -/
theorem mergeStmtList_declarations (x : Ext) (fuel : Nat) (k1 k2 : TokenType)
    (l1 l2 : List BindingElement) :
    mergePair (Stmt.VarDecl (VarDecl.mk k1 l1)) (Stmt.VarDecl (VarDecl.mk k2 l2))
      = (if k1 = k2 then some (Stmt.VarDecl (VarDecl.mk k1 (l1 ++ l2))) else none) ∧
    mergeStmtList x fuel [Stmt.VarDecl (VarDecl.mk k1 l1), Stmt.VarDecl (VarDecl.mk k2 l2)]
      = some (if k1 = k2 then [Stmt.VarDecl (VarDecl.mk k1 (l1 ++ l2))]
          else [Stmt.VarDecl (VarDecl.mk k1 l1), Stmt.VarDecl (VarDecl.mk k2 l2)]) := by
  have hc : ∀ d, stmtToExpr x fuel (Stmt.VarDecl d) = some (Stmt.VarDecl d) := fun d =>
    stmtToExpr_simple x fuel _ rfl
  by_cases hk : k1 = k2
  · subst hk
    have hp : mergePair (Stmt.VarDecl (VarDecl.mk k1 l1)) (Stmt.VarDecl (VarDecl.mk k1 l2))
        = some (Stmt.VarDecl (VarDecl.mk k1 (l1 ++ l2))) := by simp [mergePair]
    refine ⟨by simp [hp], ?_⟩
    simp only [if_true]
    exact mergeStmtListWith_two_merged x _ _ _ _ (hc _) (hc _) hp
  · have hp : mergePair (Stmt.VarDecl (VarDecl.mk k1 l1)) (Stmt.VarDecl (VarDecl.mk k2 l2))
        = none := by simp [mergePair, hk]
    refine ⟨by simp [hp, hk], ?_⟩
    simp only [hk, if_false]
    exact mergeStmtListWith_two_kept x _ _ _ (hc _) (hc _) hp rfl

theorem ifToExpr_then_expr (x : Ext) (conv : Stmt → Option Stmt) (C X : Expr) (body : Stmt)
    (noElse : Option Stmt) (hbody : x.isEmptyStmt (some body) = false)
    (helse : x.isEmptyStmt noElse = true) (hconv : conv body = some (Stmt.ExprStmt X)) :
    ifToExpr x conv C (some body) noElse
      = some (Stmt.ExprStmt (Expr.BinaryExpr TokenType.AndToken
          (groupExpr x C (x.binaryLeftPrecMap TokenType.AndToken))
          (groupExpr x X (x.binaryRightPrecMap TokenType.AndToken)))) := by
  simp [ifToExpr, convBranch, hbody, helse, hconv]

theorem ifToExpr_else_expr (x : Ext) (conv : Stmt → Option Stmt) (C Y : Expr) (els : Stmt)
    (emptyThen : Option Stmt) (hthen : x.isEmptyStmt emptyThen = true)
    (hels : x.isEmptyStmt (some els) = false) (hconv : conv els = some (Stmt.ExprStmt Y)) :
    ifToExpr x conv C emptyThen (some els)
      = some (Stmt.ExprStmt (Expr.BinaryExpr TokenType.OrToken
          (groupExpr x C (x.binaryLeftPrecMap TokenType.OrToken))
          (groupExpr x Y (x.binaryRightPrecMap TokenType.OrToken)))) := by
  simp [ifToExpr, convBranch, hthen, hels, hconv]

/-- C17: for an if statement whose test `C` is not a negation, with a
non-empty then-branch that `stmtToExpr` reduces to the expression statement
`X` and an empty else, `stmtToExpr` returns the expression statement
`C && X`, where `C` is wrapped in a group exactly when its precedence is below
the minimum of the left operand of `&&` and `X` exactly when below that of the
right operand; with an empty then-branch and an else that reduces to `Y` it
returns `C || Y`, grouped in the same way for `||`. -/
theorem stmtToExpr_one_armed_if (x : Ext) (fuel : Nat) (C X : Expr) (branch : Stmt)
    (empty : Option Stmt) (hC : ∀ D, C ≠ Expr.UnaryExpr TokenType.NotToken D)
    (hbranch : x.isEmptyStmt (some branch) = false) (hempty : x.isEmptyStmt empty = true)
    (hconv : stmtToExpr x fuel branch = some (Stmt.ExprStmt X)) :
    stmtToExpr x (fuel + 1) (Stmt.IfStmt C (some branch) empty)
      = some (Stmt.ExprStmt (Expr.BinaryExpr TokenType.AndToken
          (if x.exprPrec C < x.binaryLeftPrecMap TokenType.AndToken then Expr.GroupExpr C else C)
          (if x.exprPrec X < x.binaryRightPrecMap TokenType.AndToken then Expr.GroupExpr X
            else X))) ∧
    stmtToExpr x (fuel + 1) (Stmt.IfStmt C empty (some branch))
      = some (Stmt.ExprStmt (Expr.BinaryExpr TokenType.OrToken
          (if x.exprPrec C < x.binaryLeftPrecMap TokenType.OrToken then Expr.GroupExpr C else C)
          (if x.exprPrec X < x.binaryRightPrecMap TokenType.OrToken then Expr.GroupExpr X
            else X))) := by
  refine ⟨?_, ?_⟩
  · simp only [stmtToExpr, normalizeIf_of_not_neg C _ _ hC]
    exact ifToExpr_then_expr x _ C X branch empty hbranch hempty hconv
  · simp only [stmtToExpr, normalizeIf_of_not_neg C _ _ hC]
    exact ifToExpr_else_expr x _ C X branch empty hempty hbranch hconv

/-- Witness of C17: `if (a = b) { c = d }` becomes `(a = b) && (c = d)` and
`if (a) ; else b()` becomes `a || b()`. -/
theorem stmtToExpr_one_armed_if_witness :
    stmtToExpr sampleExt 3 (Stmt.IfStmt (Expr.BinaryExpr TokenType.EqToken (ident "a") (ident "b"))
        (some (Stmt.BlockStmt (BlockStmt.mk
          [Stmt.ExprStmt (Expr.BinaryExpr TokenType.EqToken (ident "c") (ident "d"))] scopeEmpty)))
        none)
      = some (Stmt.ExprStmt (Expr.BinaryExpr TokenType.AndToken
          (Expr.GroupExpr (Expr.BinaryExpr TokenType.EqToken (ident "a") (ident "b")))
          (Expr.GroupExpr (Expr.BinaryExpr TokenType.EqToken (ident "c") (ident "d"))))) ∧
    stmtToExpr sampleExt 1 (Stmt.IfStmt (ident "a") (some Stmt.EmptyStmt)
        (some (Stmt.ExprStmt (call0 "b"))))
      = some (Stmt.ExprStmt (Expr.BinaryExpr TokenType.OrToken (ident "a") (call0 "b"))) :=
  ⟨(stmtToExpr_one_armed_if sampleExt 2
      (Expr.BinaryExpr TokenType.EqToken (ident "a") (ident "b"))
      (Expr.BinaryExpr TokenType.EqToken (ident "c") (ident "d"))
      (Stmt.BlockStmt (BlockStmt.mk
        [Stmt.ExprStmt (Expr.BinaryExpr TokenType.EqToken (ident "c") (ident "d"))] scopeEmpty))
      none (fun _ h => by cases h) rfl rfl rfl).1,
   (stmtToExpr_one_armed_if sampleExt 0 (ident "a") (call0 "b") (Stmt.ExprStmt (call0 "b"))
      (some Stmt.EmptyStmt) (fun _ h => by cases h) rfl rfl rfl).2⟩

theorem stmtToExpr_block_cases (x : Ext) (fuel : Nat) (list merged : List Stmt) (scope : Scope)
    (h : mergeStmtList x fuel list = some merged) :
    (∀ s, merged = [s] → (∀ d, s ≠ Stmt.ClassDecl d) →
        (∀ kind l, s = Stmt.VarDecl (VarDecl.mk kind l) → kind = TokenType.VarToken) →
        stmtToExpr x (fuel + 1) (Stmt.BlockStmt (BlockStmt.mk list scope)) = stmtToExpr x fuel s) ∧
    (∀ s, merged = [s] →
        ((∃ d, s = Stmt.ClassDecl d) ∨
          ∃ kind l, s = Stmt.VarDecl (VarDecl.mk kind l) ∧ kind ≠ TokenType.VarToken) →
        stmtToExpr x (fuel + 1) (Stmt.BlockStmt (BlockStmt.mk list scope))
          = some (Stmt.BlockStmt (BlockStmt.mk [s] scope))) ∧
    (merged.length ≠ 1 →
        stmtToExpr x (fuel + 1) (Stmt.BlockStmt (BlockStmt.mk list scope))
          = some (Stmt.BlockStmt (BlockStmt.mk merged scope))) := by
  unfold mergeStmtList at h
  refine ⟨?_, ?_, ?_⟩
  · intro s hs hclass hvar
    subst hs
    have h1 : isClassDecl s = false := by
      cases s <;> first | rfl | exact absurd rfl (hclass _)
    have h2 : notVarDeclOrVar s = true := by
      cases s with
      | VarDecl d =>
        obtain ⟨kind, l⟩ := d
        simp [notVarDeclOrVar, hvar kind l rfl]
      | _ => rfl
    simp [stmtToExpr, blockToExpr, h, h1, h2]
  · intro s hs hkeep
    subst hs
    have h3 : (!isClassDecl s && notVarDeclOrVar s) = false := by
      rcases hkeep with ⟨d, rfl⟩ | ⟨kind, l, rfl, hk⟩
      · rfl
      · simp [isClassDecl, notVarDeclOrVar, hk]
    simp only [stmtToExpr, blockToExpr, h, h3]
    simp
  · intro hlen
    simp only [stmtToExpr, blockToExpr, h]
    split
    · rename_i heq; simp at heq
    · rename_i single heq
      simp only [Option.some.injEq] at heq
      subst heq
      simp at hlen
    · rename_i heq
      simp only [Option.some.injEq] at heq
      subst heq
      rfl

/-- C18: with fuel for the statements of the block, `stmtToExpr` returns on a
block whose statement list `mergeStmtList` fuses to `merged`. The result is
the demotion of the only statement `s` when `merged` is `[s]` and `s` is
neither a class declaration nor a declaration of a kind other than `var`; it is
the block with its fused list, braces kept, when `s` is a class declaration or
a `let` or `const` declaration, and when `merged` does not have exactly one
statement. -/
theorem stmtToExpr_block (x : Ext) (fuel : Nat) (list : List Stmt) (scope : Scope)
    (hfuel : listSize list ≤ fuel) :
    ∃ merged out, mergeStmtList x fuel list = some merged ∧
      stmtToExpr x (fuel + 1) (Stmt.BlockStmt (BlockStmt.mk list scope)) = some out ∧
      (∀ s, merged = [s] → (∀ d, s ≠ Stmt.ClassDecl d) →
        (∀ kind l, s = Stmt.VarDecl (VarDecl.mk kind l) → kind = TokenType.VarToken) →
        stmtToExpr x fuel s = some out) ∧
      (∀ s, merged = [s] →
        ((∃ d, s = Stmt.ClassDecl d) ∨
          ∃ kind l, s = Stmt.VarDecl (VarDecl.mk kind l) ∧ kind ≠ TokenType.VarToken) →
        out = Stmt.BlockStmt (BlockStmt.mk [s] scope)) ∧
      (merged.length ≠ 1 → out = Stmt.BlockStmt (BlockStmt.mk merged scope)) := by
  obtain ⟨merged, hm, _⟩ := mergeStmtListWith_total x (stmtToExpr x fuel) list
    (fun s hs => stmtToExpr_total x (listSize list) s fuel (stmtSize_le_listSize list s hs) hfuel)
  obtain ⟨out, hout, _⟩ := stmtToExpr_total x (1 + listSize list)
    (Stmt.BlockStmt (BlockStmt.mk list scope)) (fuel + 1) (by simp only [stmtSize]; omega)
    (by omega)
  obtain ⟨h1, h2, h3⟩ := stmtToExpr_block_cases x fuel list merged scope hm
  refine ⟨merged, out, hm, hout, ?_, ?_, ?_⟩
  · intro s hs hclass hvar
    rw [← h1 s hs hclass hvar]; exact hout
  · intro s hs hkeep
    have := h2 s hs hkeep
    rw [hout] at this
    exact Option.some.inj this
  · intro hlen
    have := h3 hlen
    rw [hout] at this
    exact Option.some.inj this

/-- Witness of C18: `{ a(); b() }` fuses to the one statement `a(), b()` and
loses its braces. -/
theorem stmtToExpr_block_witness :
    listSize [Stmt.ExprStmt (call0 "a"), Stmt.ExprStmt (call0 "b")] ≤ 2 ∧
    stmtToExpr sampleExt 3 (Stmt.BlockStmt (BlockStmt.mk
        [Stmt.ExprStmt (call0 "a"), Stmt.ExprStmt (call0 "b")] scopeEmpty))
      = some (Stmt.ExprStmt (Expr.BinaryExpr TokenType.CommaToken (call0 "a") (call0 "b"))) ∧
    ∃ merged out,
      mergeStmtList sampleExt 2 [Stmt.ExprStmt (call0 "a"), Stmt.ExprStmt (call0 "b")]
        = some merged ∧
      stmtToExpr sampleExt (2 + 1) (Stmt.BlockStmt (BlockStmt.mk
        [Stmt.ExprStmt (call0 "a"), Stmt.ExprStmt (call0 "b")] scopeEmpty)) = some out ∧
      (∀ s, merged = [s] → (∀ d, s ≠ Stmt.ClassDecl d) →
        (∀ kind l, s = Stmt.VarDecl (VarDecl.mk kind l) → kind = TokenType.VarToken) →
        stmtToExpr sampleExt 2 s = some out) ∧
      (∀ s, merged = [s] →
        ((∃ d, s = Stmt.ClassDecl d) ∨
          ∃ kind l, s = Stmt.VarDecl (VarDecl.mk kind l) ∧ kind ≠ TokenType.VarToken) →
        out = Stmt.BlockStmt (BlockStmt.mk [s] scopeEmpty)) ∧
      (merged.length ≠ 1 → out = Stmt.BlockStmt (BlockStmt.mk merged scopeEmpty)) :=
  ⟨by simp [listSize, stmtSize], rfl,
    stmtToExpr_block sampleExt 2 [Stmt.ExprStmt (call0 "a"), Stmt.ExprStmt (call0 "b")]
      scopeEmpty (by simp [listSize, stmtSize])⟩

/-! ## The printer: boolean literals and double negation -/

/-- C19, the claim as stated fails: at the precedence of the unary operators
itself (14 in the sample tables) the literals are written without parentheses,
as `!0` and `!1`. -/
theorem boolean_literal_bare_at_unary_prec :
    sampleExt.OpUnary = 14 ∧
    written (minifyExpr sampleExt 1 litTrue 14 sampleMinifier) = some (bytes "!0") ∧
    written (minifyExpr sampleExt 1 litFalse 14 sampleMinifier) = some (bytes "!1") ∧
    written (minifyExpr sampleExt 1 litTrue 15 sampleMinifier) = some (bytes "(!0)") := by
  refine ⟨rfl, by decide, by decide, by decide⟩

/-- C19, amended: for every position precedence `prec`, `minifyExpr` writes the
literal `true` as `!0` and `false` as `!1`, in parentheses exactly when `prec`
is strictly greater than the precedence of the unary operators. -/
theorem minifyExpr_boolean_literal (x : Ext) (fuel : Nat) (data : Name) (prec : OpPrec)
    (m : jsMinifier) :
    minifyExpr x (fuel + 1) (Expr.LiteralExpr TokenType.TrueToken data) prec m
      = some (m.ws x (if x.OpUnary < prec then "(!0)" else "!0")) ∧
    minifyExpr x (fuel + 1) (Expr.LiteralExpr TokenType.FalseToken data) prec m
      = some (m.ws x (if x.OpUnary < prec then "(!1)" else "!1")) := by
  constructor <;>
    (simp only [minifyExpr, reduceCtorEq, if_false, if_true]; split <;> rfl)

theorem normalizeCond_double_neg (x : Ext) (X A B : Expr) (hX : x.isBooleanExpr X = true) :
    normalizeCond x (Expr.UnaryExpr TokenType.NotToken (Expr.UnaryExpr TokenType.NotToken X)) A B
      = (X, A, B) := by
  simp [normalizeCond, hX]

theorem normalizeCond_not_neg (x : Ext) (X A B : Expr)
    (hneg : ∀ D, X ≠ Expr.UnaryExpr TokenType.NotToken D) :
    normalizeCond x X A B = (X, A, B) := by
  unfold normalizeCond
  split
  · exact absurd rfl (hneg _)
  · exact absurd rfl (hneg _)
  · rfl

/-- C20, the claim as stated fails: for the boolean-valued `(a == b)` and for
`!a`, `minifyExpr` writes both `!` of the double negation, where the operand
alone is written `a==b` and `!a`. -/
theorem double_negation_kept_by_minifyExpr :
    sampleIsBooleanExpr (Expr.GroupExpr
      (Expr.BinaryExpr TokenType.EqEqToken (ident "a") (ident "b"))) = true ∧
    written (minifyExpr sampleExt 5 (Expr.UnaryExpr TokenType.NotToken
      (Expr.UnaryExpr TokenType.NotToken (Expr.GroupExpr
        (Expr.BinaryExpr TokenType.EqEqToken (ident "a") (ident "b"))))) 0 sampleMinifier)
      = some (bytes "!!(a==b)") ∧
    written (minifyExpr sampleExt 5 (Expr.GroupExpr
      (Expr.BinaryExpr TokenType.EqEqToken (ident "a") (ident "b"))) 0 sampleMinifier)
      = some (bytes "a==b") ∧
    sampleIsBooleanExpr (Expr.UnaryExpr TokenType.NotToken (ident "a")) = true ∧
    written (minifyExpr sampleExt 5 (Expr.UnaryExpr TokenType.NotToken
      (Expr.UnaryExpr TokenType.NotToken (Expr.UnaryExpr TokenType.NotToken (ident "a"))))
      0 sampleMinifier) = some (bytes "!!!a") ∧
    written (minifyExpr sampleExt 5 (Expr.UnaryExpr TokenType.NotToken (ident "a"))
      0 sampleMinifier) = some (bytes "!a") := by
  refine ⟨by decide, by decide, by decide, by decide, by decide, by decide⟩

/-- C20, amended: the double negation is dropped in the test of a conditional
expression only. For every `X` that `isBooleanExpr` classifies as boolean and
that is not itself a negation, `minifyExpr` writes `!!X ? A : B` as it writes
`X ? A : B`; applied to `!!X` itself, with `X` not a literal, it writes the two
operators and then `X` at the precedence of the operand of `!`. -/
theorem double_negation_dropped_in_condition (x : Ext) (fuel : Nat) (X A B : Expr)
    (prec : OpPrec) (m : jsMinifier) (hX : x.isBooleanExpr X = true)
    (hneg : ∀ D, X ≠ Expr.UnaryExpr TokenType.NotToken D) :
    minifyExpr x (fuel + 1) (Expr.CondExpr
        (Expr.UnaryExpr TokenType.NotToken (Expr.UnaryExpr TokenType.NotToken X)) A B) prec m
      = minifyExpr x (fuel + 1) (Expr.CondExpr X A B) prec m ∧
    ((∀ t d, X ≠ Expr.LiteralExpr t d) →
      minifyExpr x (fuel + 2)
          (Expr.UnaryExpr TokenType.NotToken (Expr.UnaryExpr TokenType.NotToken X)) prec m
        = minifyExpr x fuel X (x.unaryPrecMap TokenType.NotToken)
            ((m.write x (x.tokenBytes TokenType.NotToken)).write x
              (x.tokenBytes TokenType.NotToken))) := by
  constructor
  · rw [minifyExpr, minifyExpr, normalizeCond_double_neg x X A B hX,
      normalizeCond_not_neg x X A B hneg]
  · intro hlit
    rw [minifyExpr]
    simp only [reduceCtorEq, or_self, if_false, if_true]
    rw [minifyExpr]
    simp only [reduceCtorEq, or_self, if_false, if_true]

/-- Witness of the amended C20, for the test `(a == b)`: both conditionals are
written `a==b?c:d`. -/
theorem double_negation_dropped_in_condition_witness :
    minifyExpr sampleExt 6 (Expr.CondExpr
        (Expr.UnaryExpr TokenType.NotToken (Expr.UnaryExpr TokenType.NotToken
          (Expr.GroupExpr (Expr.BinaryExpr TokenType.EqEqToken (ident "a") (ident "b")))))
        (ident "c") (ident "d")) 0 sampleMinifier
      = minifyExpr sampleExt 6 (Expr.CondExpr
        (Expr.GroupExpr (Expr.BinaryExpr TokenType.EqEqToken (ident "a") (ident "b")))
        (ident "c") (ident "d")) 0 sampleMinifier ∧
    written (minifyExpr sampleExt 6 (Expr.CondExpr
        (Expr.GroupExpr (Expr.BinaryExpr TokenType.EqEqToken (ident "a") (ident "b")))
        (ident "c") (ident "d")) 0 sampleMinifier) = some (bytes "a==b?c:d") :=
  ⟨(double_negation_dropped_in_condition sampleExt 5
      (Expr.GroupExpr (Expr.BinaryExpr TokenType.EqEqToken (ident "a") (ident "b")))
      (ident "c") (ident "d") 0 sampleMinifier (by decide) (fun _ h => by cases h)).1,
    by decide⟩

/-! ## The renamer: reading the tables -/

theorem lookup_mapSet {β : Type} (m : GoMap β) (k k1 : Name) (v : β) :
    lookup (mapSet m k v) k1 = if k = k1 then some v else lookup m k1 := by
  induction m with
  | nil => simp [mapSet, lookup]
  | cons q rest ih =>
    obtain ⟨k0, v0⟩ := q
    unfold mapSet
    by_cases h0 : k0 = k
    · subst h0
      by_cases h1 : k0 = k1
      · simp [lookup, h1]
      · simp [lookup, h1]
    · simp only [h0, if_false]
      by_cases h1 : k0 = k1
      · subst h1
        have : ¬ k = k0 := fun h => h0 h.symm
        simp [lookup, this]
      · simp [lookup, h1, ih]

theorem lookup_none_of_not_mem {β : Type} (m : GoMap β) (k : Name)
    (h : ∀ p ∈ m, p.1 ≠ k) : lookup m k = none := by
  cases hl : lookup m k with
  | none => rfl
  | some v => exact absurd rfl (h _ (lookup_mem m k v hl))

theorem lookup_isSome_of_mem {β : Type} (m : GoMap β) (k : Name) (v : β) (h : (k, v) ∈ m) :
    (lookup m k).isSome = true := by
  induction m with
  | nil => cases h
  | cons q rest ih =>
    obtain ⟨k0, v0⟩ := q
    unfold lookup
    by_cases h0 : k0 = k
    · simp [h0]
    · simp only [h0, if_false]
      rcases List.mem_cons.1 h with h1 | h1
      · exact absurd (congrArg Prod.fst h1).symm h0
      · exact ih h1

theorem mem_boundNames (vars : GoMap Var) (name : Name) :
    name ∈ boundNames vars ↔ ∃ v, (name, v) ∈ vars ∧ v.Declared = true ∧ 0 < v.Uses := by
  simp only [boundNames, List.mem_map, List.mem_filter, Bool.and_eq_true, decide_eq_true_eq]
  constructor
  · rintro ⟨⟨k, v⟩, ⟨hm, hd, hu⟩, rfl⟩
    exact ⟨v, hm, hd, hu⟩
  · rintro ⟨v, hm, hd, hu⟩
    exact ⟨(name, v), ⟨hm, hd, hu⟩, rfl⟩

theorem mem_freeNames (vars : GoMap Var) (name : Name) :
    name ∈ freeNames vars ↔ ∃ v, (name, v) ∈ vars ∧ v.Declared = false ∧ 0 < v.Uses := by
  simp only [freeNames, List.mem_map, List.mem_filter, Bool.and_eq_true, decide_eq_true_eq,
    Bool.not_eq_true']
  constructor
  · rintro ⟨⟨k, v⟩, ⟨hm, hu, hd⟩, rfl⟩
    exact ⟨v, hm, hd, hu⟩
  · rintro ⟨v, hm, hd, hu⟩
    exact ⟨(name, v), ⟨hm, hu, hd⟩, rfl⟩

theorem mem_insertSorted (x y : Name) (l : List Name) :
    y ∈ insertSorted x l ↔ y = x ∨ y ∈ l := by
  induction l with
  | nil => simp [insertSorted]
  | cons z zs ih =>
    unfold insertSorted
    split
    · simp only [List.mem_cons, ih]
      tauto
    · simp only [List.mem_cons]

theorem mem_sortStrings (y : Name) (l : List Name) : y ∈ sortStrings l ↔ y ∈ l := by
  induction l with
  | nil => simp [sortStrings]
  | cons z zs ih => simp only [sortStrings, mem_insertSorted, ih, List.mem_cons]

theorem lookup_inheritRenames (parent : GoMap Name) (name : Name) (vars : GoMap Var) :
    ∀ acc, lookup (inheritRenames parent vars acc) name
      = if name ∈ freeNames vars ∧ (lookup parent name).isSome = true then lookup parent name
        else lookup acc name := by
  induction vars with
  | nil => intro acc; simp [inheritRenames, freeNames]
  | cons q rest ih =>
    obtain ⟨k, v⟩ := q
    intro acc
    have hfree : name ∈ freeNames ((k, v) :: rest)
        ↔ ((0 < v.Uses ∧ v.Declared = false) ∧ k = name) ∨ name ∈ freeNames rest := by
      simp only [mem_freeNames, List.mem_cons, Prod.mk.injEq]
      constructor
      · rintro ⟨v1, (⟨h1, h2⟩ | hm), hd, hu⟩
        · subst h2; exact Or.inl ⟨⟨hu, hd⟩, h1.symm⟩
        · exact Or.inr ⟨v1, hm, hd, hu⟩
      · rintro (⟨⟨hu, hd⟩, hk⟩ | ⟨v1, hm, hd, hu⟩)
        · exact ⟨v, Or.inl ⟨hk.symm, rfl⟩, hd, hu⟩
        · exact ⟨v1, Or.inr hm, hd, hu⟩
    unfold inheritRenames
    by_cases hc : 0 < v.Uses ∧ v.Declared = false
    · simp only [hc, and_self, if_true]
      cases hp : lookup parent k with
      | none =>
        simp only [ih, hfree, hc, true_and]
        by_cases hk : k = name
        · subst hk; simp [hp]
        · simp [hk]
      | some rename =>
        simp only [ih, lookup_mapSet, hfree, hc, true_and]
        by_cases hk : k = name
        · subst hk; simp [hp]
        · simp [hk]
    · simp only [hc, if_false, ih, hfree, false_and, false_or]

theorem lookup_assignNames_of_not_mem (fuel : Nat) (r : renamer) (name : Name)
    (names : List Name) (hname : name ∉ names) :
    ∀ acc rename out last, assignNames fuel r names acc rename = some (out, last) →
      lookup out name = lookup acc name := by
  induction names with
  | nil =>
    intro acc rename out last he
    simp only [assignNames, Option.some.injEq, Prod.mk.injEq] at he
    rw [← he.1]
  | cons k rest ih =>
    intro acc rename out last he
    unfold assignNames at he
    cases hn : next rename with
    | none => simp [hn] at he
    | some rename1 =>
      simp only [hn] at he
      cases hs : skipReserved fuel r rename1 with
      | none => simp [hs] at he
      | some rename2 =>
        simp only [hs] at he
        have hk : ¬ k = name := fun h => hname (h ▸ List.mem_cons_self _ _)
        rw [ih (fun h => hname (List.mem_cons_of_mem _ h)) _ _ out last he, lookup_mapSet]
        simp [hk]

theorem lookup_assignNames_isSome (fuel : Nat) (r : renamer) (name : Name)
    (names : List Name) :
    ∀ acc rename out last, assignNames fuel r names acc rename = some (out, last) →
      (name ∈ names ∨ (lookup acc name).isSome = true) → (lookup out name).isSome = true := by
  induction names with
  | nil =>
    intro acc rename out last he h
    simp only [assignNames, Option.some.injEq, Prod.mk.injEq] at he
    rw [← he.1]
    rcases h with h | h
    · cases h
    · exact h
  | cons k rest ih =>
    intro acc rename out last he h
    unfold assignNames at he
    cases hn : next rename with
    | none => simp [hn] at he
    | some rename1 =>
      simp only [hn] at he
      cases hs : skipReserved fuel r rename1 with
      | none => simp [hs] at he
      | some rename2 =>
        simp only [hs] at he
        refine ih _ _ out last he ?_
        by_cases hk : k = name
        · right; rw [lookup_mapSet]; simp [hk]
        · rcases h with h | h
          · rcases List.mem_cons.1 h with h1 | h1
            · exact absurd h1.symm hk
            · exact Or.inl h1
          · right; rw [lookup_mapSet]; simpa [hk] using h

theorem mem_inheritRenames (parent : GoMap Name) (vars : GoMap Var) :
    ∀ acc p, p ∈ inheritRenames parent vars acc → p ∈ acc ∨ p ∈ parent := by
  induction vars with
  | nil => intro acc p h; exact Or.inl (by simpa [inheritRenames] using h)
  | cons q rest ih =>
    obtain ⟨k, v⟩ := q
    intro acc p h
    unfold inheritRenames at h
    split at h
    · split at h
      · rename_i rename hl
        rcases ih _ p h with h1 | h1
        · rcases mem_mapSet acc k rename p h1 with h2 | h2
          · exact Or.inl h2
          · exact Or.inr (h2 ▸ lookup_mem parent k rename hl)
        · exact Or.inr h1
      · exact ih _ p h
    · exact ih _ p h

theorem mem_assignNames (fuel : Nat) (r : renamer) (names : List Name) :
    ∀ acc rename out last, assignNames fuel r names acc rename = some (out, last) →
      ∀ p ∈ out, p ∈ acc ∨ p.1 ∈ names := by
  induction names with
  | nil =>
    intro acc rename out last he p hp
    simp only [assignNames, Option.some.injEq, Prod.mk.injEq] at he
    rw [← he.1] at hp
    exact Or.inl hp
  | cons k rest ih =>
    intro acc rename out last he p hp
    unfold assignNames at he
    cases hn : next rename with
    | none => simp [hn] at he
    | some rename1 =>
      simp only [hn] at he
      cases hs : skipReserved fuel r rename1 with
      | none => simp [hs] at he
      | some rename2 =>
        simp only [hs] at he
        rcases ih _ _ out last he p hp with h1 | h1
        · rcases mem_mapSet acc k rename2 p h1 with h2 | h2
          · exact Or.inl h2
          · exact Or.inr (h2 ▸ List.mem_cons_self _ _)
        · exact Or.inr (List.mem_cons_of_mem _ h1)

/-- The names that `enterScope` binds, in the order of assignment. -/
theorem enterScope_spec (fuel : Nat) (r r1 : renamer) (scope : Scope) (isBlock : Bool) :
    r.enterScope fuel scope isBlock = some r1 ↔
      ∃ renames0 tbl last,
        ((r.inGlobalScope = true ∧ renames0 = []) ∨
          (r.inGlobalScope = false ∧ ∃ parent, r.renames.getLast? = some parent ∧
            renames0 = inheritRenames parent scope.Vars [])) ∧
        assignNames fuel r
          (if r.deterministic = true then sortStrings (boundNames scope.Vars)
            else boundNames scope.Vars) renames0 (bytes "`") = some (tbl, last) ∧
        r1 = { r with
          vars := r.vars ++ [scope.Vars]
          renames := r.renames ++ [tbl]
          lastRename := r.lastRename ++ [last] } := by
  have hlast : r.renames.get? (r.renames.length - 1) = r.renames.getLast? := by
    rw [List.getLast?_eq_getElem?, List.get?_eq_getElem?]
  unfold renamer.enterScope
  simp only [hlast]
  by_cases hg : r.inGlobalScope = true
  · simp only [hg, Bool.not_true, Bool.false_eq_true, if_false]
    constructor
    · intro h
      split at h
      · exact absurd h (by simp)
      · rename_i tbl last ha
        exact ⟨[], tbl, last, Or.inl ⟨trivial, rfl⟩, ha, (Option.some.inj h).symm⟩
    · rintro ⟨renames0, tbl, last, hinh, ha, hr1⟩
      rcases hinh with ⟨_, rfl⟩ | ⟨hf, _⟩
      · simp only [ha, hr1]
      · exact absurd hf (by simp)
  · have hg1 : r.inGlobalScope = false := by simpa using hg
    simp only [hg1, Bool.not_false, if_true]
    constructor
    · intro h
      cases hp : r.renames.getLast? with
      | none => simp [hp] at h
      | some parent =>
        simp only [hp] at h
        split at h
        · exact absurd h (by simp)
        · rename_i tbl last ha
          exact ⟨_, tbl, last, Or.inr ⟨trivial, parent, rfl, rfl⟩, ha, (Option.some.inj h).symm⟩
    · rintro ⟨renames0, tbl, last, hinh, ha, hr1⟩
      rcases hinh with ⟨hf, _⟩ | ⟨_, parent, hp, rfl⟩
      · exact absurd hf (by simp)
      · simp only [hp, ha, hr1]

/-! ## The renamer: the keys of the tables -/

theorem getElem?_lt_length {α : Type} (l : List α) (i : Nat) (a : α) (h : l[i]? = some a) :
    i < l.length := by
  obtain ⟨hlt, _⟩ := List.getElem?_eq_some.1 h
  exact hlt

theorem keysDeclared_newRenamer (keywords globals undeclared : List Name) (det : Bool) :
    KeysDeclared (newRenamer keywords globals undeclared det) := by
  refine ⟨Or.inr rfl, fun _ => rfl, ?_⟩
  intro i tbl hget p hp
  simp only [newRenamer, List.get?_eq_getElem?] at hget
  cases i with
  | zero =>
    simp only [List.getElem?_cons_zero, Option.some.injEq] at hget
    subst hget; cases hp
  | succ i => simp at hget

theorem keysDeclared_enterScope (fuel : Nat) (r r1 : renamer) (scope : Scope) (isBlock : Bool)
    (hinv : KeysDeclared r) (h : r.enterScope fuel scope isBlock = some r1) :
    KeysDeclared r1 := by
  obtain ⟨hlen, hhead, hkeys⟩ := hinv
  obtain ⟨renames0, tbl, last, hinh, ha, rfl⟩ := (enterScope_spec fuel r r1 scope isBlock).1 h
  simp only [List.get?_eq_getElem?] at hkeys
  refine ⟨?_, ?_, ?_⟩
  · simp only [List.length_append, List.length_singleton]
    omega
  · intro hl
    simp only [List.length_append, List.length_singleton] at hl
    have hh := hhead (by omega)
    have hne : r.renames ≠ [] := by
      intro hnil; rw [hnil] at hh; simp at hh
    simp only [List.head?_append_of_ne_nil _ hne, hh]
  · intro i tbl1 hget p hp
    simp only [List.get?_eq_getElem?] at hget ⊢
    have hold : ∀ (j : Nat) (vs : GoMap Var), r.vars[j]? = some vs → (r.vars ++ [scope.Vars])[j]? = some vs := by
      intro j vs hj
      rw [List.getElem?_append_left (getElem?_lt_length _ _ _ hj)]
      exact hj
    rcases Nat.lt_or_ge i r.renames.length with hi | hi
    · rw [List.getElem?_append_left hi] at hget
      obtain ⟨j, vs, hji, hj, hb⟩ := hkeys i tbl1 hget p hp
      exact ⟨j, vs, hji, hold j vs hj, hb⟩
    · rw [List.getElem?_append_right hi] at hget
      have hi0 : i - r.renames.length = 0 := by
        rcases Nat.eq_zero_or_pos (i - r.renames.length) with h0 | h0
        · exact h0
        · have := getElem?_lt_length _ _ _ hget
          simp only [List.length_singleton] at this
          omega
      rw [hi0] at hget
      simp only [List.getElem?_cons_zero, Option.some.injEq] at hget
      subst hget
      rcases mem_assignNames fuel r _ _ _ _ _ ha p hp with h1 | h1
      · rcases hinh with ⟨_, rfl⟩ | ⟨_, parent, hparent, rfl⟩
        · cases h1
        · rcases mem_inheritRenames parent scope.Vars [] p h1 with h2 | h2
          · cases h2
          · rw [List.getLast?_eq_getElem?] at hparent
            obtain ⟨j, vs, hji, hj, hb⟩ := hkeys _ parent hparent p h2
            exact ⟨j, vs, by omega, hold j vs hj, hb⟩
      · refine ⟨r.vars.length, scope.Vars, by omega, List.getElem?_concat_length _ _, ?_⟩
        by_cases hd : r.deterministic = true
        · simpa [hd, mem_sortStrings] using h1
        · simpa [hd] using h1

theorem keysDeclared_exitScope (r r1 : renamer) (hinv : KeysDeclared r)
    (h : r.exitScope = some r1) : KeysDeclared r1 := by
  obtain ⟨hlen, _, hkeys⟩ := hinv
  simp only [List.get?_eq_getElem?] at hkeys
  unfold renamer.exitScope at h
  simp only at h
  split at h
  · exact absurd h (by simp)
  · rename_i hn
    split at h
    · exact absurd h (by simp)
    · simp only [Option.some.injEq] at h
      subst h
      refine ⟨?_, ?_, ?_⟩
      · simp only [List.length_take]
        omega
      · intro hl
        simp only [List.length_take] at hl
        omega
      · intro i tbl hget p hp
        simp only [List.get?_eq_getElem?, List.getElem?_take] at hget ⊢
        split at hget
        · rename_i hi
          obtain ⟨j, vs, hji, hj, hb⟩ := hkeys i tbl hget p hp
          refine ⟨j, vs, hji, ?_, hb⟩
          rw [if_pos (by omega)]
          exact hj
        · exact absurd hget (by simp)

theorem keysDeclared_reachable (keywords globals undeclared : List Name) (det : Bool)
    (r : renamer) (h : Reachable (newRenamer keywords globals undeclared det) r) :
    KeysDeclared r := by
  induction h with
  | init => exact keysDeclared_newRenamer keywords globals undeclared det
  | enter fuel scope isBlock _ he ih => exact keysDeclared_enterScope fuel _ _ scope isBlock ih he
  | exit _ he ih => exact keysDeclared_exitScope _ _ ih he

theorem keysDeclared_key (r : renamer) (hinv : KeysDeclared r) (tbl : GoMap Name)
    (htbl : tbl ∈ r.renames) (p : Name × Name) (hp : p ∈ tbl) :
    ∃ vs ∈ r.vars, p.1 ∈ boundNames vs := by
  obtain ⟨i, hi⟩ := List.mem_iff_getElem?.1 htbl
  obtain ⟨j, vs, _, hj, hb⟩ := hinv.2.2 i tbl (by rw [List.get?_eq_getElem?]; exact hi) p hp
  rw [List.get?_eq_getElem?] at hj
  exact ⟨vs, List.getElem?_mem hj, hb⟩

theorem renameLoop_of_not_bound (r : renamer) (hinv : KeysDeclared r) (name : Name)
    (hname : ∀ vs ∈ r.vars, name ∉ boundNames vs) (k : Nat) :
    renameLoop r.renames name k = name := by
  refine renameLoop_not_found r.renames name ?_ k
  intro tbl htbl
  cases hl : lookup tbl name with
  | none => rfl
  | some v =>
    obtain ⟨vs, hvs, hb⟩ := keysDeclared_key r hinv tbl htbl _ (lookup_mem tbl name v hl)
    exact absurd hb (hname vs hvs)

/-- C11: in every renamer state reached from `newRenamer` by `enterScope` and
`exitScope`, `rename` returns unchanged every name that no scope on the stack
declares with a positive use count, and in the global scope it returns every
name unchanged. Every key of every table is declared with a positive use count
by a scope on the stack; in the global scope every table is empty, and while
the table created by `newRenamer` is the first of the stack it is empty. -/
theorem global_and_free_names_not_renamed (keywords globals undeclared : List Name) (det : Bool)
    (r : renamer) (h : Reachable (newRenamer keywords globals undeclared det) r) :
    (∀ name, (∀ vs ∈ r.vars, name ∉ boundNames vs) → r.rename name = name) ∧
    (r.inGlobalScope = true → ∀ name, r.rename name = name) ∧
    (∀ tbl ∈ r.renames, ∀ k v, (k, v) ∈ tbl → ∃ vs ∈ r.vars, k ∈ boundNames vs) ∧
    (r.inGlobalScope = true → ∀ tbl ∈ r.renames, tbl = []) ∧
    (r.renames.length = r.vars.length + 1 → r.renames.head? = some []) := by
  have hinv := keysDeclared_reachable keywords globals undeclared det r h
  refine ⟨?_, ?_, ?_, ?_, hinv.2.1⟩
  · intro name hname
    unfold renamer.rename
    split
    · rfl
    · exact renameLoop_of_not_bound r hinv name hname _
  · intro hg name
    simp [renamer.rename, hg]
  · intro tbl htbl k v hkv
    exact keysDeclared_key r hinv tbl htbl (k, v) hkv
  · intro hg tbl htbl
    have hv : r.vars = [] := by
      simpa [renamer.inGlobalScope] using hg
    cases tbl with
    | nil => rfl
    | cons p rest =>
      obtain ⟨vs, hvs, _⟩ := keysDeclared_key r hinv _ htbl p (List.mem_cons_self _ _)
      rw [hv] at hvs
      cases hvs

/-- Witness of C11: in the scope of `function f(x){ … }`, entered from the
global scope, the parameter is the only name with an entry and the free name
`y` is returned unchanged. -/
theorem global_and_free_names_not_renamed_witness :
    ∃ r, Reachable (newRenamer someKeywords someGlobals [] true) r ∧
      r.renames = [[], [(bytes "x", bytes "a")]] ∧
      r.rename (bytes "x") = bytes "a" ∧ r.rename (bytes "y") = bytes "y" ∧
      ((∀ name, (∀ vs ∈ r.vars, name ∉ boundNames vs) → r.rename name = name) ∧
        (r.inGlobalScope = true → ∀ name, r.rename name = name) ∧
        (∀ tbl ∈ r.renames, ∀ k v, (k, v) ∈ tbl → ∃ vs ∈ r.vars, k ∈ boundNames vs) ∧
        (r.inGlobalScope = true → ∀ tbl ∈ r.renames, tbl = []) ∧
        (r.renames.length = r.vars.length + 1 → r.renames.head? = some [])) := by
  have hr : Reachable (newRenamer someKeywords someGlobals [] true)
      { reserved := someKeywords ++ someGlobals ++ []
        vars := [scopeOuter.Vars]
        renames := [[], [(bytes "x", bytes "a")]]
        lastRename := [bytes "`", bytes "a"]
        deterministic := true } :=
    Reachable.enter 0 scopeOuter false Reachable.init (by decide)
  exact ⟨_, hr, rfl, by decide, by decide, global_and_free_names_not_renamed _ _ _ _ _ hr⟩

/-! ## The renamer: `next` on candidate names -/

theorem idx_le (c : Nat) : idx c ≤ 54 := by
  unfold idx
  split_ifs <;> omega

theorem val_foldl (w : Name) :
    ∀ acc, w.foldl (fun acc c => acc * 55 + idx c) acc = acc * 55 ^ w.length + val w := by
  induction w with
  | nil => intro acc; simp [val]
  | cons c rest ih =>
    intro acc
    simp only [List.foldl_cons, List.length_cons, val]
    rw [ih (acc * 55 + idx c), ih (0 * 55 + idx c)]
    ring

theorem val_append (u w : Name) : val (u ++ w) = val u * 55 ^ w.length + val w := by
  unfold val
  rw [List.foldl_append]
  exact val_foldl w _

theorem val_concat (p : Name) (c : Nat) : val (p ++ [c]) = val p * 55 + idx c := by
  rw [val_append]
  simp [val]

theorem val_lt (w : Name) : val w < 55 ^ w.length := by
  induction w using List.reverseRecOn with
  | nil => simp [val]
  | append_singleton p c ih =>
    rw [val_concat, List.length_append, List.length_singleton, pow_succ]
    have := idx_le c
    omega

theorem set_concat (p : Name) (c x : Nat) : (p ++ [c]).set p.length x = p ++ [x] := by
  induction p with
  | nil => rfl
  | cons a rest ih => simp only [List.cons_append, List.length_cons, List.set_cons_succ, ih]

theorem isCandidate_iff (name : Name) :
    isCandidate name = true ↔
      name = [96] ∨ ∃ p c, name = p ++ [c] ∧ (∀ x ∈ p, isLetter x = true) ∧ isTail c = true := by
  induction name using List.reverseRecOn with
  | nil => simp [isCandidate]
  | append_singleton p c _ =>
    simp only [isCandidate, List.dropLast_concat, List.getLast?_append, List.getLast?_singleton,
      Option.or_some, Bool.or_eq_true, decide_eq_true_eq, Bool.and_eq_true, List.all_eq_true]
    constructor
    · rintro (h | ⟨h1, h2⟩)
      · exact Or.inl h
      · exact Or.inr ⟨p, c, rfl, h1, h2⟩
    · rintro (h | ⟨p1, c1, h0, h1, h2⟩)
      · exact Or.inl h
      · have hp : p = p1 := List.append_inj_left h0 (by
          have := congrArg List.length h0
          simpa using this)
        subst hp
        have hc : c = c1 := by simpa using h0
        subst hc
        exact Or.inr ⟨h1, h2⟩

theorem getD_append_cons (p : Name) (c : Nat) (suf : Name) :
    (p ++ c :: suf).getD p.length 0 = c := by
  induction p with
  | nil => rfl
  | cons a rest ih => simpa using ih

theorem set_append_cons (p : Name) (c y : Nat) (suf : Name) :
    (p ++ c :: suf).set p.length y = p ++ y :: suf := by
  induction p with
  | nil => rfl
  | cons a rest ih => simp only [List.cons_append, List.length_cons, List.set_cons_succ, ih]

theorem fillA_append_cons (p : Name) (y : Nat) (suf : Name) :
    fillA (p ++ y :: suf) p.length = p ++ y :: List.replicate suf.length 97 := by
  unfold fillA
  have h1 : (p ++ y :: suf).take (p.length + 1) = p ++ [y] := by
    have : p ++ y :: suf = (p ++ [y]) ++ suf := by simp
    rw [this]
    exact List.take_left' (by simp)
  have h2 : (p ++ y :: suf).length - (p.length + 1) = suf.length := by
    simp only [List.length_append, List.length_cons]
    omega
  rw [h1, h2]
  simp

theorem val_cons (c : Nat) (suf : Name) : val (c :: suf) = idx c * 55 ^ suf.length + val suf := by
  have : c :: suf = [c] ++ suf := rfl
  rw [this, val_append]
  simp [val]

theorem val_step (p : Name) (c y : Nat) (suf tail : Name) (hy : idx c < idx y)
    (hlen : tail.length = suf.length) : val (p ++ c :: suf) < val (p ++ y :: tail) := by
  rw [val_append, val_append, val_cons, val_cons]
  simp only [List.length_cons, hlen]
  have h1 := val_lt suf
  have h2 : (idx c + 1) * 55 ^ suf.length ≤ idx y * 55 ^ suf.length :=
    Nat.mul_le_mul_right _ hy
  have h3 : (idx c + 1) * 55 ^ suf.length = idx c * 55 ^ suf.length + 55 ^ suf.length := by ring
  omega

theorem letter_succ (c : Nat) (hc : isLetter c = true) (h90 : c ≠ 90) :
    isLetter (if c = 122 then 65 else (c + 1) % 256) = true ∧
    idx c < idx (if c = 122 then 65 else (c + 1) % 256) := by
  simp only [isLetter, decide_eq_true_eq] at hc
  by_cases h122 : c = 122
  · subst h122; decide
  · simp only [h122, if_false]
    have hm : (c + 1) % 256 = c + 1 := Nat.mod_eq_of_lt (by omega)
    rw [hm]
    constructor
    · simp only [isLetter, decide_eq_true_eq]; omega
    · unfold idx
      split_ifs <;> omega

theorem carryLoop_spec (pre : Name) :
    ∀ (suf : Name) (flag : Bool), (∀ x ∈ pre, isLetter x = true) →
      ∃ out fl, carryLoop pre.length (pre ++ suf) flag = (out, fl) ∧
        ((fl = flag ∧ out = pre ++ suf ∧ ∀ x ∈ pre, x = 90) ∨
          (fl = false ∧ out.length = (pre ++ suf).length ∧ (∀ x ∈ out, isLetter x = true) ∧
            val (pre ++ suf) < val out)) := by
  induction pre using List.reverseRecOn with
  | nil =>
    intro suf flag _
    exact ⟨suf, flag, rfl, Or.inl ⟨rfl, rfl, fun x hx => by cases hx⟩⟩
  | append_singleton p c ih =>
    intro suf flag hl
    have hp : ∀ x ∈ p, isLetter x = true := fun x hx => hl x (List.mem_append_left _ hx)
    have hc : isLetter c = true := hl c (by simp)
    simp only [List.length_append, List.length_singleton, List.append_assoc,
      List.singleton_append]
    unfold carryLoop
    simp only [getD_append_cons]
    by_cases h90 : c = 90
    · subst h90
      simp only [ne_eq, not_true_eq_false, if_false]
      obtain ⟨out, fl, he, hcase⟩ := ih (90 :: suf) flag hp
      refine ⟨out, fl, he, ?_⟩
      rcases hcase with ⟨h1, h2, h3⟩ | h
      · refine Or.inl ⟨h1, h2, ?_⟩
        intro x hx
        rcases List.mem_append.1 hx with hx1 | hx1
        · exact h3 x hx1
        · simpa using hx1
      · obtain ⟨h1, h2, h3, h4⟩ := h
        exact Or.inr ⟨h1, by rw [h2, List.length_append], h3, h4⟩
    · simp only [ne_eq, h90, not_false_eq_true, if_true, set_append_cons, fillA_append_cons]
      obtain ⟨hy1, hy2⟩ := letter_succ c hc h90
      generalize (if c = 122 then 65 else (c + 1) % 256) = y at hy1 hy2
      obtain ⟨out, fl, he, hcase⟩ := ih (y :: List.replicate suf.length 97) false hp
      refine ⟨out, fl, he, Or.inr ?_⟩
      have hstep : val (p ++ c :: suf) < val (p ++ y :: List.replicate suf.length 97) :=
        val_step p c y suf _ hy2 (by simp)
      rcases hcase with ⟨h1, h2, _⟩ | ⟨h1, h2, h3, h4⟩
      · refine ⟨h1, ?_, ?_, ?_⟩
        · rw [h2]; simp
        · rw [h2]
          intro x hx
          rcases List.mem_append.1 hx with hx1 | hx1
          · exact hp x hx1
          · rcases List.mem_cons.1 hx1 with hx2 | hx2
            · rw [hx2]; exact hy1
            · rw [(List.mem_replicate.1 hx2).2]; decide
        · rw [h2]; exact hstep
      · refine ⟨h1, ?_, h3, lt_trans hstep h4⟩
        rw [h2]; simp

theorem val_replicate_ge (n : Nat) : 55 ^ n ≤ val (List.replicate n 97 ++ [97]) := by
  cases n with
  | zero => decide
  | succ k =>
    have : List.replicate (k + 1) 97 ++ [97] = 97 :: (List.replicate k 97 ++ [97]) := rfl
    rw [this, val_cons]
    have : idx 97 = 1 := by decide
    simp [this]

/-- On a candidate name `next` returns a candidate of greater value. -/
theorem next_candidate (name : Name) (h : isCandidate name = true) :
    ∃ out, next name = some out ∧ isCandidate out = true ∧ val name < val out := by
  rcases (isCandidate_iff name).1 h with rfl | ⟨p, c, rfl, hp, hc⟩
  · exact ⟨[97], by decide, by decide, by decide⟩
  · have hn : (p ++ [c]).length - 1 = p.length := by simp
    have hcand : ∀ y, isTail y = true → isCandidate (p ++ [y]) = true := fun y hy =>
      (isCandidate_iff _).2 (Or.inr ⟨p, y, rfl, hp, hy⟩)
    have hval : ∀ y, idx c < idx y → val (p ++ [c]) < val (p ++ [y]) := fun y hy =>
      val_step p c y [] [] hy rfl
    unfold next
    simp only [List.getLast?_append, List.getLast?_singleton, Option.or_some, hn, set_concat]
    by_cases h122 : c = 122
    · subst h122
      exact ⟨p ++ [65], by simp, hcand 65 (by decide), hval 65 (by decide)⟩
    by_cases h90 : c = 90
    · subst h90
      exact ⟨p ++ [95], by simp, hcand 95 (by decide), hval 95 (by decide)⟩
    by_cases h95 : c = 95
    · subst h95
      exact ⟨p ++ [36], by simp, hcand 36 (by decide), hval 36 (by decide)⟩
    by_cases h36 : c = 36
    · subst h36
      simp only [h122, h90, h95, if_false, if_true]
      obtain ⟨out, fl, he, hcase⟩ := carryLoop_spec p [36] true hp
      rw [he]
      rcases hcase with ⟨h1, _, _⟩ | ⟨h1, h2, h3, h4⟩
      · subst h1
        simp only [if_true]
        refine ⟨_, rfl, ?_, ?_⟩
        · refine (isCandidate_iff _).2 (Or.inr ⟨List.replicate (p ++ [36]).length 97, 97, rfl, ?_,
            by decide⟩)
          intro x hx
          rw [(List.mem_replicate.1 hx).2]; decide
        · exact lt_of_lt_of_le (val_lt _) (val_replicate_ge _)
      · subst h1
        simp only [Bool.false_eq_true, if_false]
        refine ⟨out, rfl, ?_, h4⟩
        induction out using List.reverseRecOn with
        | nil => simp at h2
        | append_singleton q d _ =>
          refine (isCandidate_iff _).2 (Or.inr ⟨q, d, rfl, fun x hx =>
            h3 x (List.mem_append_left _ hx), ?_⟩)
          have := h3 d (by simp)
          simp [isTail, this]
    · simp only [h122, h90, h95, h36, if_false]
      have hlet : isLetter c = true := by
        simpa [isTail, h95, h36] using hc
      obtain ⟨hy1, hy2⟩ := letter_succ c hlet h90
      simp only [h122, if_false] at hy1 hy2
      exact ⟨_, rfl, hcand _ (by simp [isTail, hy1]), hval _ hy2⟩

/-! ## The renamer: the loops of `enterScope` end -/

theorem isReserved_mem (r : renamer) (name : Name) (h : r.isReserved name = true) :
    name ∈ reservedNames r := by
  unfold renamer.isReserved at h
  unfold reservedNames
  by_cases hm : name ∈ r.reserved
  · exact List.mem_append_left _ hm
  · simp only [hm, if_false] at h
    split at h
    · cases hl : r.vars.getLast? with
      | none => simp [hl] at h
      | some top =>
        simp only [hl] at h ⊢
        cases hv : lookup top name with
        | none => simp [hv] at h
        | some v =>
          refine List.mem_append_right _ (List.mem_map.2 ⟨(name, v), lookup_mem top name v hv, rfl⟩)
    · exact absurd h (by simp)

theorem pending_le_length (names : List Name) (v : Nat) : pending names v ≤ names.length :=
  List.length_filter_le _ _

theorem pending_mono (names : List Name) (v w : Nat) (h : v ≤ w) :
    pending names w ≤ pending names v := by
  induction names with
  | nil => simp [pending]
  | cons x rest ih =>
    unfold pending at ih ⊢
    simp only [List.filter_cons]
    by_cases h1 : w ≤ val x
    · have h2 : v ≤ val x := le_trans h h1
      simp only [h1, h2, decide_True, if_true, List.length_cons]
      omega
    · by_cases h2 : v ≤ val x
      · simp only [h1, h2, decide_True, decide_False, if_true, Bool.false_eq_true, if_false,
          List.length_cons]
        omega
      · simp only [h1, h2, decide_False, Bool.false_eq_true, if_false]
        exact ih

theorem pending_lt (names : List Name) (name : Name) (w : Nat) (hmem : name ∈ names)
    (h : val name < w) : pending names w < pending names (val name) := by
  induction names with
  | nil => cases hmem
  | cons x rest ih =>
    have hmono := pending_mono rest (val name) w (Nat.le_of_lt h)
    unfold pending at ih hmono ⊢
    simp only [List.filter_cons]
    rcases List.mem_cons.1 hmem with hx | hx
    · subst hx
      have h1 : ¬ w ≤ val name := by omega
      simp only [h1, decide_False, Bool.false_eq_true, if_false, le_refl, decide_True, if_true,
        List.length_cons]
      omega
    · have := ih hx
      by_cases h1 : w ≤ val x
      · have h2 : val name ≤ val x := by omega
        simp only [h1, h2, decide_True, if_true, List.length_cons]
        omega
      · by_cases h2 : val name ≤ val x
        · simp only [h1, h2, decide_True, decide_False, if_true, Bool.false_eq_true, if_false,
            List.length_cons]
          omega
        · simp only [h1, h2, decide_False, Bool.false_eq_true, if_false]
          exact this

/-- The loop `for r.isReserved(rename)` ends on a candidate name: it returns
the first name of the generation sequence from `rename` that is not reserved. -/
theorem skipReserved_total (r : renamer) (fuel : Nat) :
    ∀ name, isCandidate name = true → pending (reservedNames r) (val name) ≤ fuel →
      ∃ k out, skipReserved fuel r name = some out ∧ iterNext k name = some out ∧
        isCandidate out = true ∧ r.isReserved out = false ∧
        ∀ j, j < k → ∀ c, iterNext j name = some c → r.isReserved c = true := by
  induction fuel with
  | zero =>
    intro name hc hf
    unfold skipReserved
    by_cases hr : r.isReserved name = true
    · obtain ⟨n1, _, _, hv⟩ := next_candidate name hc
      have := pending_lt _ name (val n1) (isReserved_mem r name hr) hv
      omega
    · simp only [hr, Bool.false_eq_true, if_false]
      exact ⟨0, name, rfl, rfl, hc, by simpa using hr, fun j hj => by omega⟩
  | succ f ih =>
    intro name hc hf
    unfold skipReserved
    by_cases hr : r.isReserved name = true
    · obtain ⟨n1, hn, hc1, hv⟩ := next_candidate name hc
      have hlt := pending_lt _ name (val n1) (isReserved_mem r name hr) hv
      obtain ⟨k, out, hs, hi, hco, hro, hall⟩ := ih n1 hc1 (by omega)
      simp only [hr, if_true, hn]
      refine ⟨k + 1, out, hs, by simp only [iterNext, hn, hi], hco, hro, ?_⟩
      intro j hj c hjc
      cases j with
      | zero =>
        simp only [iterNext, Option.some.injEq] at hjc
        subst hjc; exact hr
      | succ j =>
        simp only [iterNext, hn] at hjc
        exact hall j (by omega) c hjc
    · simp only [hr, Bool.false_eq_true, if_false]
      exact ⟨0, name, rfl, rfl, hc, by simpa using hr, fun j hj => by omega⟩

theorem iterNext_add (i : Nat) :
    ∀ j a b c, iterNext i a = some b → iterNext j b = some c → iterNext (i + j) a = some c := by
  induction i with
  | zero =>
    intro j a b c h1 h2
    simp only [iterNext, Option.some.injEq] at h1
    subst h1; simpa using h2
  | succ i ih =>
    intro j a b c h1 h2
    unfold iterNext at h1
    cases hn : next a with
    | none => simp [hn] at h1
    | some a1 =>
      simp only [hn] at h1
      have := ih j a1 b c h1 h2
      have he : i + 1 + j = (i + j) + 1 := by omega
      rw [he]
      simp only [iterNext, hn, this]

/-- The assignment loops of `enterScope` end when the candidate they start
from is one of the generation sequence. -/
theorem assignNames_total (r : renamer) (fuel : Nat) (hfuel : (reservedNames r).length ≤ fuel)
    (names : List Name) :
    ∀ acc rename, isCandidate rename = true →
      ∃ tbl last, assignNames fuel r names acc rename = some (tbl, last) ∧
        isCandidate last = true := by
  induction names with
  | nil => intro acc rename hc; exact ⟨acc, rename, rfl, hc⟩
  | cons name rest ih =>
    intro acc rename hc
    obtain ⟨n1, hn, hc1, _⟩ := next_candidate rename hc
    obtain ⟨k, n2, hs, _, hc2, _, _⟩ := skipReserved_total r fuel n1 hc1
      (le_trans (pending_le_length _ _) hfuel)
    obtain ⟨tbl, last, ha, hl⟩ := ih (mapSet acc name n2) n2 hc2
    exact ⟨tbl, last, by simp only [assignNames, hn, hs, ha], hl⟩

/-- The method `enterScope` returns, in the global scope and whenever the
stack of tables is not empty. -/
theorem enterScope_total (r : renamer) (fuel : Nat) (scope : Scope) (isBlock : Bool)
    (hfuel : (reservedNames r).length ≤ fuel)
    (hr : r.inGlobalScope = true ∨ r.renames ≠ []) :
    ∃ r1, r.enterScope fuel scope isBlock = some r1 := by
  have hinh : ∃ renames0, (r.inGlobalScope = true ∧ renames0 = []) ∨
      (r.inGlobalScope = false ∧ ∃ parent, r.renames.getLast? = some parent ∧
        renames0 = inheritRenames parent scope.Vars []) := by
    by_cases hg : r.inGlobalScope = true
    · exact ⟨[], Or.inl ⟨hg, rfl⟩⟩
    · have hne : r.renames ≠ [] := by
        rcases hr with h | h
        · exact absurd h hg
        · exact h
      cases hl : r.renames.getLast? with
      | none => exact absurd (List.getLast?_eq_none_iff.1 hl) hne
      | some parent => exact ⟨_, Or.inr ⟨by simpa using hg, parent, rfl, rfl⟩⟩
  obtain ⟨renames0, h0⟩ := hinh
  obtain ⟨tbl, last, ha, _⟩ := assignNames_total r fuel hfuel
    (if r.deterministic = true then sortStrings (boundNames scope.Vars)
      else boundNames scope.Vars) renames0 (bytes "`") (by decide)
  exact ⟨_, (enterScope_spec fuel r _ scope isBlock).2 ⟨renames0, tbl, last, h0, ha, rfl⟩⟩

theorem keysDeclared_renames_ne_nil (r : renamer) (hinv : KeysDeclared r) :
    r.inGlobalScope = true ∨ r.renames ≠ [] := by
  by_cases hg : r.inGlobalScope = true
  · exact Or.inl hg
  · right
    intro hnil
    have hv : r.vars.length ≠ 0 := by
      simpa [renamer.inGlobalScope] using hg
    have := hinv.1
    rw [hnil] at this
    simp only [List.length_nil] at this
    omega

/-! ## The renamer: the table of a new scope -/

theorem reachable_stateOuter :
    Reachable (newRenamer someKeywords someGlobals [] true) stateOuter :=
  Reachable.enter 0 scopeOuter false Reachable.init (by decide)

theorem mem_assigned (r : renamer) (scope : Scope) (name : Name) :
    name ∈ (if r.deterministic = true then sortStrings (boundNames scope.Vars)
      else boundNames scope.Vars) ↔ name ∈ boundNames scope.Vars := by
  by_cases hd : r.deterministic = true
  · simp only [hd, if_true, mem_sortStrings]
  · simp [hd]

/-- The keys of the table that `enterScope` builds. -/
theorem enterScope_keys (r r1 : renamer) (fuel : Nat) (scope : Scope) (isBlock : Bool)
    (h : r.enterScope fuel scope isBlock = some r1) :
    ∃ tbl, r1.renames = r.renames ++ [tbl] ∧ r1.vars = r.vars ++ [scope.Vars] ∧
      (∀ name, name ∈ boundNames scope.Vars → (lookup tbl name).isSome = true) ∧
      (∀ name, name ∉ boundNames scope.Vars →
        lookup tbl name =
          if r.inGlobalScope = false ∧ name ∈ freeNames scope.Vars then
            match r.renames.getLast? with
            | some parent => lookup parent name
            | none => none
          else none) := by
  obtain ⟨renames0, tbl, last, hinh, ha, rfl⟩ := (enterScope_spec fuel r r1 scope isBlock).1 h
  refine ⟨tbl, rfl, rfl, ?_, ?_⟩
  · intro name hname
    exact lookup_assignNames_isSome fuel r name _ _ _ _ _ ha
      (Or.inl ((mem_assigned r scope name).2 hname))
  · intro name hname
    rw [lookup_assignNames_of_not_mem fuel r name _
      (fun hm => hname ((mem_assigned r scope name).1 hm)) _ _ _ _ ha]
    rcases hinh with ⟨hg, rfl⟩ | ⟨hg, parent, hparent, rfl⟩
    · simp [hg, lookup]
    · rw [lookup_inheritRenames, hparent]
      simp only [hg, true_and]
      by_cases hf : name ∈ freeNames scope.Vars
      · simp only [hf, true_and, if_true]
        cases hl : lookup parent name with
        | none => simp [lookup]
        | some v => simp
      · simp [hf, lookup]

/-- C12: in a state reached from `newRenamer`, `enterScope` on a scope `S`
returns and pushes one table. That table has an entry for every name that `S`
declares with a positive use count and none for a name whose use count in `S`
is 0; a name has an entry exactly when `S` declares it with a positive use
count, or `S` uses it without declaring it and the table on top of the stack
before the call, the one read as the parent's, has an entry for it. -/
theorem enterScope_table_keys (keywords globals undeclared : List Name) (det : Bool)
    (r : renamer) (h : Reachable (newRenamer keywords globals undeclared det) r)
    (fuel : Nat) (scope : Scope) (isBlock : Bool) (hfuel : (reservedNames r).length ≤ fuel) :
    ∃ r1 tbl, r.enterScope fuel scope isBlock = some r1 ∧ r1.renames = r.renames ++ [tbl] ∧
      (∀ name, name ∈ boundNames scope.Vars → (lookup tbl name).isSome = true) ∧
      (∀ name, (∀ v, (name, v) ∈ scope.Vars → v.Uses = 0) → lookup tbl name = none) ∧
      ∀ name, (lookup tbl name).isSome = true ↔
        (name ∈ boundNames scope.Vars ∨
          (name ∈ freeNames scope.Vars ∧
            ∃ parent, r.renames.getLast? = some parent ∧ (lookup parent name).isSome = true)) := by
  have hinv := keysDeclared_reachable keywords globals undeclared det r h
  obtain ⟨r1, he⟩ := enterScope_total r fuel scope isBlock hfuel
    (keysDeclared_renames_ne_nil r hinv)
  obtain ⟨tbl, hren, _, hbound, hother⟩ := enterScope_keys r r1 fuel scope isBlock he
  have hiff : ∀ name, (lookup tbl name).isSome = true ↔
      (name ∈ boundNames scope.Vars ∨
        (name ∈ freeNames scope.Vars ∧
          ∃ parent, r.renames.getLast? = some parent ∧ (lookup parent name).isSome = true)) := by
    intro name
    by_cases hb : name ∈ boundNames scope.Vars
    · simp only [hbound name hb, hb, true_or]
    · rw [hother name hb]
      simp only [hb, false_or]
      by_cases hg : r.inGlobalScope = true
      · have hempty : ∀ parent, r.renames.getLast? = some parent → parent = [] := by
          intro parent hp
          cases parent with
          | nil => rfl
          | cons p rest =>
            obtain ⟨vs, hvs, _⟩ := keysDeclared_key r hinv _ (List.mem_of_mem_getLast? hp) p
              (List.mem_cons_self _ _)
            have hv : r.vars = [] := by simpa [renamer.inGlobalScope] using hg
            rw [hv] at hvs
            cases hvs
        simp only [hg, Bool.true_eq_false, false_and, if_false, Option.isSome_none,
          Bool.false_eq_true, false_iff, not_and, not_exists]
        intro _ parent hp
        rw [hempty parent hp]
        simp [lookup]
      · have hg1 : r.inGlobalScope = false := by simpa using hg
        simp only [hg1, true_and]
        by_cases hf : name ∈ freeNames scope.Vars
        · simp only [hf, if_true, true_and]
          cases hl : r.renames.getLast? with
          | none => simp
          | some parent => simp
        · simp [hf]
  refine ⟨r1, tbl, he, hren, hbound, ?_, hiff⟩
  intro name hzero
  cases hl : lookup tbl name with
  | none => rfl
  | some v =>
    have := (hiff name).1 (by simp [hl])
    rcases this with hb | ⟨hf, _⟩
    · obtain ⟨v1, hm, _, hu⟩ := (mem_boundNames _ _).1 hb
      have := hzero v1 hm
      omega
    · obtain ⟨v1, hm, _, hu⟩ := (mem_freeNames _ _).1 hf
      have := hzero v1 hm
      omega

/-- Witness of C12: the scope of the inner function of
`function f(x){ return function(y){ return x + y } }`, entered in the scope of
`f`. -/
theorem enterScope_table_keys_witness :
    Reachable (newRenamer someKeywords someGlobals [] true) stateOuter ∧
    (reservedNames stateOuter).length ≤ 8 ∧
    ∃ r1 tbl, stateOuter.enterScope 8 scopeInner false = some r1 ∧
      r1.renames = stateOuter.renames ++ [tbl] ∧
      (∀ name, name ∈ boundNames scopeInner.Vars → (lookup tbl name).isSome = true) ∧
      (∀ name, (∀ v, (name, v) ∈ scopeInner.Vars → v.Uses = 0) → lookup tbl name = none) ∧
      ∀ name, (lookup tbl name).isSome = true ↔
        (name ∈ boundNames scopeInner.Vars ∨
          (name ∈ freeNames scopeInner.Vars ∧
            ∃ parent, stateOuter.renames.getLast? = some parent ∧
              (lookup parent name).isSome = true)) :=
  ⟨reachable_stateOuter, by decide,
    enterScope_table_keys someKeywords someGlobals [] true stateOuter reachable_stateOuter 8
      scopeInner false (by decide)⟩

theorem renameLoop_append (l l2 : List (GoMap Name)) (name : Name) :
    ∀ k, k ≤ l.length → renameLoop (l ++ l2) name k = renameLoop l name k := by
  intro k
  induction k with
  | zero => intro _; rfl
  | succ k ih =>
    intro hk
    unfold renameLoop
    have hget : (l ++ l2).get? k = l.get? k := by
      rw [List.get?_eq_getElem?, List.get?_eq_getElem?, List.getElem?_append_left (by omega)]
    rw [hget, ih (by omega)]

theorem renameLoop_top (l : List (GoMap Name)) (tbl : GoMap Name) (name : Name) :
    renameLoop (l ++ [tbl]) name (l.length + 1)
      = match lookup tbl name with
        | some v => v
        | none => renameLoop l name l.length := by
  rw [renameLoop]
  have hget : (l ++ [tbl]).get? l.length = some tbl := by
    rw [List.get?_eq_getElem?, List.getElem?_concat_length]
  rw [hget]
  simp only
  cases lookup tbl name with
  | none => simp only; exact renameLoop_append l [tbl] name l.length (le_refl _)
  | some v => rfl

/-- The frame of `enterScope`: in a state reached from `newRenamer`,
`enterScope` on a scope `S` returns, and for every name that `S` does not
declare with a positive use count `rename` gives afterwards what it gave
before. -/
theorem rename_stable_across_enterScope (keywords globals undeclared : List Name) (det : Bool)
    (r : renamer) (h : Reachable (newRenamer keywords globals undeclared det) r)
    (fuel : Nat) (scope : Scope) (isBlock : Bool) (hfuel : (reservedNames r).length ≤ fuel) :
    ∃ r1, r.enterScope fuel scope isBlock = some r1 ∧
      ∀ name, name ∉ boundNames scope.Vars → r1.rename name = r.rename name := by
  have hinv := keysDeclared_reachable keywords globals undeclared det r h
  obtain ⟨r1, he⟩ := enterScope_total r fuel scope isBlock hfuel
    (keysDeclared_renames_ne_nil r hinv)
  obtain ⟨tbl, hren, hvars, _, hother⟩ := enterScope_keys r r1 fuel scope isBlock he
  refine ⟨r1, he, ?_⟩
  intro name hname
  have hg1 : r1.inGlobalScope = false := by
    simp [renamer.inGlobalScope, hvars]
  have h1 : r1.rename name = match lookup tbl name with
      | some v => v
      | none => renameLoop r.renames name r.renames.length := by
    unfold renamer.rename
    simp only [hg1, Bool.false_eq_true, if_false, hren, List.length_append, List.length_singleton]
    exact renameLoop_top r.renames tbl name
  rw [h1, hother name hname]
  by_cases hg : r.inGlobalScope = true
  · have hv : r.vars = [] := by simpa [renamer.inGlobalScope] using hg
    simp only [hg, Bool.true_eq_false, false_and, if_false]
    rw [renameLoop_of_not_bound r hinv name (fun vs hvs => by rw [hv] at hvs; cases hvs)]
    simp [renamer.rename, hg]
  · have hg0 : r.inGlobalScope = false := by simpa using hg
    have hrename : r.rename name = renameLoop r.renames name r.renames.length := by
      simp [renamer.rename, hg0]
    simp only [hg0, true_and]
    by_cases hf : name ∈ freeNames scope.Vars
    · simp only [hf, if_true]
      cases hl : r.renames.getLast? with
      | none => simp only; exact hrename.symm
      | some parent =>
        simp only
        cases hp : lookup parent name with
        | none => simp only; exact hrename.symm
        | some v =>
          simp only
          rw [hrename]
          obtain ⟨front, hfront⟩ : ∃ front, r.renames = front ++ [parent] := by
            have := List.getLast?_eq_some_iff.1 hl
            exact this
          rw [hfront, List.length_append, List.length_singleton, renameLoop_top, hp]
    · simp only [hf, if_false]
      exact hrename.symm

/-- An instance of the frame of `enterScope`: entering the inner function of
`function f(x){ return function(y){ return x + y } }` keeps the name `a` of
`x`. -/
theorem rename_stable_across_enterScope_witness :
    Reachable (newRenamer someKeywords someGlobals [] true) stateOuter ∧
    stateOuter.rename (bytes "x") = bytes "a" ∧
    ∃ r1, stateOuter.enterScope 8 scopeInner false = some r1 ∧
      ∀ name, name ∉ boundNames scopeInner.Vars → r1.rename name = stateOuter.rename name :=
  ⟨reachable_stateOuter, by decide,
    rename_stable_across_enterScope someKeywords someGlobals [] true stateOuter
      reachable_stateOuter 8 scopeInner false (by decide)⟩

/-! ## The renamer: the order of assignment -/

theorem nameLt_iff_lt (a : Name) : ∀ b : Name, nameLt a b = true ↔ a < b := by
  induction a with
  | nil =>
    intro b
    cases b with
    | nil => simp [nameLt]
    | cons y ys => simp only [nameLt, true_iff]; exact List.Lex.nil
  | cons x xs ih =>
    intro b
    cases b with
    | nil =>
      simp only [nameLt, Bool.false_eq_true, false_iff]
      exact List.Lex.not_nil_right _ _
    | cons y ys =>
      unfold nameLt
      by_cases h1 : x < y
      · simp only [h1, if_true, true_iff]
        exact List.Lex.rel h1
      · by_cases h2 : y < x
        · simp only [h1, h2, if_false, if_true, Bool.false_eq_true, false_iff]
          intro hlex
          cases hlex with
          | cons _ => exact absurd h2 (lt_irrefl _)
          | rel h => exact h1 h
        · have hxy : x = y := by omega
          subst hxy
          simp only [h1, if_false, ih ys]
          exact (List.Lex.cons_iff).symm

theorem insertSorted_eq (x : Name) (l : List Name) :
    insertSorted x l = List.orderedInsert (fun a b : Name => a ≤ b) x l := by
  induction l with
  | nil => rfl
  | cons y ys ih =>
    unfold insertSorted
    simp only [List.orderedInsert]
    by_cases h : nameLt y x = true
    · have hlt : y < x := (nameLt_iff_lt y x).1 h
      simp only [h, if_true, not_le.2 hlt, if_false, ih]
    · have hle : x ≤ y := not_lt.1 (fun hlt => h ((nameLt_iff_lt y x).2 hlt))
      simp [h, hle]

theorem sortStrings_eq (l : List Name) :
    sortStrings l = List.insertionSort (fun a b : Name => a ≤ b) l := by
  induction l with
  | nil => rfl
  | cons x xs ih => simp only [sortStrings, List.insertionSort, insertSorted_eq, ih]

theorem sortStrings_perm (l1 l2 : List Name) (h : l1.Perm l2) :
    sortStrings l1 = sortStrings l2 := by
  rw [sortStrings_eq, sortStrings_eq]
  exact List.eq_of_perm_of_sorted
    ((List.perm_insertionSort _ l1).trans (h.trans (List.perm_insertionSort _ l2).symm))
    (List.sorted_insertionSort _ l1) (List.sorted_insertionSort _ l2)

theorem sortStrings_ascending (l : List Name) (h : l.Nodup) :
    (sortStrings l).Pairwise (fun a b => nameLt a b = true) ∧ (sortStrings l).Nodup := by
  rw [sortStrings_eq]
  have hnd : (List.insertionSort (fun a b : Name => a ≤ b) l).Nodup :=
    (List.perm_insertionSort _ l).nodup_iff.2 h
  refine ⟨?_, hnd⟩
  have hs := List.Sorted.lt_of_le (List.sorted_insertionSort (fun a b : Name => a ≤ b) l) hnd
  exact List.Pairwise.imp (fun hab => (nameLt_iff_lt _ _).2 hab) hs

theorem boundNames_perm (vs1 vs2 : GoMap Var) (h : vs1.Perm vs2) :
    (boundNames vs1).Perm (boundNames vs2) :=
  (h.filter _).map _

theorem boundNames_nodup (vs : GoMap Var) (h : (vs.map Prod.fst).Nodup) :
    (boundNames vs).Nodup := by
  unfold boundNames
  exact List.Nodup.sublist (List.Sublist.map _ (List.filter_sublist _)) h

theorem freeNames_perm (vs1 vs2 : GoMap Var) (h : vs1.Perm vs2) (name : Name) :
    name ∈ freeNames vs1 ↔ name ∈ freeNames vs2 :=
  ((h.filter _).map _).mem_iff

theorem skipReserved_iterNext (r : renamer) (fuel : Nat) :
    ∀ a b, skipReserved fuel r a = some b → ∃ k, iterNext k a = some b := by
  induction fuel with
  | zero =>
    intro a b h
    unfold skipReserved at h
    by_cases hr : r.isReserved a = true
    · simp [hr] at h
    · simp only [hr, Bool.false_eq_true, if_false, Option.some.injEq] at h
      exact ⟨0, by simp [iterNext, h]⟩
  | succ f ih =>
    intro a b h
    unfold skipReserved at h
    by_cases hr : r.isReserved a = true
    · simp only [hr, if_true] at h
      cases hn : next a with
      | none => simp [hn] at h
      | some a1 =>
        simp only [hn] at h
        obtain ⟨k, hk⟩ := ih a1 b h
        exact ⟨k + 1, by simp only [iterNext, hn, hk]⟩
    · simp only [hr, Bool.false_eq_true, if_false, Option.some.injEq] at h
      exact ⟨0, by simp [iterNext, h]⟩

/-- The tables of two runs of the assignment loop that start from tables with
the same entries have the same entries. -/
theorem assignNames_congr (r : renamer) (fuel : Nat) (names : List Name) :
    ∀ acc1 acc2 rename tbl1 last1, (∀ name, lookup acc1 name = lookup acc2 name) →
      assignNames fuel r names acc1 rename = some (tbl1, last1) →
      ∃ tbl2, assignNames fuel r names acc2 rename = some (tbl2, last1) ∧
        ∀ name, lookup tbl1 name = lookup tbl2 name := by
  induction names with
  | nil =>
    intro acc1 acc2 rename tbl1 last1 hacc h
    simp only [assignNames, Option.some.injEq, Prod.mk.injEq] at h
    obtain ⟨rfl, rfl⟩ := h
    exact ⟨acc2, rfl, hacc⟩
  | cons k rest ih =>
    intro acc1 acc2 rename tbl1 last1 hacc h
    unfold assignNames at h ⊢
    cases hn : next rename with
    | none => simp [hn] at h
    | some n1 =>
      simp only [hn] at h ⊢
      cases hs : skipReserved fuel r n1 with
      | none => simp [hs] at h
      | some n2 =>
        simp only [hs] at h ⊢
        refine ih _ _ n2 tbl1 last1 ?_ h
        intro name
        rw [lookup_mapSet, lookup_mapSet, hacc name]

/-- The values that the assignment loop stores: the name of index `i` receives
the candidate of index `ks[i]` of the generation sequence from `rename`, and
the indices increase. -/
theorem assignNames_indices (r : renamer) (fuel : Nat) (names : List Name) :
    ∀ acc rename tbl last, names.Nodup →
      assignNames fuel r names acc rename = some (tbl, last) →
      ∃ ks : List Nat,
        List.Forall₂ (fun name k => ∃ v, iterNext k rename = some v ∧ lookup tbl name = some v)
          names ks ∧
        ks.Pairwise (fun a b => a < b) ∧ ∀ k ∈ ks, 1 ≤ k := by
  induction names with
  | nil =>
    intro acc rename tbl last _ _
    exact ⟨[], List.Forall₂.nil, List.Pairwise.nil, fun k hk => by cases hk⟩
  | cons name rest ih =>
    intro acc rename tbl last hnd h
    obtain ⟨hnot, hrest⟩ := List.nodup_cons.1 hnd
    unfold assignNames at h
    cases hn : next rename with
    | none => simp [hn] at h
    | some n1 =>
      simp only [hn] at h
      cases hs : skipReserved fuel r n1 with
      | none => simp [hs] at h
      | some n2 =>
        simp only [hs] at h
        obtain ⟨k, hk⟩ := skipReserved_iterNext r fuel n1 n2 hs
        have hk1 : iterNext (k + 1) rename = some n2 := by simp only [iterNext, hn, hk]
        obtain ⟨ks, hall, hpair, hpos⟩ := ih _ n2 tbl last hrest h
        refine ⟨(k + 1) :: ks.map (fun j => (k + 1) + j), List.Forall₂.cons ?_ ?_,
          List.Pairwise.cons ?_ ?_, ?_⟩
        · refine ⟨n2, hk1, ?_⟩
          rw [lookup_assignNames_of_not_mem fuel r name rest hnot _ _ _ _ h, lookup_mapSet]
          simp
        · rw [List.forall₂_map_right_iff]
          refine List.Forall₂.imp ?_ hall
          rintro a j ⟨v, hv, hl⟩
          exact ⟨v, iterNext_add (k + 1) j rename n2 v hk1 hv, hl⟩
        · intro j hj
          obtain ⟨j0, hj0, rfl⟩ := List.mem_map.1 hj
          have := hpos j0 hj0
          omega
        · exact List.Pairwise.map _ (fun a b hab => by omega) hpair
        · intro j hj
          rcases List.mem_cons.1 hj with rfl | hj1
          · omega
          · obtain ⟨j0, _, rfl⟩ := List.mem_map.1 hj1
            omega

/-! ## The renamer: reproducible assignment and the first candidate -/

theorem rename_after_enterScope (r r1 : renamer) (tbl : GoMap Name) (vs : GoMap Var)
    (hren : r1.renames = r.renames ++ [tbl]) (hvars : r1.vars = r.vars ++ [vs]) (name : Name) :
    r1.rename name = match lookup tbl name with
      | some v => v
      | none => renameLoop r.renames name r.renames.length := by
  have hg1 : r1.inGlobalScope = false := by
    simp [renamer.inGlobalScope, hvars]
  unfold renamer.rename
  simp only [hg1, Bool.false_eq_true, if_false, hren, List.length_append, List.length_singleton]
  exact renameLoop_top r.renames tbl name

/-- C14: with the deterministic flag set, `enterScope` on two enumerations of
one variable table returns in both runs, and the two tables pushed have the
same entries, the last candidates are equal and `rename` answers alike. When
the keys of the variable table are distinct, the declared and used names are
assigned in strictly ascending order of `sort.Strings`, and the name of rank
`i` receives the candidate of index `ks[i]` of the generation sequence from
the seed, with `1 ≤ ks[0] < ks[1] < …`. -/
theorem deterministic_enterScope_order_independent (r : renamer) (fuel : Nat)
    (scope1 scope2 : Scope) (isBlock : Bool) (hdet : r.deterministic = true)
    (hperm : scope1.Vars.Perm scope2.Vars) (hfuel : (reservedNames r).length ≤ fuel)
    (hr : r.inGlobalScope = true ∨ r.renames ≠ []) :
    ∃ r1 r2 tbl1 tbl2,
      r.enterScope fuel scope1 isBlock = some r1 ∧ r.enterScope fuel scope2 isBlock = some r2 ∧
      r1.renames = r.renames ++ [tbl1] ∧ r2.renames = r.renames ++ [tbl2] ∧
      (∀ name, lookup tbl1 name = lookup tbl2 name) ∧
      r1.lastRename = r2.lastRename ∧
      (∀ name, r1.rename name = r2.rename name) ∧
      ((scope1.Vars.map Prod.fst).Nodup →
        (sortStrings (boundNames scope1.Vars)).Pairwise (fun a b => nameLt a b = true) ∧
        ∃ ks : List Nat,
          List.Forall₂
            (fun name k => ∃ v, iterNext k (bytes "`") = some v ∧ lookup tbl1 name = some v)
            (sortStrings (boundNames scope1.Vars)) ks ∧
          ks.Pairwise (fun a b => a < b) ∧ ∀ k ∈ ks, 1 ≤ k) := by
  obtain ⟨r1, he1⟩ := enterScope_total r fuel scope1 isBlock hfuel hr
  obtain ⟨acc1, tbl1, last1, hinh1, ha1, hr1⟩ := (enterScope_spec fuel r r1 scope1 isBlock).1 he1
  simp only [hdet, if_true] at ha1
  have hsort : sortStrings (boundNames scope1.Vars) = sortStrings (boundNames scope2.Vars) :=
    sortStrings_perm _ _ (boundNames_perm _ _ hperm)
  have hacc : ∃ acc2, ((r.inGlobalScope = true ∧ acc2 = []) ∨
      (r.inGlobalScope = false ∧ ∃ parent, r.renames.getLast? = some parent ∧
        acc2 = inheritRenames parent scope2.Vars [])) ∧
      ∀ name, lookup acc1 name = lookup acc2 name := by
    rcases hinh1 with ⟨hg, rfl⟩ | ⟨hg, parent, hparent, rfl⟩
    · exact ⟨[], Or.inl ⟨hg, rfl⟩, fun _ => rfl⟩
    · refine ⟨_, Or.inr ⟨hg, parent, hparent, rfl⟩, ?_⟩
      intro name
      rw [lookup_inheritRenames, lookup_inheritRenames]
      simp only [freeNames_perm _ _ hperm name]
  obtain ⟨acc2, hinh2, hlook⟩ := hacc
  obtain ⟨tbl2, ha2, htbl⟩ := assignNames_congr r fuel _ acc1 acc2 _ tbl1 last1 hlook ha1
  rw [hsort] at ha2
  have he2 : r.enterScope fuel scope2 isBlock = some
      { r with
        vars := r.vars ++ [scope2.Vars]
        renames := r.renames ++ [tbl2]
        lastRename := r.lastRename ++ [last1] } :=
    (enterScope_spec fuel r _ scope2 isBlock).2
      ⟨acc2, tbl2, last1, hinh2, by simpa only [hdet, if_true] using ha2, rfl⟩
  refine ⟨r1, _, tbl1, tbl2, he1, he2, by rw [hr1], rfl, htbl, by rw [hr1], ?_, ?_⟩
  · intro name
    rw [rename_after_enterScope r r1 tbl1 scope1.Vars (by rw [hr1]) (by rw [hr1]) name,
      rename_after_enterScope r _ tbl2 scope2.Vars rfl rfl name, htbl name]
  · intro hkeys
    have hnd := boundNames_nodup _ hkeys
    obtain ⟨hasc, hnd1⟩ := sortStrings_ascending _ hnd
    exact ⟨hasc, assignNames_indices r fuel _ acc1 _ tbl1 last1 hnd1 ha1⟩

/-- Witness of C14: the variable table of the inner function of
`function f(x){ return function(y){ return x + y } }` in its two
enumerations, entered in the scope of `f`. -/
theorem deterministic_enterScope_order_independent_witness :
    stateOuter.deterministic = true ∧
    scopeInner.Vars.Perm [(bytes "x", free 1), (bytes "y", declared 1)] ∧
    ∃ r1 r2 tbl1 tbl2,
      stateOuter.enterScope 8 scopeInner false = some r1 ∧
      stateOuter.enterScope 8 { Vars := [(bytes "x", free 1), (bytes "y", declared 1)] } false
        = some r2 ∧
      r1.renames = stateOuter.renames ++ [tbl1] ∧ r2.renames = stateOuter.renames ++ [tbl2] ∧
      (∀ name, lookup tbl1 name = lookup tbl2 name) ∧
      r1.lastRename = r2.lastRename ∧
      (∀ name, r1.rename name = r2.rename name) ∧
      ((scopeInner.Vars.map Prod.fst).Nodup →
        (sortStrings (boundNames scopeInner.Vars)).Pairwise (fun a b => nameLt a b = true) ∧
        ∃ ks : List Nat,
          List.Forall₂
            (fun name k => ∃ v, iterNext k (bytes "`") = some v ∧ lookup tbl1 name = some v)
            (sortStrings (boundNames scopeInner.Vars)) ks ∧
          ks.Pairwise (fun a b => a < b) ∧ ∀ k ∈ ks, 1 ≤ k) :=
  ⟨rfl, List.Perm.swap _ _ _,
    deterministic_enterScope_order_independent stateOuter 8 scopeInner
      { Vars := [(bytes "x", free 1), (bytes "y", declared 1)] } false rfl
      (List.Perm.swap _ _ _) (by decide) (Or.inr (by decide))⟩

theorem isReserved_iff (r : renamer) (name : Name) :
    r.isReserved name = true ↔
      (name ∈ r.reserved ∨
        ∃ top v, r.vars.getLast? = some top ∧ lookup top name = some v ∧ 0 < v.Uses) := by
  unfold renamer.isReserved
  by_cases hm : name ∈ r.reserved
  · simp [hm]
  · simp only [hm, if_false, false_or]
    cases hl : r.vars.getLast? with
    | none =>
      have hv : r.vars = [] := List.getLast?_eq_none_iff.1 hl
      simp [renamer.inGlobalScope, hv]
    | some top =>
      have hv : r.vars ≠ [] := by
        intro h; rw [h] at hl; simp at hl
      have hg : r.inGlobalScope = false := by
        simpa [renamer.inGlobalScope] using hv
      simp only [hg, Bool.not_false, if_true, Option.some.injEq, exists_and_left,
        exists_eq_left']
      cases hlk : lookup top name with
      | none => simp
      | some v => simp

/-- C15: when `enterScope` has names to bind, the first of them, `first`,
receives the candidate of the least index `k ≥ 1` of the generation sequence
from the seed that is neither in the reserved set nor the name of a variable of
the enclosing scope with a positive use count; the sequence starts `a`, `b`,
`c`. For `function f(longName){ return longName + 1; }`, with `a` not
reserved, the printer writes `function f(a){return a+1}`. -/
theorem first_binding_gets_first_free_candidate (r : renamer) (fuel : Nat) (scope : Scope)
    (isBlock : Bool) (first : Name) (rest : List Name)
    (hbound : (if r.deterministic = true then sortStrings (boundNames scope.Vars)
      else boundNames scope.Vars) = first :: rest)
    (hfirst : first ∉ rest) (hfuel : (reservedNames r).length ≤ fuel)
    (hr : r.inGlobalScope = true ∨ r.renames ≠ []) :
    (∃ r1 tbl k cand,
      r.enterScope fuel scope isBlock = some r1 ∧ r1.renames = r.renames ++ [tbl] ∧
      1 ≤ k ∧ iterNext k (bytes "`") = some cand ∧ lookup tbl first = some cand ∧
      cand ∉ r.reserved ∧
      (∀ top v, r.vars.getLast? = some top → lookup top cand = some v → v.Uses = 0) ∧
      ∀ j c, 1 ≤ j → j < k → iterNext j (bytes "`") = some c →
        (c ∈ r.reserved ∨
          ∃ top v, r.vars.getLast? = some top ∧ lookup top c = some v ∧ 0 < v.Uses)) ∧
    (iterNext 1 (bytes "`") = some (bytes "a") ∧ iterNext 2 (bytes "`") = some (bytes "b") ∧
      iterNext 3 (bytes "`") = some (bytes "c")) ∧
    (bytes "a" ∉ sampleMinifier.renamer.reserved ∧
      written (minifyStmt sampleExt 6 funcLongName sampleMinifier)
        = some (bytes "function f(a){return a+1}")) := by
  refine ⟨?_, ⟨by decide, by decide, by decide⟩, ⟨by decide, by decide⟩⟩
  obtain ⟨r1, he⟩ := enterScope_total r fuel scope isBlock hfuel hr
  obtain ⟨acc, tbl, last, _, ha, hr1⟩ := (enterScope_spec fuel r r1 scope isBlock).1 he
  rw [hbound] at ha
  have hseed : next (bytes "`") = some (bytes "a") := by decide
  unfold assignNames at ha
  simp only [hseed] at ha
  obtain ⟨k, out, hs, hi, _, hres, hall⟩ := skipReserved_total r fuel (bytes "a") (by decide)
    (le_trans (pending_le_length _ _) hfuel)
  simp only [hs] at ha
  have hnot : ¬ (out ∈ r.reserved ∨
      ∃ top v, r.vars.getLast? = some top ∧ lookup top out = some v ∧ 0 < v.Uses) := by
    rw [← isReserved_iff]; simp [hres]
  refine ⟨r1, tbl, k + 1, out, he, by rw [hr1], by omega, ?_, ?_, fun hm => hnot (Or.inl hm),
    ?_, ?_⟩
  · simp only [iterNext, hseed, hi]
  · rw [lookup_assignNames_of_not_mem fuel r first rest hfirst _ _ _ _ ha, lookup_mapSet]
    simp
  · intro top v htop hv
    by_contra hu
    exact hnot (Or.inr ⟨top, v, htop, hv, by omega⟩)
  · intro j c hj1 hjk hc
    obtain ⟨j0, rfl⟩ : ∃ j0, j = j0 + 1 := ⟨j - 1, by omega⟩
    simp only [iterNext, hseed] at hc
    exact (isReserved_iff r c).1 (hall j0 (by omega) c hc)

/-- Witness of C15: the scope of `function f(longName){ … }` entered from the
state of `newRenamer` with `a` and `b` undeclared in the program: the parameter
receives `c`. -/
theorem first_binding_gets_first_free_candidate_witness :
    ((∃ r1 tbl k cand,
      (newRenamer someKeywords someGlobals [bytes "a", bytes "b"] true).enterScope 9
        scopeLongName false = some r1 ∧
      r1.renames = (newRenamer someKeywords someGlobals [bytes "a", bytes "b"] true).renames
        ++ [tbl] ∧
      1 ≤ k ∧ iterNext k (bytes "`") = some cand ∧ lookup tbl (bytes "longName") = some cand ∧
      cand ∉ (newRenamer someKeywords someGlobals [bytes "a", bytes "b"] true).reserved ∧
      (∀ top v, (newRenamer someKeywords someGlobals [bytes "a", bytes "b"] true).vars.getLast?
        = some top → lookup top cand = some v → v.Uses = 0) ∧
      ∀ j c, 1 ≤ j → j < k → iterNext j (bytes "`") = some c →
        (c ∈ (newRenamer someKeywords someGlobals [bytes "a", bytes "b"] true).reserved ∨
          ∃ top v, (newRenamer someKeywords someGlobals [bytes "a", bytes "b"] true).vars.getLast?
            = some top ∧ lookup top c = some v ∧ 0 < v.Uses)) ∧
    (iterNext 1 (bytes "`") = some (bytes "a") ∧ iterNext 2 (bytes "`") = some (bytes "b") ∧
      iterNext 3 (bytes "`") = some (bytes "c")) ∧
    (bytes "a" ∉ sampleMinifier.renamer.reserved ∧
      written (minifyStmt sampleExt 6 funcLongName sampleMinifier)
        = some (bytes "function f(a){return a+1}"))) ∧
    ((newRenamer someKeywords someGlobals [bytes "a", bytes "b"] true).enterScope 9
        scopeLongName false).map (fun r1 => r1.renames)
      = some [[], [(bytes "longName", bytes "c")]] :=
  ⟨first_binding_gets_first_free_candidate
      (newRenamer someKeywords someGlobals [bytes "a", bytes "b"] true) 9 scopeLongName false
      (bytes "longName") [] (by decide) (by decide) (by decide) (Or.inl (by decide)),
    by decide⟩

/-! ## The printer on whole functions and programs -/

/-- C21: the code at the failing input. In `function f(undefined){ return
undefined }` the scope of `f` binds `undefined` and renames it to `a`; the
reference in the body is still written `void 0`, and likewise `1/0` for a bound
`Infinity`: `exists` answers `false` for every state and name. -/
theorem bound_undefined_still_replaced :
    (sampleMinifier.renamer.enterScope 8 { Vars := [(bytes "undefined", declared 2)] } false).map
        (fun r => r.rename (bytes "undefined")) = some (bytes "a") ∧
    written (minifyStmt sampleExt 8 funcUndefined sampleMinifier)
      = some (bytes "function f(a)\x7breturn void 0\x7d") ∧
    written (minifyStmt sampleExt 8 funcInfinity sampleMinifier)
      = some (bytes "function f(a)\x7breturn 1/0\x7d") ∧
    ∀ (r : renamer) (name : Name), r.«exists» name = false := by
  refine ⟨by decide, by decide, by decide, fun _ _ => rfl⟩

/-- C22, the claim as stated fails: for `function f(){ var unused; return 1; }`
with `unused` recorded as declared with use count 0, the declaration is
written. -/
theorem unused_local_is_written :
    written (minifyStmt sampleExt 8 funcUnused sampleMinifier)
      = some (bytes "function f()\x7bvar unused;return 1\x7d") := by
  decide

theorem forEachIdx_plain (x : Ext) (fuel : Nat) (names : List Name) :
    ∀ (i : Nat) (m : jsMinifier),
      forEachIdx
        (fun i item m => minifyBindingElement x (fuel + 2) item (if i ≠ 0 then m.ws x "," else m))
        i (names.map plainDeclarator) m = some (writeNames x i names m) := by
  induction names with
  | nil => intro i m; rfl
  | cons name rest ih =>
    intro i m
    simp only [List.map_cons, forEachIdx, plainDeclarator, minifyBindingElement, minifyBinding,
      Option.bind_eq_bind, Option.some_bind, writeNames]
    exact ih (i + 1) _

theorem forEachIdx_append {α : Type} (f : Nat → α → jsMinifier → Option jsMinifier)
    (l1 l2 : List α) :
    ∀ (i : Nat) (m : jsMinifier),
      forEachIdx f i (l1 ++ l2) m
        = (forEachIdx f i l1 m).bind (fun m1 => forEachIdx f (i + l1.length) l2 m1) := by
  induction l1 with
  | nil => intro i m; simp [forEachIdx]
  | cons a rest ih =>
    intro i m
    have hidx : i + 1 + rest.length = i + (a :: rest).length := by
      simp only [List.length_cons]; omega
    show forEachIdx f i (a :: (rest ++ l2)) m = _
    cases hf : f i a m with
    | none => simp only [forEachIdx, hf, Option.none_bind]
    | some m1 => simp only [forEachIdx, hf, ih (i + 1) m1, hidx]

/-- C22, amended: `minifyVarDecl` prints every declarator of a declaration, in
order and whatever the use count of its binding: on a declaration with the
declarators `l1`, then `d`, then `l2`, it prints `l1`, then `d` by
`minifyBindingElement` (after a comma when `l1` is not empty), then `l2`. A
declarator that is a plain name is written as the name that `rename` gives; a
declaration of plain names is written as the keyword and these names separated
by commas. For `function f(){ var unused; return 1; }`, whose scope records
`unused` with use count 0, the printer writes
`function f(){var unused;return 1}`. -/
theorem minifyVarDecl_writes_every_declarator (x : Ext) (fuel : Nat) (kind : TokenType)
    (l1 l2 : List BindingElement) (d : BindingElement) (names : List Name) (name : Name)
    (m : jsMinifier) :
    minifyVarDecl x (fuel + 1) (VarDecl.mk kind (l1 ++ d :: l2)) m
      = (forEachIdx
          (fun i item m => minifyBindingElement x fuel item (if i ≠ 0 then m.ws x "," else m))
          0 l1 (m.write x (x.tokenBytes kind)).writeSpaceBeforeIdent).bind
        (fun m1 =>
          (minifyBindingElement x fuel d (if l1.length ≠ 0 then m1.ws x "," else m1)).bind
            (fun m2 => forEachIdx
              (fun i item m =>
                minifyBindingElement x fuel item (if i ≠ 0 then m.ws x "," else m))
              (l1.length + 1) l2 m2)) ∧
    minifyBindingElement x (fuel + 2) (plainDeclarator name) m
      = some (m.write x (m.renamer.rename name)) ∧
    minifyVarDecl x (fuel + 3) (VarDecl.mk kind (names.map plainDeclarator)) m
      = some (writeNames x 0 names (m.write x (x.tokenBytes kind)).writeSpaceBeforeIdent) ∧
    written (minifyStmt sampleExt 8 funcUnused sampleMinifier)
      = some (bytes "function f()\x7bvar unused;return 1\x7d") := by
  refine ⟨?_, ?_, ?_, by decide⟩
  · simp only [minifyVarDecl]
    rw [forEachIdx_append]
    simp only [forEachIdx, Nat.zero_add]
    cases forEachIdx
        (fun i item m => minifyBindingElement x fuel item (if i ≠ 0 then m.ws x "," else m))
        0 l1 (m.write x (x.tokenBytes kind)).writeSpaceBeforeIdent with
    | none => rfl
    | some m1 =>
      simp only [Option.some_bind]
      cases minifyBindingElement x fuel d (if l1.length ≠ 0 then m1.ws x "," else m1) with
      | none => rfl
      | some m2 => rfl
  · simp only [plainDeclarator, minifyBindingElement, minifyBinding, Option.bind_eq_bind,
      Option.some_bind]
  · simp only [minifyVarDecl]
    exact forEachIdx_plain x fuel names 0 _

/-- C23, the claim as stated fails: for the program `foo(); while (true) x++;`
the bytes written are `for(foo();!0;)x++`, with `!0` for `true` and without a
last semicolon. -/
theorem while_fusion_output :
    Minify sampleExt 5 someKeywords someGlobals [bytes "foo", bytes "x"] true progWhile
      = some (bytes "for(foo();!0;)x++") ∧
    bytes "for(foo();!0;)x++" ≠ bytes "for(foo();true;)x++;" := by
  refine ⟨by decide, by decide⟩

/-- C23, amended: for all `X`, `C` and `B`, `mergeStmtList` fuses the expression
statement `X` and the loop `while (C) B` into the single statement
`for (X; C; ) B`; for the top-level program `foo(); while (true) x++;` the
bytes written by `Minify` are exactly `for(foo();!0;)x++`. -/
theorem while_fusion (x : Ext) (fuel : Nat) (X C : Expr) (B : Stmt) :
    mergeStmtList x fuel [Stmt.ExprStmt X, Stmt.WhileStmt C B]
      = some [Stmt.ForStmt (some X) (some C) none B] ∧
    mergeStmtList sampleExt 5 progWhile
      = some [Stmt.ForStmt (some (call0 "foo")) (some litTrue) none
          (Stmt.ExprStmt (Expr.UnaryExpr TokenType.PostIncrToken (ident "x")))] ∧
    Minify sampleExt 5 someKeywords someGlobals [bytes "foo", bytes "x"] true progWhile
      = some (bytes "for(foo();!0;)x++") := by
  have h : ∀ (x : Ext) (fuel : Nat) (X C : Expr) (B : Stmt),
      mergeStmtList x fuel [Stmt.ExprStmt X, Stmt.WhileStmt C B]
        = some [Stmt.ForStmt (some X) (some C) none B] := by
    intro x fuel X C B
    exact mergeStmtListWith_two_merged x _ _ _ _ (by simp only [stmtToExpr])
      (by simp only [stmtToExpr]) rfl
  exact ⟨h x fuel X C B, h sampleExt 5 _ _ _, by decide⟩

/-- C24: the code at the failing input. In `function f(){ return x; function
g(){} }` the list of the body is not changed by `mergeStmtList`, and
`minifyBlockStmt` leaves its loop after the return statement: the declaration
of `g` is not written. -/
theorem statements_after_return_dropped :
    mergeStmtList sampleExt 7 [Stmt.ReturnStmt (some (ident "x")), funcEmpty]
      = some [Stmt.ReturnStmt (some (ident "x")), funcEmpty] ∧
    written (minifyStmt sampleExt 8 funcAfterReturn sampleMinifier)
      = some (bytes "function f()\x7breturn x\x7d") ∧
    written (minifyStmt sampleExt 8 funcEmpty sampleMinifier)
      = some (bytes "function g()\x7b\x7d") := by
  refine ⟨rfl, by decide, by decide⟩

/-- C25: the code at the failing input. From the state of `Minify`, printing
`function g(){}` enters and exits one scope; `vars` is as before, but the
stacks `renames` and `lastRename`, one longer than `vars`, lose their first
entry. -/
theorem scope_stack_not_restored :
    sampleMinifier.renamer.vars = [] ∧ sampleMinifier.renamer.renames = [[]] ∧
    sampleMinifier.renamer.lastRename = [bytes "`"] ∧
    (minifyStmt sampleExt 8 funcEmpty sampleMinifier).map
        (fun m => (m.renamer.vars, m.renamer.renames, m.renamer.lastRename))
      = some ([], [], []) := by
  refine ⟨rfl, rfl, rfl, rfl⟩

/-- C28: the code at the failing input. For `() => { a(); return b }` the
braces are removed and the joined expression `a(), b` is written without
parentheses. -/
theorem arrow_sequence_not_grouped :
    arrowBodyExpr [Stmt.ExprStmt (call0 "a"), Stmt.ReturnStmt (some (ident "b"))]
      = some (Expr.BinaryExpr TokenType.CommaToken (call0 "a") (ident "b")) ∧
    sampleExt.exprPrec (Expr.BinaryExpr TokenType.CommaToken (call0 "a") (ident "b"))
      < sampleExt.OpAssign ∧
    written (minifyExpr sampleExt 8 arrowSequence 0 sampleMinifier)
      = some (bytes "()=>a(),b") := by
  refine ⟨rfl, by decide, by decide⟩

/-- C30: the code at the failing input. In `function f({...rest}){ return rest
}` the binding `rest` is renamed to `a` in the body, and the rest element of the
object pattern is written under its old name; the rest element of the array
pattern of `function f([...rest]){ return rest }` is written `a`. -/
theorem object_rest_not_renamed :
    written (minifyStmt sampleExt 8 funcObjectRest sampleMinifier)
      = some (bytes "function f(\x7b...rest\x7d)\x7breturn a\x7d") ∧
    written (minifyStmt sampleExt 8 funcArrayRest sampleMinifier)
      = some (bytes "function f([...a])\x7breturn a\x7d") := by
  refine ⟨by decide, by decide⟩

/-! ## The renamer: the generation sequence -/

theorem carryLoop_all_Z (pre : Name) :
    ∀ (suf : Name) (flag : Bool), (∀ c ∈ pre, c = 90) →
      carryLoop pre.length (pre ++ suf) flag = (pre ++ suf, flag) := by
  induction pre using List.reverseRecOn with
  | nil => intro suf flag _; rfl
  | append_singleton p c ih =>
    intro suf flag hall
    have hc : c = 90 := hall c (by simp)
    subst hc
    simp only [List.length_append, List.length_singleton, List.append_assoc,
      List.singleton_append]
    unfold carryLoop
    simp only [getD_append_cons, ne_eq, not_true_eq_false, if_false]
    exact ih (90 :: suf) flag (fun c hc => hall c (List.mem_append_left _ hc))

/-- The length of the successor of a candidate name. -/
theorem next_length_candidate (name : Name) (h : isCandidate name = true) :
    ∃ out, next name = some out ∧
      ((name.getLast? = some 36 ∧ ∀ c ∈ name.dropLast, c = 90) →
        out = List.replicate (name.length + 1) 97) ∧
      (¬ (name.getLast? = some 36 ∧ ∀ c ∈ name.dropLast, c = 90) →
        out.length = name.length) := by
  rcases (isCandidate_iff name).1 h with rfl | ⟨p, c, rfl, hp, hc⟩
  · exact ⟨[97], by decide, fun h => absurd h.1 (by decide), fun _ => rfl⟩
  · have hn : (p ++ [c]).length - 1 = p.length := by simp
    have hlast : (p ++ [c]).getLast? = some c := by simp
    have hdrop : (p ++ [c]).dropLast = p := by simp
    have hsame : ∀ y, c ≠ 36 → ∃ out, some (p ++ [y]) = some out ∧
        (((p ++ [c]).getLast? = some 36 ∧ ∀ d ∈ (p ++ [c]).dropLast, d = 90) →
          out = List.replicate ((p ++ [c]).length + 1) 97) ∧
        (¬ ((p ++ [c]).getLast? = some 36 ∧ ∀ d ∈ (p ++ [c]).dropLast, d = 90) →
          out.length = (p ++ [c]).length) := by
      intro y hc36
      refine ⟨p ++ [y], rfl, ?_, fun _ => by simp⟩
      intro hov
      rw [hlast] at hov
      exact absurd (Option.some.inj hov.1) hc36
    have hnext : next (p ++ [c]) =
        if c = 122 then some (p ++ [65])
        else if c = 90 then some (p ++ [95])
        else if c = 95 then some (p ++ [36])
        else if c = 36 then
          (if (carryLoop p.length (p ++ [c]) true).2 = true then
            some (List.replicate (p ++ [c]).length 97 ++ [97])
          else some (carryLoop p.length (p ++ [c]) true).1)
        else some (p ++ [(c + 1) % 256]) := by
      unfold next
      simp only [hlast, hn, set_concat]
    rw [hnext]
    by_cases h122 : c = 122
    · rw [if_pos h122]
      exact hsame 65 (by omega)
    rw [if_neg h122]
    by_cases h90 : c = 90
    · rw [if_pos h90]
      exact hsame 95 (by omega)
    rw [if_neg h90]
    by_cases h95 : c = 95
    · rw [if_pos h95]
      exact hsame 36 (by omega)
    rw [if_neg h95]
    by_cases h36 : c = 36
    · rw [if_pos h36]
      subst h36
      by_cases hall : ∀ d ∈ p, d = 90
      · rw [carryLoop_all_Z p [36] true hall]
        simp only [if_true]
        refine ⟨_, rfl, fun _ => ?_, fun hne => absurd ⟨hlast, by rw [hdrop]; exact hall⟩ hne⟩
        exact (List.replicate_succ' ((p ++ [36]).length) 97).symm
      · obtain ⟨out, fl, he, hcase⟩ := carryLoop_spec p [36] true hp
        rw [he]
        rcases hcase with ⟨_, _, h3⟩ | ⟨h1, h2, _, _⟩
        · exact absurd h3 hall
        · subst h1
          simp only [Bool.false_eq_true, if_false]
          refine ⟨out, rfl, fun hov => ?_, fun _ => h2⟩
          rw [hdrop] at hov
          exact absurd hov.2 hall
    · rw [if_neg h36]
      exact hsame _ h36

theorem iterNext_candidate (d : Nat) :
    ∀ a b, isCandidate a = true → iterNext d a = some b →
      isCandidate b = true ∧ val a ≤ val b ∧ (1 ≤ d → val a < val b) ∧ a.length ≤ b.length := by
  induction d with
  | zero =>
    intro a b ha h
    simp only [iterNext, Option.some.injEq] at h
    subst h
    exact ⟨ha, le_refl _, fun h => by omega, le_refl _⟩
  | succ d ih =>
    intro a b ha h
    obtain ⟨a1, hn, hc1, hv⟩ := next_candidate a ha
    obtain ⟨a2, hn2, hlen1, hlen2⟩ := next_length_candidate a ha
    rw [hn] at hn2
    have ha12 : a1 = a2 := Option.some.inj hn2
    subst ha12
    have hlen : a.length ≤ a1.length := by
      by_cases hov : a.getLast? = some 36 ∧ ∀ c ∈ a.dropLast, c = 90
      · rw [hlen1 hov]; simp
      · rw [hlen2 hov]
    simp only [iterNext, hn] at h
    obtain ⟨hb, hle, _, hl⟩ := ih a1 b hc1 h
    exact ⟨hb, by omega, fun _ => by omega, by omega⟩

theorem iterNext_split (i : Nat) :
    ∀ d s a b, iterNext i s = some a → iterNext (i + d) s = some b → iterNext d a = some b := by
  induction i with
  | zero =>
    intro d s a b h1 h2
    simp only [iterNext, Option.some.injEq] at h1
    subst h1
    simpa using h2
  | succ i ih =>
    intro d s a b h1 h2
    have he : i + 1 + d = (i + d) + 1 := by omega
    rw [he] at h2
    unfold iterNext at h1 h2
    cases hn : next s with
    | none => simp [hn] at h1
    | some s1 =>
      simp only [hn] at h1 h2
      exact ih d s1 a b h1 h2

/-- The generation sequence from a candidate name never repeats a name: a later
name has a greater value and is not shorter. -/
theorem iterNext_increasing (s : Name) (hs : isCandidate s = true) (i j : Nat) (a b : Name)
    (hij : i < j) (ha : iterNext i s = some a) (hb : iterNext j s = some b) :
    val a < val b ∧ a.length ≤ b.length ∧ a ≠ b := by
  obtain ⟨d, rfl⟩ : ∃ d, j = i + d := ⟨j - i, by omega⟩
  have hca := (iterNext_candidate i s a hs ha).1
  obtain ⟨_, _, hlt, hlen⟩ := iterNext_candidate d a b hca (iterNext_split i d s a b ha hb)
  have hv := hlt (by omega)
  refine ⟨hv, hlen, ?_⟩
  intro hab
  rw [hab] at hv
  exact lt_irrefl _ hv

theorem iterNext_seed_candidate (k : Nat) (name : Name)
    (h : iterNext k (bytes "`") = some name) : isCandidate name = true :=
  (iterNext_candidate k _ name (by decide) h).1

/-- C26: for every name generated from the seed, `next` returns a name; when
the last symbol of the argument is `$` and every earlier symbol is `Z` the
result is one symbol longer and all `a`, and in every other case the result
has the length of the argument. -/
theorem next_extends_length_on_overflow (k : Nat) (name : Name)
    (h : iterNext k (bytes "`") = some name) :
    ∃ out, next name = some out ∧
      ((name.getLast? = some 36 ∧ ∀ c ∈ name.dropLast, c = 90) →
        out = List.replicate (name.length + 1) 97) ∧
      (¬ (name.getLast? = some 36 ∧ ∀ c ∈ name.dropLast, c = 90) →
        out.length = name.length) :=
  next_length_candidate name (iterNext_seed_candidate k name h)

/-- Witness of C26: the name of index 54, `$`, is generated from the seed and
its successor is `aa`. -/
theorem next_extends_length_on_overflow_witness :
    iterNext 54 (bytes "`") = some (bytes "$") ∧ next (bytes "$") = some (bytes "aa") ∧
    ∃ out, next (bytes "$") = some out ∧
      (((bytes "$").getLast? = some 36 ∧ ∀ c ∈ (bytes "$").dropLast, c = 90) →
        out = List.replicate ((bytes "$").length + 1) 97) ∧
      (¬ ((bytes "$").getLast? = some 36 ∧ ∀ c ∈ (bytes "$").dropLast, c = 90) →
        out.length = (bytes "$").length) :=
  ⟨by decide, by decide, next_extends_length_on_overflow 54 (bytes "$") (by decide)⟩

/-! ## The renamer: termination and distinct names -/

theorem skipReserved_bounded (r : renamer) (fuel : Nat) :
    ∀ name, isCandidate name = true → pending (reservedNames r) (val name) ≤ fuel →
      ∃ k out, k ≤ pending (reservedNames r) (val name) ∧
        skipReserved fuel r name = some out ∧ iterNext k name = some out ∧
        r.isReserved out = false := by
  induction fuel with
  | zero =>
    intro name hc hf
    unfold skipReserved
    by_cases hr : r.isReserved name = true
    · obtain ⟨n1, _, _, hv⟩ := next_candidate name hc
      have := pending_lt _ name (val n1) (isReserved_mem r name hr) hv
      omega
    · simp only [hr, Bool.false_eq_true, if_false]
      exact ⟨0, name, Nat.zero_le _, rfl, rfl, by simpa using hr⟩
  | succ f ih =>
    intro name hc hf
    unfold skipReserved
    by_cases hr : r.isReserved name = true
    · obtain ⟨n1, hn, hc1, hv⟩ := next_candidate name hc
      have hlt := pending_lt _ name (val n1) (isReserved_mem r name hr) hv
      obtain ⟨k, out, hk, hs, hi, hro⟩ := ih n1 hc1 (by omega)
      simp only [hr, if_true, hn]
      exact ⟨k + 1, out, by omega, hs, by simp only [iterNext, hn, hi], hro⟩
    · simp only [hr, Bool.false_eq_true, if_false]
      exact ⟨0, name, Nat.zero_le _, rfl, rfl, by simpa using hr⟩

theorem skipReserved_mono (r : renamer) (f : Nat) :
    ∀ f1 a b, f ≤ f1 → skipReserved f r a = some b → skipReserved f1 r a = some b := by
  induction f with
  | zero =>
    intro f1 a b _ h
    unfold skipReserved at h
    by_cases hr : r.isReserved a = true
    · simp [hr] at h
    · simp only [hr, Bool.false_eq_true, if_false] at h
      unfold skipReserved
      simp only [hr, Bool.false_eq_true, if_false, h]
  | succ f ih =>
    intro f1 a b hle h
    obtain ⟨f2, rfl⟩ : ∃ f2, f1 = f2 + 1 := ⟨f1 - 1, by omega⟩
    unfold skipReserved at h ⊢
    by_cases hr : r.isReserved a = true
    · simp only [hr, if_true] at h ⊢
      cases hn : next a with
      | none => simp [hn] at h
      | some a1 =>
        simp only [hn] at h ⊢
        exact ih f2 a1 b (by omega) h
    · simp only [hr, Bool.false_eq_true, if_false] at h ⊢
      exact h

theorem assignNames_mono (r : renamer) (f f1 : Nat) (hle : f ≤ f1) (names : List Name) :
    ∀ acc rename out, assignNames f r names acc rename = some out →
      assignNames f1 r names acc rename = some out := by
  induction names with
  | nil => intro acc rename out h; simpa [assignNames] using h
  | cons name rest ih =>
    intro acc rename out h
    unfold assignNames at h ⊢
    cases hn : next rename with
    | none => simp [hn] at h
    | some n1 =>
      simp only [hn] at h ⊢
      cases hs : skipReserved f r n1 with
      | none => simp [hs] at h
      | some n2 =>
        simp only [hs] at h
        simp only [skipReserved_mono r f f1 n1 n2 hle hs]
        exact ih _ _ out h

theorem enterScope_mono (r r1 : renamer) (f f1 : Nat) (hle : f ≤ f1) (scope : Scope)
    (isBlock : Bool) (h : r.enterScope f scope isBlock = some r1) :
    r.enterScope f1 scope isBlock = some r1 := by
  obtain ⟨acc, tbl, last, hinh, ha, hr1⟩ := (enterScope_spec f r r1 scope isBlock).1 h
  exact (enterScope_spec f1 r r1 scope isBlock).2
    ⟨acc, tbl, last, hinh, assignNames_mono r f f1 hle _ _ _ _ ha, hr1⟩

/-- C27: `enterScope` terminates: in the global scope, and in a nested scope
with a table to inherit from, it returns the same state for every fuel from
the number of names that `isReserved` can reject. The loop that advances the
candidate while `isReserved` holds returns after at most that many calls of
`next`, and the sequence of `next` from the seed never comes back to a name. -/
theorem enterScope_terminates (r : renamer) (scope : Scope) (isBlock : Bool) :
    ((r.inGlobalScope = true ∨ r.renames ≠ []) →
      ∃ r1, ∀ fuel, (reservedNames r).length ≤ fuel →
        r.enterScope fuel scope isBlock = some r1) ∧
    (∀ name, isCandidate name = true →
      ∃ k out, k ≤ (reservedNames r).length ∧ iterNext k name = some out ∧
        r.isReserved out = false ∧
        ∀ fuel, (reservedNames r).length ≤ fuel → skipReserved fuel r name = some out) ∧
    (∀ i j a b, i < j → iterNext i (bytes "`") = some a → iterNext j (bytes "`") = some b →
      a ≠ b) := by
  refine ⟨?_, ?_, ?_⟩
  · intro hr
    obtain ⟨r1, h1⟩ := enterScope_total r (reservedNames r).length scope isBlock (le_refl _) hr
    exact ⟨r1, fun fuel hf => enterScope_mono r r1 _ fuel hf scope isBlock h1⟩
  · intro name hc
    have hp := pending_le_length (reservedNames r) (val name)
    obtain ⟨k, out, hk, hs, hi, hro⟩ := skipReserved_bounded r (reservedNames r).length name hc hp
    exact ⟨k, out, le_trans hk hp, hi, hro, fun fuel hf => skipReserved_mono r _ fuel name out hf hs⟩
  · intro i j a b hij ha hb
    exact (iterNext_increasing (bytes "`") (by decide) i j a b hij ha hb).2.2

/-- Witness of C27: the scope of the inner function of
`function f(x){ return function(y){ return x + y } }`, entered in the scope of
`f`, and the search from the candidate `if`, a keyword. -/
theorem enterScope_terminates_witness :
    (stateOuter.inGlobalScope = true ∨ stateOuter.renames ≠ []) ∧
    isCandidate (bytes "if") = true ∧ stateOuter.isReserved (bytes "if") = true ∧
    (((stateOuter.inGlobalScope = true ∨ stateOuter.renames ≠ []) →
      ∃ r1, ∀ fuel, (reservedNames stateOuter).length ≤ fuel →
        stateOuter.enterScope fuel scopeInner false = some r1) ∧
    (∀ name, isCandidate name = true →
      ∃ k out, k ≤ (reservedNames stateOuter).length ∧ iterNext k name = some out ∧
        stateOuter.isReserved out = false ∧
        ∀ fuel, (reservedNames stateOuter).length ≤ fuel →
          skipReserved fuel stateOuter name = some out) ∧
    (∀ i j a b, i < j → iterNext i (bytes "`") = some a → iterNext j (bytes "`") = some b →
      a ≠ b)) :=
  ⟨Or.inr (by decide), by decide, by decide, enterScope_terminates stateOuter scopeInner false⟩

theorem assigned_values_increase (tbl : GoMap Name) (s : Name) (hs : isCandidate s = true)
    (names : List Name) (ks : List Nat)
    (hall : List.Forall₂
      (fun name k => ∃ v, iterNext k s = some v ∧ lookup tbl name = some v) names ks)
    (hks : ks.Pairwise (fun a b => a < b)) :
    names.Pairwise (fun a b =>
      ∃ va vb, lookup tbl a = some va ∧ lookup tbl b = some vb ∧ va ≠ vb) := by
  induction hall with
  | nil => exact List.Pairwise.nil
  | cons hhead htail ih =>
    rename_i a k rest ks1
    obtain ⟨hk, hks1⟩ := List.pairwise_cons.1 hks
    refine List.Pairwise.cons ?_ (ih hks1)
    intro b hb
    obtain ⟨va, hva, hla⟩ := hhead
    obtain ⟨k1, hk1, vb, hvb, hlb⟩ : ∃ k1, k1 ∈ ks1 ∧ ∃ v, iterNext k1 s = some v ∧
        lookup tbl b = some v := by
      clear ih hks hks1 hk
      induction htail with
      | nil => cases hb
      | cons h1 _ ih1 =>
        rcases List.mem_cons.1 hb with rfl | hb1
        · exact ⟨_, List.mem_cons_self _ _, h1⟩
        · obtain ⟨k1, hk1, h⟩ := ih1 hb1
          exact ⟨k1, List.mem_cons_of_mem _ hk1, h⟩
    exact ⟨va, vb, hla, hlb, (iterNext_increasing s hs k k1 va vb (hk k1 hk1) hva hvb).2.2⟩

/-- C29: the sequence of `next` from the seed never repeats a name: a later name
has a greater value in base 55 and is not shorter. Hence, for a variable table
with distinct keys, `enterScope` returns and gives distinct names to distinct
names that the scope declares with a positive use count, in the deterministic
mode and in the order of iteration. -/
theorem assigned_names_distinct (r : renamer) (fuel : Nat) (scope : Scope) (isBlock : Bool)
    (hkeys : (scope.Vars.map Prod.fst).Nodup) (hfuel : (reservedNames r).length ≤ fuel)
    (hr : r.inGlobalScope = true ∨ r.renames ≠ []) :
    (∀ i j a b, i < j → iterNext i (bytes "`") = some a → iterNext j (bytes "`") = some b →
      val a < val b ∧ a.length ≤ b.length ∧ a ≠ b) ∧
    ∃ r1 tbl, r.enterScope fuel scope isBlock = some r1 ∧ r1.renames = r.renames ++ [tbl] ∧
      ∀ a b, a ∈ boundNames scope.Vars → b ∈ boundNames scope.Vars → a ≠ b →
        ∃ va vb, lookup tbl a = some va ∧ lookup tbl b = some vb ∧ va ≠ vb := by
  refine ⟨fun i j a b hij ha hb => iterNext_increasing _ (by decide) i j a b hij ha hb, ?_⟩
  obtain ⟨r1, he⟩ := enterScope_total r fuel scope isBlock hfuel hr
  obtain ⟨acc, tbl, last, _, ha, hr1⟩ := (enterScope_spec fuel r r1 scope isBlock).1 he
  refine ⟨r1, tbl, he, by rw [hr1], ?_⟩
  have hnd : (if r.deterministic = true then sortStrings (boundNames scope.Vars)
      else boundNames scope.Vars).Nodup := by
    by_cases hd : r.deterministic = true
    · simp only [hd, if_true]
      exact (sortStrings_ascending _ (boundNames_nodup _ hkeys)).2
    · simp only [hd]
      exact boundNames_nodup _ hkeys
  obtain ⟨ks, hall, hpair, _⟩ := assignNames_indices r fuel _ acc _ tbl last hnd ha
  have hpw := assigned_values_increase tbl (bytes "`") (by decide) _ ks hall hpair
  have hsymm : Symmetric (fun a b : Name =>
      ∃ va vb, lookup tbl a = some va ∧ lookup tbl b = some vb ∧ va ≠ vb) := by
    rintro a b ⟨va, vb, h1, h2, h3⟩
    exact ⟨vb, va, h2, h1, fun h => h3 h.symm⟩
  intro a b hma hmb hab
  exact List.Pairwise.forall hsymm hpw ((mem_assigned r scope a).2 hma)
    ((mem_assigned r scope b).2 hmb) hab

/-- Witness of C29: a scope that declares `p` and `q`, entered in the scope of
`f` of `function f(x){ … }` where `a` is taken by no variable: `p` receives `a`
and `q` receives `b`. -/
theorem assigned_names_distinct_witness :
    (stateOuter.enterScope 8 { Vars := [(bytes "q", declared 1), (bytes "p", declared 1)] }
      false).map (fun r1 => r1.renames.getLast?)
      = some (some [(bytes "p", bytes "a"), (bytes "q", bytes "b")]) ∧
    ((∀ i j a b, i < j → iterNext i (bytes "`") = some a → iterNext j (bytes "`") = some b →
      val a < val b ∧ a.length ≤ b.length ∧ a ≠ b) ∧
    ∃ r1 tbl,
      stateOuter.enterScope 8 { Vars := [(bytes "q", declared 1), (bytes "p", declared 1)] }
        false = some r1 ∧
      r1.renames = stateOuter.renames ++ [tbl] ∧
      ∀ a b, a ∈ boundNames [(bytes "q", declared 1), (bytes "p", declared 1)] →
        b ∈ boundNames [(bytes "q", declared 1), (bytes "p", declared 1)] → a ≠ b →
        ∃ va vb, lookup tbl a = some va ∧ lookup tbl b = some vb ∧ va ≠ vb) :=
  ⟨by decide,
    assigned_names_distinct stateOuter 8
      { Vars := [(bytes "q", declared 1), (bytes "p", declared 1)] } false (by decide)
      (by decide) (Or.inr (by decide))⟩

/-! ## The renamer: generated names are identifiers -/

theorem isTail_of_isLetter (c : Nat) (h : isLetter c = true) : isTail c = true := by
  simp [isTail, h]

theorem isTail_iff (c : Nat) :
    isTail c = true ↔ ((97 ≤ c ∧ c ≤ 122) ∨ (65 ≤ c ∧ c ≤ 90) ∨ c = 95 ∨ c = 36) := by
  simp only [isTail, isLetter, Bool.or_eq_true, decide_eq_true_eq]
  tauto

theorem isShortName_iff (v : Name) :
    isShortName v = true ↔
      v ≠ [] ∧ ∀ c ∈ v, ((97 ≤ c ∧ c ≤ 122) ∨ (65 ≤ c ∧ c ≤ 90) ∨ c = 95 ∨ c = 36) := by
  simp only [isShortName, Bool.and_eq_true, Bool.not_eq_true', List.isEmpty_eq_false,
    List.all_eq_true, isTail_iff, ne_eq]

theorem val_seed : val (bytes "`") = 0 := by decide

/-- A candidate name of positive value is a short name. -/
theorem isShortName_of_candidate (name : Name) (h : isCandidate name = true)
    (hv : 0 < val name) : isShortName name = true := by
  rcases (isCandidate_iff name).1 h with rfl | ⟨p, c, rfl, hp, hc⟩
  · exact absurd hv (by decide)
  · refine (isShortName_iff _).2 ⟨by simp, ?_⟩
    intro x hx
    refine (isTail_iff x).1 ?_
    rcases List.mem_append.1 hx with hx1 | hx1
    · exact isTail_of_isLetter x (hp x hx1)
    · rw [List.mem_singleton.1 hx1]; exact hc

theorem iterNext_total (k : Nat) :
    ∀ a, isCandidate a = true → ∃ b, iterNext k a = some b := by
  induction k with
  | zero => intro a _; exact ⟨a, rfl⟩
  | succ k ih =>
    intro a ha
    obtain ⟨a1, hn, hc1, _⟩ := next_candidate a ha
    obtain ⟨b, hb⟩ := ih a1 hc1
    exact ⟨b, by simp only [iterNext, hn, hb]⟩

theorem isShortName_iterNext (k : Nat) (name : Name) (hk : 1 ≤ k)
    (h : iterNext k (bytes "`") = some name) : isShortName name = true := by
  obtain ⟨hc, _, hlt, _⟩ := iterNext_candidate k (bytes "`") name (by decide) h
  have := hlt hk
  rw [val_seed] at this
  exact isShortName_of_candidate name hc this

/-- The values that the assignment loop stores, from a candidate name, are
short names. -/
theorem shortValues_assignNames (fuel : Nat) (r : renamer) (names : List Name) :
    ∀ acc rename out last, isCandidate rename = true →
      ValuesSat (fun v => isShortName v = true) acc →
      assignNames fuel r names acc rename = some (out, last) →
      ValuesSat (fun v => isShortName v = true) out := by
  induction names with
  | nil =>
    intro acc rename out last _ hacc he
    simp only [assignNames, Option.some.injEq, Prod.mk.injEq] at he
    rw [← he.1]; exact hacc
  | cons name rest ih =>
    intro acc rename out last hc hacc he
    unfold assignNames at he
    obtain ⟨n1, hn, hc1, hv1⟩ := next_candidate rename hc
    simp only [hn] at he
    cases hs : skipReserved fuel r n1 with
    | none => simp [hs] at he
    | some n2 =>
      simp only [hs] at he
      obtain ⟨k, hk⟩ := skipReserved_iterNext r fuel n1 n2 hs
      obtain ⟨hc2, hle, _, _⟩ := iterNext_candidate k n1 n2 hc1 hk
      refine ih _ n2 out last hc2 ?_ he
      exact valuesSat_mapSet _ acc name n2 hacc
        (isShortName_of_candidate n2 hc2 (by omega))

theorem shortValues_enterScope (fuel : Nat) (r r1 : renamer) (scope : Scope) (isBlock : Bool)
    (hinv : ShortValues r) (h : r.enterScope fuel scope isBlock = some r1) :
    ShortValues r1 := by
  obtain ⟨acc, tbl, last, hinh, ha, rfl⟩ := (enterScope_spec fuel r r1 scope isBlock).1 h
  have hacc : ValuesSat (fun v => isShortName v = true) acc := by
    rcases hinh with ⟨_, rfl⟩ | ⟨_, parent, hparent, rfl⟩
    · intro p hp; cases hp
    · exact valuesSat_inheritRenames _ parent (hinv parent (List.mem_of_mem_getLast? hparent))
        scope.Vars [] (fun p hp => by cases hp)
  intro tbl1 hmem
  rcases List.mem_append.1 hmem with hm | hm
  · exact hinv tbl1 hm
  · rw [List.mem_singleton.1 hm]
    exact shortValues_assignNames fuel r _ acc _ tbl last (by decide) hacc ha

theorem shortValues_exitScope (r r1 : renamer) (hinv : ShortValues r)
    (h : r.exitScope = some r1) : ShortValues r1 := by
  unfold renamer.exitScope at h
  simp only at h
  split at h
  · exact absurd h (by simp)
  · split at h
    · exact absurd h (by simp)
    · simp only [Option.some.injEq] at h
      subst h
      intro tbl hmem
      exact hinv tbl (List.mem_of_mem_take hmem)

theorem shortValues_reachable (keywords globals undeclared : List Name) (det : Bool)
    (r : renamer) (h : Reachable (newRenamer keywords globals undeclared det) r) :
    ShortValues r := by
  induction h with
  | init =>
    intro tbl hmem
    simp only [newRenamer, List.mem_singleton] at hmem
    subst hmem
    intro p hp; cases hp
  | enter fuel scope isBlock _ he ih => exact shortValues_enterScope fuel _ _ scope isBlock ih he
  | exit _ he ih => exact shortValues_exitScope _ _ ih he

/-- C31: every application of `next` along the sequence from the seed returns,
and every name obtained by one or more applications is not empty and consists
only of the bytes `a` to `z`, `A` to `Z`, `_` and `$`. So, in every state
reached from `newRenamer`, every value stored in a rename table is such a
name. -/
theorem generated_names_are_identifiers (keywords globals undeclared : List Name) (det : Bool)
    (r : renamer) (h : Reachable (newRenamer keywords globals undeclared det) r) :
    (∀ k, ∃ name, iterNext k (bytes "`") = some name) ∧
    (∀ k name, 1 ≤ k → iterNext k (bytes "`") = some name →
      name ≠ [] ∧
        ∀ c ∈ name, ((97 ≤ c ∧ c ≤ 122) ∨ (65 ≤ c ∧ c ≤ 90) ∨ c = 95 ∨ c = 36)) ∧
    ∀ tbl ∈ r.renames, ∀ key v, (key, v) ∈ tbl →
      v ≠ [] ∧ ∀ c ∈ v, ((97 ≤ c ∧ c ≤ 122) ∨ (65 ≤ c ∧ c ≤ 90) ∨ c = 95 ∨ c = 36) := by
  refine ⟨fun k => iterNext_total k _ (by decide), ?_, ?_⟩
  · intro k name hk hname
    exact (isShortName_iff name).1 (isShortName_iterNext k name hk hname)
  · intro tbl hmem key v hkv
    exact (isShortName_iff v).1 (shortValues_reachable keywords globals undeclared det r h tbl hmem
      (key, v) hkv)

/-- Witness of C31: the state in the scope of `f` of `function f(x){ … }`,
whose table binds `x` to `a`; the name of index 54 of the sequence is `$`. -/
theorem generated_names_are_identifiers_witness :
    Reachable (newRenamer someKeywords someGlobals [] true) stateOuter ∧
    stateOuter.renames = [[], [(bytes "x", bytes "a")]] ∧
    iterNext 54 (bytes "`") = some (bytes "$") ∧
    ((∀ k, ∃ name, iterNext k (bytes "`") = some name) ∧
    (∀ k name, 1 ≤ k → iterNext k (bytes "`") = some name →
      name ≠ [] ∧
        ∀ c ∈ name, ((97 ≤ c ∧ c ≤ 122) ∨ (65 ≤ c ∧ c ≤ 90) ∨ c = 95 ∨ c = 36)) ∧
    ∀ tbl ∈ stateOuter.renames, ∀ key v, (key, v) ∈ tbl →
      v ≠ [] ∧ ∀ c ∈ v, ((97 ≤ c ∧ c ≤ 122) ∨ (65 ≤ c ∧ c ≤ 90) ∨ c = 95 ∨ c = 36)) :=
  ⟨reachable_stateOuter, rfl, by decide,
    generated_names_are_identifiers someKeywords someGlobals [] true stateOuter
      reachable_stateOuter⟩

/-! ## The renamer: a name lost after a sibling scope -/

/-- C13: the code at the failing input. In
`function f(x){ function g(){} return function(){ return x } }` the scope of
`f` renames `x` to `a` and the parameter list is written `(a)`; entering and
leaving the scope of `g` removes the table of `f` from the stack, so the
function expression that merely uses `x` inherits no entry, `rename` gives `x`
before and after its scope is entered, and it is written
`function(){return x}`. -/
theorem inherited_name_lost_after_sibling_scope :
    (∃ r1 r2 r4,
      sampleMinifier.renamer.enterScope 8 scopeSiblingOuter false = some r1 ∧
      r1.enterScope 8 scopeEmpty false = some r2 ∧ r2.exitScope = some stateAfterSibling ∧
      stateAfterSibling.enterScope 8 scopeSiblingInner false = some r4 ∧
      r1.renames = [[], [(bytes "x", bytes "a")]] ∧ r1.rename (bytes "x") = bytes "a" ∧
      stateAfterSibling.rename (bytes "x") = bytes "x" ∧
      r4.renames = [[], []] ∧ r4.rename (bytes "x") = bytes "x" ∧
      written (minifyParams sampleExt 4 (Params.mk [plainDeclarator (bytes "x")] none)
        { sampleMinifier with renamer := r1 }) = some (bytes "(a)")) ∧
    written (minifyExpr sampleExt 6 exprSiblingInner 0
        { sampleMinifier with renamer := stateAfterSibling })
      = some (bytes "function()\x7breturn x\x7d") := by
  refine ⟨⟨_, _, _, rfl, rfl, rfl, rfl, by decide, by decide, by decide, by decide, by decide,
    by decide⟩, by decide⟩

end JS
